import Mathlib

/-!
Verification of timing, grouping, node-list and generator control-flow
properties of the saugns audio synthesis program.

The development shallowly embeds the relevant C functions:

* `src/reader/parseconv.c`: `group_events`, `time_operator`, `time_event`,
  `scan_time_val` (timing passes of the parse-to-script conversion);
* `src/nodelist.c`: `SAU_copy_NodeList`, `SAU_NodeList_add`;
* `src/unnamed/part_003` (mgensys audio generator): `calc_bufs`,
  `calc_bufs_waveenv`, `upsize_bufs`, `adjust_time`,
  `MGS_Generator_prepare_node`, `MGS_Generator_run`.

Machine integers: the C code stores times and waits in `uint32_t` and
positions in `int`.  We model `uint32_t` as `Nat` with explicit reduction
modulo `2^32` wherever the C code can wrap, and `int` as `Int`.
-/

namespace Saugns

/-- Modulus of C `uint32_t` arithmetic. -/
def U32 : Nat := 4294967296

/-- C `uint32_t` addition: `a + b` reduced modulo `2^32`. -/
def uadd32 (a b : Nat) : Nat := (a + b) % U32

/-- C `uint32_t` subtraction: `a - b` reduced modulo `2^32` (wraps on underflow). -/
def usub32 (a b : Nat) : Nat := (a % U32 + (U32 - b % U32)) % U32

/-- C conversion of an `int` value to `uint32_t` (reduction modulo `2^32`). -/
def u32ofInt (i : Int) : Nat := (i % 4294967296).toNat

theorem usub32_exact {a b : Nat} (hb : b ≤ a) (ha : a < U32) :
    usub32 a b = a - b := by
  have hbU : b < U32 := lt_of_le_of_lt hb ha
  unfold usub32
  rw [Nat.mod_eq_of_lt ha, Nat.mod_eq_of_lt hbU]
  have h1 : a + (U32 - b) = U32 + (a - b) := by omega
  rw [h1, Nat.add_mod_left, Nat.mod_eq_of_lt (by omega)]

theorem uadd32_exact {a b : Nat} (h : a + b < U32) : uadd32 a b = a + b := by
  unfold uadd32; exact Nat.mod_eq_of_lt h

theorem u32ofInt_ofNat {n : Nat} (h : n < U32) : u32ofInt (n : Int) = n := by
  unfold u32ofInt U32 at *
  omega

theorem u32ofInt_neg_pos {p : Nat} (h0 : 0 < p) (h : p < U32) :
    u32ofInt (-(p : Int)) = U32 - p := by
  unfold u32ofInt U32 at *
  omega

/-! ## C9: `scan_time_val` (src/reader/parseconv.c lines 715-727)

```c
static sauNoinline bool scan_time_val(SAU_Scanner *restrict o,
                uint32_t *restrict val) {
        SAU_ScanFrame sf = o->sf;
        float val_s;
        if (!scan_num(o, NULL, &val_s))
                return false;
        if (val_s < 0.f) {
                SAU_Scanner_warning(o, &sf, "discarding negative time value");
                return false;
        }
        *val = lrint(val_s * 1000.f);
        return true;
}
```

The numeric scan is a collaborator (`scan_num`); its result is the input
`num` below (`none` models a failed scan: NaN or infinite expression).
The scanned number is modelled as an exact rational; `lrint` is nearest
rounding (`round`).  The `long` result is converted to `uint32_t` on
assignment.  The result triple is (warned, return value, destination). -/

structure TimeValResult where
  warned : Bool
  ok : Bool
  val : Nat
  deriving Repr, DecidableEq

/-- Embedding of `scan_time_val`: `num` is the scanned number (seconds),
`val` the current destination value. -/
def scan_time_val (num : Option ℚ) (val : Nat) : TimeValResult :=
  match num with
  | none => ⟨false, false, val⟩
  | some q =>
    if q < 0 then ⟨true, false, val⟩
    else ⟨false, true, (round (q * 1000) : Int).toNat % U32⟩

/-- C9 (confirmed): for every numeric time value read via `scan_time_val`,
a negative scanned number produces a warning, a `false` return and leaves
the destination unchanged; otherwise the value in seconds is converted to
milliseconds by rounding. -/
theorem scan_time_val_spec (q : ℚ) (val : Nat) :
    (q < 0 → scan_time_val (some q) val = ⟨true, false, val⟩) ∧
    (0 ≤ q → scan_time_val (some q) val =
      ⟨false, true, (round (q * 1000) : Int).toNat % U32⟩) := by
  constructor
  · intro h; simp [scan_time_val, h]
  · intro h; simp [scan_time_val, not_lt.mpr h]

/-- Witness for C9 at concrete inputs `-1/2` and `3/2` seconds. -/
theorem scan_time_val_spec_witness :
    scan_time_val (some (-1/2)) 77 = ⟨true, false, 77⟩ ∧
    scan_time_val (some (3/2)) 77 = ⟨false, true, 1500⟩ := by
  refine ⟨(scan_time_val_spec (-1/2) 77).1 (by norm_num), ?_⟩
  have h := (scan_time_val_spec (3/2) 77).2 (by norm_num)
  rw [h]
  norm_num [U32]
  decide

/-! ## C5: scratch-buffer accounting (src/unnamed/part_003 lines 99-133)

`SoundNode` modulation-tree shape, as consumed by `calc_bufs` and
`calc_bufs_waveenv`: the three modulator chains and the sibling link.
The C functions only read the `fmodchain`, `amodchain`, `pmodchain` and
`link` pointers, so only those fields are modelled (the graph is a tree
up to sharing; the C recursion likewise assumes acyclicity). -/

inductive SoundTree where
  | mk (fmodchain : Option SoundTree) (amodchain : Option SoundTree)
       (pmodchain : Option SoundTree) (link : Option SoundTree)

/- Loop state of `calc_bufs` / `calc_bufs_waveenv`: the C locals are
`int count, i`; each `goto BEGIN` iteration advances to `n->link`. -/
mutual

def calcBufsGo : SoundTree → Int → Int → Int
  | .mk f a p l, count, i =>
    let count := count + 1
    let i := match f with
      | some fn => calcBufsWaveenvGo fn 1 0
      | none => i
    let count := count + 1
    let i := i - 1
    let i := match a with
      | some an => max i (calcBufsWaveenvGo an 1 0)
      | none => i
    let i := match p with
      | some pn => max i (calcBufsGo pn 1 0)
      | none => i
    match l with
    | none => if i > 0 then count + i else count
    | some ln => calcBufsGo ln (count + 1) (i - 1)

def calcBufsWaveenvGo : SoundTree → Int → Int → Int
  | .mk f _ p l, count, i =>
    let count := count + 1
    let i := match f with
      | some fn => calcBufsWaveenvGo fn 1 0
      | none => i
    let i := match p with
      | some pn => max i (calcBufsGo pn 1 0)
      | none => i
    match l with
    | none => if i > 0 then count + i else count
    | some ln => calcBufsWaveenvGo ln (count + 1) (i - 1)

end

/-- Embedding of `calc_bufs` (entered with `count = 1, i = 0`). -/
def calc_bufs (n : SoundTree) : Int := calcBufsGo n 1 0

/-- Embedding of `calc_bufs_waveenv` (entered with `count = 1, i = 0`). -/
def calc_bufs_waveenv (n : SoundTree) : Int := calcBufsWaveenvGo n 1 0

/-- Embedding of `upsize_bufs`: the generator state it touches is `bufc`
(the reallocation of the `bufs` array tracks `bufc` exactly).  The C
assigns the `int` result of `calc_bufs` to a `uint32_t` local. -/
def upsize_bufs (bufc : Nat) (n : SoundTree) : Nat :=
  let count := u32ofInt (calc_bufs n)
  if count > bufc then count else bufc

/-- C5 (confirmed): if every top-level sound node of the active set already
satisfies `calc_bufs top ≤ bufc`, then after a run node for top `t` is
prepared (`MGS_Generator_prepare_node` calls `upsize_bufs` on the top of
the prepared node's tree, part_003 lines 317-325), the buffer count never
decreases and bounds `calc_bufs` for every tree of the enlarged active
set.  `bufc` is written nowhere else in the generator, so it never
decreases over the generator's lifetime. -/
theorem upsize_bufs_depth_bound (bufc : Nat) (tops : List SoundTree)
    (t : SoundTree) (h : ∀ u ∈ tops, u32ofInt (calc_bufs u) ≤ bufc) :
    bufc ≤ upsize_bufs bufc t ∧
    ∀ u ∈ t :: tops, u32ofInt (calc_bufs u) ≤ upsize_bufs bufc t := by
  unfold upsize_bufs
  by_cases hc : u32ofInt (calc_bufs t) > bufc
  · simp only [hc, if_pos]
    refine ⟨le_of_lt hc, ?_⟩
    intro u hu
    rcases List.mem_cons.mp hu with rfl | hu
    · exact le_refl _
    · exact le_trans (h u hu) (le_of_lt hc)
  · simp only [hc, if_neg, not_false_iff]
    refine ⟨le_refl _, ?_⟩
    intro u hu
    rcases List.mem_cons.mp hu with rfl | hu
    · exact not_lt.mp hc
    · exact h u hu

/-- Witness for C5: a concrete two-operator active set. -/
theorem upsize_bufs_depth_bound_witness :
    (∀ u ∈ [SoundTree.mk none none none none],
        u32ofInt (calc_bufs u) ≤ 3) ∧
    (3 ≤ upsize_bufs 3 (SoundTree.mk (some (.mk none none none none))
        none none none) ∧
     ∀ u ∈ (SoundTree.mk (some (.mk none none none none)) none none none) ::
        [SoundTree.mk none none none none],
        u32ofInt (calc_bufs u) ≤ upsize_bufs 3 (SoundTree.mk
          (some (.mk none none none none)) none none none)) := by
  have h : ∀ u ∈ [SoundTree.mk none none none none],
      u32ofInt (calc_bufs u) ≤ 3 := by decide
  exact ⟨h, upsize_bufs_depth_bound 3 [SoundTree.mk none none none none]
    (SoundTree.mk (some (.mk none none none none)) none none none) h⟩

/-! ## C10: node lists (src/nodelist.c)

Reference cells (`SAU_NodeRef`) live in a store addressed by allocation
order (`SAU_MemPool_alloc` / `SAU_MemPool_memdup` append a cell); `next`
pointers are store addresses.  `data` is the opaque `void *` payload,
modelled as a number. -/

structure SAU_NodeRef where
  data : Nat
  mode : Nat
  list_type : Nat
  next : Option Nat
  deriving Repr, DecidableEq

/-- Default cell used for out-of-bounds reads (never hit under the
well-formedness hypotheses of the theorems below). -/
def dref : SAU_NodeRef := ⟨0, 0, 0, none⟩

abbrev Store := List SAU_NodeRef

structure SAU_NodeList where
  refs : Option Nat
  new_refs : Option Nat
  last_ref : Option Nat
  type : Nat
  deriving Repr, DecidableEq

/-- Write the `next` field of the cell at address `a`. -/
def storeSetNext (st : Store) (a : Nat) (nx : Option Nat) : Store :=
  st.set a { st.getD a dref with next := nx }

/-- Write the `mode` and `list_type` fields of the cell at address `a`
(the tail of `SAU_NodeList_add`: `ref->mode = ref_mode;
ref->list_type = ol->type;`). -/
def storeSetModeType (st : Store) (a : Nat) (m t : Nat) : Store :=
  st.set a { st.getD a dref with mode := m, list_type := t }

/-- Embedding of `SAU_copy_NodeList`: produces the shallow copy written
through `*olp` (shared `refs`, cleared `new_refs` and `last_ref`). -/
def SAU_copy_NodeList (src : Option SAU_NodeList) : Option SAU_NodeList :=
  match src with
  | none => none
  | some s => some ⟨s.refs, none, none, s.type⟩

/-- The un-shallowing loop of `SAU_NodeList_add`: starting from the copy
of the list head at address `last`, duplicate the source cells from
`cur` onward, linking each duplicate to the previous one.  `fuel` bounds
the traversal (the C loop requires the source chain to be finite). -/
def unshallowCopy (st : Store) (cur : Option Nat) (last : Nat) :
    Nat → Store × Nat
  | 0 => (st, last)
  | fuel + 1 =>
    match cur with
    | none => (st, last)
    | some a =>
      let cell := st.getD a dref
      let addr := st.length
      let st := st ++ [cell]
      let st := storeSetNext st last (some addr)
      unshallowCopy st cell.next addr fuel

/-- Embedding of `SAU_NodeList_add`.  Allocation never fails in the
model (the claim concerns successful adds).  Returns the new store, the
updated list and the address of the created reference. -/
def SAU_NodeList_add (st : Store) (ol : SAU_NodeList) (d m : Nat) :
    Store × SAU_NodeList × Nat :=
  let refAddr := st.length
  let st := st ++ [⟨d, 0, 0, none⟩]
  match ol.refs with
  | none =>
    let ol := { ol with refs := some refAddr, new_refs := some refAddr,
                        last_ref := some refAddr }
    (storeSetModeType st refAddr m ol.type, ol, refAddr)
  | some headA =>
    match ol.new_refs with
    | none =>
      let headCell := st.getD headA dref
      let firstAddr := st.length
      let st := st ++ [headCell]
      let p := unshallowCopy st headCell.next firstAddr st.length
      let st := storeSetNext p.1 p.2 (some refAddr)
      let ol := { ol with refs := some firstAddr, new_refs := some refAddr,
                          last_ref := some refAddr }
      (storeSetModeType st refAddr m ol.type, ol, refAddr)
    | some _ =>
      let st := match ol.last_ref with
        | some lr => storeSetNext st lr (some refAddr)
        | none => st
      let ol := { ol with last_ref := some refAddr }
      (storeSetModeType st refAddr m ol.type, ol, refAddr)

/-- Reference chain: `ChainD st cur pairs` holds when following `next`
from `cur` visits exactly the addresses in `pairs` (with their `data`
payloads) and terminates. -/
inductive ChainD (st : Store) : Option Nat → List (Nat × Nat) → Prop
  | nil : ChainD st none []
  | cons {a : Nat} {l : List (Nat × Nat)} (ha : a < st.length)
      (h : ChainD st (st.getD a dref).next l) :
      ChainD st (some a) ((a, (st.getD a dref).data) :: l)

/-- Chain from a start address to a designated final address; the final
cell's `next` is unconstrained (it is about to be overwritten). -/
inductive ChainTo (st : Store) : Nat → List (Nat × Nat) → Nat → Prop
  | single {a : Nat} (ha : a < st.length) :
      ChainTo st a [(a, (st.getD a dref).data)] a
  | cons {a b z : Nat} {l : List (Nat × Nat)} (ha : a < st.length)
      (hnext : (st.getD a dref).next = some b) (h : ChainTo st b l z) :
      ChainTo st a ((a, (st.getD a dref).data) :: l) z

theorem store_getD_append_lt (st : Store) (c : SAU_NodeRef) {i : Nat}
    (h : i < st.length) : (st ++ [c]).getD i dref = st.getD i dref := by
  unfold List.getD
  simp only [List.get?_eq_getElem?]
  rw [List.getElem?_append_left h]

theorem store_getD_append_self (st : Store) (c : SAU_NodeRef) :
    (st ++ [c]).getD st.length dref = c := by
  unfold List.getD
  simp only [List.get?_eq_getElem?]
  rw [List.getElem?_concat_length]
  rfl

theorem store_getD_set_ne (st : Store) (a : Nat) (c : SAU_NodeRef) {i : Nat}
    (h : i ≠ a) : (st.set a c).getD i dref = st.getD i dref := by
  unfold List.getD
  simp only [List.get?_eq_getElem?]
  rw [List.getElem?_set_ne (fun hh => h hh.symm)]

theorem store_getD_set_self (st : Store) (a : Nat) (c : SAU_NodeRef)
    (h : a < st.length) : (st.set a c).getD a dref = c := by
  unfold List.getD
  simp only [List.get?_eq_getElem?]
  rw [List.getElem?_set_self h]
  rfl

theorem storeSetNext_getD_ne (st : Store) (a : Nat) (nx : Option Nat)
    {i : Nat} (h : i ≠ a) :
    (storeSetNext st a nx).getD i dref = st.getD i dref :=
  store_getD_set_ne st a _ h

theorem storeSetNext_getD_self (st : Store) (a : Nat) (nx : Option Nat)
    (h : a < st.length) :
    (storeSetNext st a nx).getD a dref = { st.getD a dref with next := nx } :=
  store_getD_set_self st a _ h

theorem storeSetNext_length (st : Store) (a : Nat) (nx : Option Nat) :
    (storeSetNext st a nx).length = st.length := List.length_set st a _

theorem storeSetModeType_getD_ne (st : Store) (a m t : Nat) {i : Nat}
    (h : i ≠ a) : (storeSetModeType st a m t).getD i dref = st.getD i dref :=
  store_getD_set_ne st a _ h

theorem storeSetModeType_length (st : Store) (a m t : Nat) :
    (storeSetModeType st a m t).length = st.length := List.length_set st a _

/-- A terminated chain is stable under store modifications that keep its
cells intact. -/
theorem ChainD.monoD {st st' : Store} {cur : Option Nat}
    {pairs : List (Nat × Nat)} (h : ChainD st cur pairs)
    (hkeep : ∀ p ∈ pairs, p.1 < st'.length ∧
      st'.getD p.1 dref = st.getD p.1 dref) :
    ChainD st' cur pairs := by
  induction h with
  | nil => exact ChainD.nil
  | cons ha h ih =>
    rename_i a l
    have hk := hkeep (a, (st.getD a dref).data) (List.mem_cons_self _ _)
    have hrest : ∀ p ∈ l, p.1 < st'.length ∧
        st'.getD p.1 dref = st.getD p.1 dref :=
      fun p hp => hkeep p (List.mem_cons_of_mem _ hp)
    have := @ChainD.cons st' a l hk.1 (by
      rw [hk.2]; exact ih hrest)
    rwa [hk.2] at this

/-- Behaviour of the un-shallowing loop: it duplicates the remaining
source chain into fresh cells, touching no cell except the running tail
of the copy, and returns the address of the final duplicate. -/
theorem unshallowCopy_spec (origLen : Nat) :
    ∀ (pairs : List (Nat × Nat)) (st : Store) (cur : Option Nat)
      (last fuel : Nat),
      ChainD st cur pairs →
      (∀ p ∈ pairs, p.1 < origLen) →
      pairs.length ≤ fuel →
      origLen ≤ last → last < st.length →
      (st.getD last dref).next = cur →
      ∃ st2 lastA tail,
        unshallowCopy st cur last fuel = (st2, lastA) ∧
        st.length ≤ st2.length ∧
        (∀ i, i < st.length → i ≠ last → st2.getD i dref = st.getD i dref) ∧
        (st2.getD last dref).data = (st.getD last dref).data ∧
        ChainTo st2 last ((last, (st.getD last dref).data) :: tail) lastA ∧
        tail.map Prod.snd = pairs.map Prod.snd ∧
        List.Chain' (· < ·) (last :: tail.map Prod.fst) ∧
        (∀ p ∈ tail, st.length ≤ p.1) ∧
        lastA = (last :: tail.map Prod.fst).getLast (by simp) := by
  intro pairs
  induction pairs with
  | nil =>
    intro st cur last fuel hch hbound hfuel hlast hlast2 hnext
    have hcur : cur = none := by cases hch; rfl
    subst hcur
    refine ⟨st, last, [], ?_, le_refl _, fun i _ _ => rfl, rfl, ?_, rfl,
      ?_, by simp, by simp⟩
    · cases fuel <;> rfl
    · exact ChainTo.single hlast2
    · simp
  | cons p l ih =>
    intro st cur last fuel hch hbound hfuel hlast hlast2 hnext
    cases hch with
    | cons ha htl =>
    rename_i a
    obtain ⟨f, rfl⟩ : ∃ f, fuel = f + 1 := by
      cases fuel with
      | zero => simp at hfuel
      | succ f => exact ⟨f, rfl⟩
    have hf : l.length ≤ f := by
      simp only [List.length_cons] at hfuel
      omega
    -- one loop iteration
    set cell := st.getD a dref with hcell
    set addr := st.length with haddr
    set stA := st ++ [cell] with hstA
    set stB := storeSetNext stA last (some addr) with hstB
    have hstep : unshallowCopy st (some a) last (f + 1) =
        unshallowCopy stB cell.next addr f := rfl
    have hlenA : stA.length = st.length + 1 := by simp [hstA]
    have hlenB : stB.length = st.length + 1 := by
      rw [hstB, storeSetNext_length, hlenA]
    -- cells below `addr`, other than `last`, are untouched by the iteration
    have hkeepB : ∀ i, i < st.length → i ≠ last →
        stB.getD i dref = st.getD i dref := by
      intro i hi hne
      rw [hstB, storeSetNext_getD_ne _ _ _ hne, hstA,
        store_getD_append_lt _ _ hi]
    -- the fresh copy sits at `addr` with the source cell's contents
    have haddrB : stB.getD addr dref = cell := by
      rw [hstB, storeSetNext_getD_ne _ _ _ (by omega : addr ≠ last), hstA,
        haddr, store_getD_append_self]
    -- `last` now links to the copy
    have hlastB : stB.getD last dref =
        { st.getD last dref with next := some addr } := by
      rw [hstB, hstA, storeSetNext_getD_self _ _ _ (by omega : last < stA.length),
        store_getD_append_lt _ _ hlast2]
    -- the source tail chain survives in stB
    have htlB : ChainD stB cell.next l := by
      refine ChainD.monoD htl ?_
      intro q hq
      have hqb := hbound q (List.mem_cons_of_mem _ hq)
      exact ⟨by omega, hkeepB q.1 (by omega) (by omega)⟩
    have hIH := ih stB cell.next addr f htlB
      (fun q hq => hbound q (List.mem_cons_of_mem _ hq))
      hf (by omega) (by omega) (by rw [haddrB])
    obtain ⟨st2, lastA, tail, hrun, hlen2, hkeep2, hdata2, hchain2, hmap2,
      hasc2, hfresh2, hlastA2⟩ := hIH
    refine ⟨st2, lastA, (addr, cell.data) :: tail, ?_, by omega, ?_, ?_, ?_,
      ?_, ?_, ?_, ?_⟩
    · rw [hstep, hrun]
    · intro i hi hne
      rw [hkeep2 i (by omega) (by omega), hkeepB i hi hne]
    · have := hkeep2 last (by omega) (by omega : last ≠ addr)
      rw [this, hlastB]
    · -- assemble the chain step from `last` to the copy at `addr`
      have hlast2' : (st2.getD last dref) =
          { st.getD last dref with next := some addr } := by
        rw [hkeep2 last (by omega) (by omega : last ≠ addr), hlastB]
      have hhead : ChainTo st2 addr ((addr, cell.data) :: tail) lastA := by
        rw [haddrB] at hchain2
        exact hchain2
      have := @ChainTo.cons st2 last addr lastA ((addr, cell.data) :: tail)
        (by omega : last < st2.length) (by rw [hlast2']) hhead
      have hd : (st2.getD last dref).data = (st.getD last dref).data := by
        rw [hlast2']
      rwa [hd] at this
    · simpa using hmap2
    · refine List.Chain'.cons (by omega) ?_
      exact hasc2
    · intro q hq
      rcases List.mem_cons.mp hq with rfl | hq
      · omega
      · have := hfresh2 q hq
        omega
    · have : ((last :: ((addr, cell.data) :: tail).map Prod.fst)).getLast
          (by simp) = ((addr :: tail.map Prod.fst)).getLast (by simp) := by
        simp [List.getLast_cons]
      rw [this]
      simpa using hlastA2

theorem ChainD.boundD {st : Store} {cur : Option Nat} {ps : List (Nat × Nat)}
    (h : ChainD st cur ps) : ∀ p ∈ ps, p.1 < st.length := by
  induction h with
  | nil => intro p hp; cases hp
  | cons ha _ ih =>
    intro p hp
    rcases List.mem_cons.mp hp with rfl | hp
    · exact ha
    · exact ih p hp

theorem nodup_lt_length_le {l : List Nat} {n : Nat} (h : l.Nodup)
    (hb : ∀ x ∈ l, x < n) : l.length ≤ n := by
  have h1 : l.toFinset.card = l.length := List.toFinset_card_of_nodup h
  have h2 : l.toFinset ⊆ Finset.range n := by
    intro x hx
    rw [List.mem_toFinset] at hx
    exact Finset.mem_range.mpr (hb x hx)
  have := Finset.card_le_card h2
  rw [h1, Finset.card_range] at this
  exact this

theorem ChainTo.last_mem {st : Store} {s z : Nat} {ps : List (Nat × Nat)}
    (h : ChainTo st s ps z) : z ∈ ps.map Prod.fst := by
  induction h with
  | single _ => simp
  | cons _ _ _ ih => simpa using Or.inr (by simpa using ih)

theorem ChainTo.boundTo {st : Store} {s z : Nat} {ps : List (Nat × Nat)}
    (h : ChainTo st s ps z) : ∀ p ∈ ps, p.1 < st.length := by
  induction h with
  | single ha =>
    intro p hp
    rcases List.mem_singleton.mp hp with rfl
    exact ha
  | cons ha _ _ ih =>
    intro p hp
    rcases List.mem_cons.mp hp with rfl | hp
    · exact ha
    · exact ih p hp

/-- A chain-to-last is stable under store modifications that keep the
cells' data, and the `next` pointers of all non-final cells. -/
theorem ChainTo.monoTo {st st' : Store} {s z : Nat} {ps : List (Nat × Nat)}
    (h : ChainTo st s ps z)
    (hord : List.Pairwise (· < ·) (ps.map Prod.fst))
    (hkeep : ∀ p ∈ ps, p.1 < st'.length ∧
      (st'.getD p.1 dref).data = (st.getD p.1 dref).data ∧
      (p.1 ≠ z → (st'.getD p.1 dref).next = (st.getD p.1 dref).next)) :
    ChainTo st' s ps z := by
  induction h with
  | @single a ha =>
    have hk := hkeep (a, (st.getD a dref).data) (List.mem_singleton.mpr rfl)
    have := @ChainTo.single st' a hk.1
    rwa [hk.2.1] at this
  | @cons a b z l ha hnext hch ih =>
    have hk := hkeep (a, (st.getD a dref).data) (List.mem_cons_self _ _)
    rw [List.map_cons] at hord
    have hord' := List.pairwise_cons.mp hord
    have haz : a ≠ z := by
      have hz : z ∈ l.map Prod.fst := hch.last_mem
      have := hord'.1 z hz
      omega
    have hrest := ih hord'.2
      (fun p hp => hkeep p (List.mem_cons_of_mem _ hp))
    have := @ChainTo.cons st' a b z l hk.1
      (by rw [hk.2.2 haz]; exact hnext) hrest
    rwa [hk.2.1] at this

/-- Closing a chain: if the final cell links on to a terminator cell `w`,
the whole route is a terminated chain. -/
theorem ChainTo.snoc {st : Store} {s z w : Nat} {ps : List (Nat × Nat)}
    (h : ChainTo st s ps z)
    (hord : List.Pairwise (· < ·) (ps.map Prod.fst))
    (hzw : (st.getD z dref).next = some w)
    (hw : w < st.length) (hwn : (st.getD w dref).next = none) :
    ChainD st (some s) (ps ++ [(w, (st.getD w dref).data)]) := by
  induction h with
  | @single a ha =>
    refine ChainD.cons ha ?_
    rw [hzw]
    refine ChainD.cons hw ?_
    rw [hwn]
    exact ChainD.nil
  | @cons a b z l ha hnext hch ih =>
    refine ChainD.cons ha ?_
    rw [hnext]
    rw [List.map_cons] at hord
    exact ih (List.pairwise_cons.mp hord).2 hzw

/-- C10 (confirmed), part one: adding to a shallowly copied list first
duplicates every copied reference into fresh cells, so the source
chain is never modified, the result chain carries the duplicated data
followed by the added data, and `last_ref` / `new_refs` end up at the
newly created reference.  Parts two and three: for an empty list
`new_refs` and `last_ref` also end at the new reference, and for an
already un-shallowed list only `last_ref` moves. -/
theorem SAU_NodeList_add_spec :
    (∀ (st : Store) (ol : SAU_NodeList) (d m headA : Nat)
      (pairs : List (Nat × Nat)),
      ol.refs = some headA → ol.new_refs = none →
      ChainD st ol.refs pairs → (pairs.map Prod.fst).Nodup →
      ∃ stF olF r copies,
        SAU_NodeList_add st ol d m = (stF, olF, r) ∧
        r = st.length ∧
        (∀ i, i < st.length → stF.getD i dref = st.getD i dref) ∧
        olF.last_ref = some r ∧ olF.new_refs = some r ∧
        (stF.getD r dref).data = d ∧
        ChainD stF olF.refs (copies ++ [(r, d)]) ∧
        copies.map Prod.snd = pairs.map Prod.snd ∧
        (∀ p ∈ copies, st.length < p.1)) ∧
    (∀ (st : Store) (ol : SAU_NodeList) (d m : Nat), ol.refs = none →
      ∃ stF olF r, SAU_NodeList_add st ol d m = (stF, olF, r) ∧
        olF.last_ref = some r ∧ olF.new_refs = some r ∧
        (stF.getD r dref).data = d) ∧
    (∀ (st : Store) (ol : SAU_NodeList) (d m headA x : Nat),
      ol.refs = some headA → ol.new_refs = some x →
      ∃ stF olF r, SAU_NodeList_add st ol d m = (stF, olF, r) ∧
        olF.last_ref = some r ∧ olF.new_refs = some x ∧
        (stF.getD r dref).data = d) := by
  refine ⟨?_, ?_, ?_⟩
  · intro st ol d m headA pairs hrefs hsh hch hnd
    rw [hrefs] at hch
    cases hch with
    | cons hheadA htl =>
    rename_i l
    set refCell : SAU_NodeRef := ⟨d, 0, 0, none⟩ with hrefCell
    set st1 : Store := st ++ [refCell] with hst1
    have hlen1 : st1.length = st.length + 1 := by simp [hst1]
    have hhc : st1.getD headA dref = st.getD headA dref :=
      store_getD_append_lt st refCell hheadA
    set headCell := st1.getD headA dref with hheadCell
    set st2 : Store := st1 ++ [headCell] with hst2
    have hlen2 : st2.length = st.length + 2 := by simp [hst2, hlen1]
    have hkeep12 : ∀ i, i < st.length → st2.getD i dref = st.getD i dref := by
      intro i hi
      rw [hst2, store_getD_append_lt _ _ (by omega), hst1,
        store_getD_append_lt _ _ hi]
    -- the source tail chain survives in st2
    have hboundl : ∀ p ∈ l, p.1 < st.length := htl.boundD
    have htl2 : ChainD st2 headCell.next l := by
      rw [hhc]
      refine ChainD.monoD htl ?_
      intro q hq
      exact ⟨by have := hboundl q hq; omega, hkeep12 q.1 (hboundl q hq)⟩
    have hfuel : l.length ≤ st1.length := by
      have hnd' : (l.map Prod.fst).Nodup := by
        simpa using (List.nodup_cons.mp (by simpa using hnd)).2
      have := nodup_lt_length_le hnd'
        (by intro x hx
            obtain ⟨q, hq, rfl⟩ := List.mem_map.mp hx
            exact hboundl q hq)
      simpa using le_trans this (by omega)
    have hgetfirst : st2.getD st1.length dref = headCell := by
      rw [hst2]; exact store_getD_append_self st1 headCell
    obtain ⟨st', lastA, tail, hrun, hlen', hkeep', hdata', hchain', hmap',
      hasc', hfresh', hlastA'⟩ :=
      unshallowCopy_spec (st.length + 1) l st2 headCell.next st1.length
        st2.length htl2 (fun q hq => by have := hboundl q hq; omega)
        (le_trans hfuel (by omega)) (by omega) (by omega)
        (by rw [hgetfirst])
    -- the loop ran on the copy of the head at address st1.length
    set st3 : Store := storeSetNext st' lastA (some st.length) with hst3
    set stF : Store := storeSetModeType st3 st.length m ol.type with hstF
    have hlastAmem : lastA ∈ st1.length :: tail.map Prod.fst := by
      rw [hlastA']; exact List.getLast_mem _
    have hlastAge : st.length + 1 ≤ lastA := by
      rcases List.mem_cons.mp hlastAmem with rfl | hm
      · omega
      · obtain ⟨q, hq, rfl⟩ := List.mem_map.mp hm
        have := hfresh' q hq
        omega
    have hlastAlt : lastA < st'.length := by
      rcases List.mem_cons.mp hlastAmem with he | hm
      · have := hchain'.boundTo _ (List.mem_cons_self _ _)
        simp only at this
        omega
      · obtain ⟨q, hq, hqe⟩ := List.mem_map.mp hm
        have := hchain'.boundTo q (List.mem_cons_of_mem _ hq)
        omega
    have hlen3 : st3.length = st'.length := storeSetNext_length _ _ _
    have hlenF : stF.length = st'.length := by
      rw [hstF, storeSetModeType_length, hlen3]
    -- preservation of all pre-existing cells
    have hkeepF : ∀ i, i < st.length → stF.getD i dref = st.getD i dref := by
      intro i hi
      rw [hstF, storeSetModeType_getD_ne _ _ _ _ (by omega), hst3,
        storeSetNext_getD_ne _ _ _ (by omega),
        hkeep' i (by omega) (by omega), hkeep12 i hi]
    -- the new reference cell
    have hrefF : stF.getD st.length dref = ⟨d, m, ol.type, none⟩ := by
      have h2 : st2.getD st.length dref = refCell := by
        rw [hst2, store_getD_append_lt _ _ (by omega), hst1,
          store_getD_append_self]
      have h3 : st3.getD st.length dref = refCell := by
        rw [hst3, storeSetNext_getD_ne _ _ _ (by omega),
          hkeep' st.length (by omega) (by omega), h2]
      rw [hstF, storeSetModeType, store_getD_set_self _ _ _ (by omega), h3]
    -- the duplicated chain, transported to the final store
    have hordC : List.Pairwise (· < ·)
        (((st1.length, headCell.data) :: tail).map Prod.fst) := by
      rw [List.map_cons]
      exact List.chain'_iff_pairwise.mp hasc'
    have hchainC : ChainTo st' st1.length
        ((st1.length, headCell.data) :: tail) lastA := by
      rw [hgetfirst] at hchain'
      exact hchain'
    have hlastF : stF.getD lastA dref =
        { st'.getD lastA dref with next := some st.length } := by
      rw [hstF, storeSetModeType_getD_ne _ _ _ _ (by omega), hst3,
        storeSetNext_getD_self _ _ _ hlastAlt]
    have hchainF : ChainTo stF st1.length
        ((st1.length, headCell.data) :: tail) lastA := by
      refine hchainC.monoTo hordC ?_
      intro q hq
      have hqlb : st.length + 1 ≤ q.1 := by
        rcases List.mem_cons.mp hq with rfl | hq'
        · simp; omega
        · have := hfresh' q hq'
          omega
      have hqub : q.1 < st'.length :=
        hchainC.boundTo q hq
      by_cases hql : q.1 = lastA
      · subst hql
        refine ⟨by omega, ?_, fun hne => absurd rfl hne⟩
        rw [hlastF]
      · refine ⟨by omega, ?_, fun _ => ?_⟩ <;>
          rw [hstF, storeSetModeType_getD_ne _ _ _ _ (by omega), hst3,
            storeSetNext_getD_ne _ _ _ hql]
    have hchainD : ChainD stF (some st1.length)
        (((st1.length, headCell.data) :: tail) ++ [(st.length, d)]) := by
      have h := hchainF.snoc hordC
        (by rw [hlastF]) (by omega) (by rw [hrefF])
      have hd : (stF.getD st.length dref).data = d := by rw [hrefF]
      rwa [hd] at h
    -- assemble
    refine ⟨stF,
      { ol with refs := some st1.length, new_refs := some st.length,
                last_ref := some st.length },
      st.length, (st1.length, headCell.data) :: tail, ?_, rfl, hkeepF,
      rfl, rfl, by rw [hrefF], hchainD, ?_, ?_⟩
    · -- the definition reduces to the assembled pieces
      simp only [SAU_NodeList_add, hrefs, hsh]
      rw [← hrefCell, ← hst1, ← hheadCell, ← hst2, hrun]
    · rw [List.map_cons, hmap', List.map_cons]
      have : headCell.data = (st.getD headA dref).data := by rw [hhc]
      rw [this]
    · intro q hq
      rcases List.mem_cons.mp hq with rfl | hq'
      · simp; omega
      · have := hfresh' q hq'
        omega
  · intro st ol d m hrefs
    refine ⟨storeSetModeType (st ++ [⟨d, 0, 0, none⟩]) st.length m ol.type,
      { ol with refs := some st.length, new_refs := some st.length,
                last_ref := some st.length }, st.length, ?_, rfl, rfl, ?_⟩
    · simp [SAU_NodeList_add, hrefs]
    · have h1 : (st ++ [(⟨d, 0, 0, none⟩ : SAU_NodeRef)]).getD st.length dref =
          ⟨d, 0, 0, none⟩ := store_getD_append_self st _
      rw [storeSetModeType, h1,
        store_getD_set_self _ _ _ (by simp)]
  · intro st ol d m headA x hrefs hnew
    refine ⟨storeSetModeType
        (match ol.last_ref with
         | some lr => storeSetNext (st ++ [⟨d, 0, 0, none⟩]) lr
             (some st.length)
         | none => st ++ [⟨d, 0, 0, none⟩]) st.length m ol.type,
      { ol with last_ref := some st.length }, st.length, ?_, rfl,
      by rw [hnew], ?_⟩
    · simp only [SAU_NodeList_add, hrefs, hnew]
    · have h1 : (st ++ [(⟨d, 0, 0, none⟩ : SAU_NodeRef)]).getD st.length dref =
          ⟨d, 0, 0, none⟩ := store_getD_append_self st _
      cases hlr : ol.last_ref with
      | none =>
        simp only [hlr]
        rw [storeSetModeType, h1, store_getD_set_self _ _ _ (by simp)]
      | some lr =>
        simp only [hlr]
        by_cases hlre : lr = st.length
        · subst hlre
          rw [storeSetModeType,
            store_getD_set_self _ _ _ (by rw [storeSetNext_length]; simp),
            storeSetNext_getD_self _ _ _ (by simp), h1]
        · rw [storeSetModeType,
            store_getD_set_self _ _ _ (by rw [storeSetNext_length]; simp),
            storeSetNext_getD_ne _ _ _ (fun hh => hlre hh.symm), h1]

/-- Witness for C10: adding to a shallow copy of a concrete two-element
list duplicates both references and appends the new one. -/
theorem SAU_NodeList_add_spec_witness :
    ∃ stF olF r copies,
      SAU_NodeList_add [⟨10, 0, 0, some 1⟩, ⟨11, 0, 0, none⟩]
        ⟨some 0, none, none, 5⟩ 42 7 = (stF, olF, r) ∧
      olF.last_ref = some r ∧ olF.new_refs = some r ∧
      ChainD stF olF.refs (copies ++ [(r, 42)]) ∧
      copies.map Prod.snd = [10, 11] ∧
      (∀ i, i < 2 → stF.getD i dref =
        [(⟨10, 0, 0, some 1⟩ : SAU_NodeRef), ⟨11, 0, 0, none⟩].getD i dref) := by
  have hch : ChainD [⟨10, 0, 0, some 1⟩, ⟨11, 0, 0, none⟩] (some 0)
      [(0, 10), (1, 11)] :=
    ChainD.cons (by decide) (ChainD.cons (by decide) ChainD.nil)
  obtain ⟨stF, olF, r, copies, h1, _, h3, h4, h5, _, h7, h8, _⟩ :=
    SAU_NodeList_add_spec.1 [⟨10, 0, 0, some 1⟩, ⟨11, 0, 0, none⟩]
      ⟨some 0, none, none, 5⟩ 42 7 0 [(0, 10), (1, 11)] rfl rfl hch
      (by decide)
  exact ⟨stF, olF, r, copies, h1, h4, h5, h7, by rw [h8]; rfl,
    fun i hi => h3 i hi⟩

/-! ## Parse-graph timing passes (src/reader/parseconv.c lines 42-164, 443-451)

Parse-time operator data (`SAU_ParseOpData`): the fields read or written
by `group_events`, `time_operator` and `time_event`.  Flag words are
rendered as named booleans (`op_flags` bits `NESTED`, `HAS_COMPOSITE`,
`SILENCE_ADDED`; `time.flags` bits `SET`, `LINKED`; `op_params` bit
`TIME`; ramp `flags` bit `TIME`).  Operator data nodes referenced from
event op-lists live in a store (`OpStore`) addressed by allocation
order, since an event's op-list may hold copied references to nodes of
earlier events; each node owns its nested-list operators (`nest_lists`,
flattened to one list — `oplist_fornew` visits the lists in order). -/

structure SAU_Ramp_t where
  time_ms : Nat
  flag_time : Bool
  deriving Repr, DecidableEq

structure POpCore where
  nested : Bool
  hasComposite : Bool
  silenceAdded : Bool
  time_set : Bool
  time_linked : Bool
  time_v_ms : Nat
  silence_ms : Nat
  freq : SAU_Ramp_t
  freq2 : SAU_Ramp_t
  amp : SAU_Ramp_t
  amp2 : SAU_Ramp_t
  params_time : Bool
  deriving Repr, DecidableEq

inductive SAU_ParseOpData where
  | mk (core : POpCore) (nests : List SAU_ParseOpData)

def SAU_ParseOpData.core : SAU_ParseOpData → POpCore
  | .mk c _ => c

def SAU_ParseOpData.nests : SAU_ParseOpData → List SAU_ParseOpData
  | .mk _ n => n

def defCore : POpCore :=
  ⟨false, false, false, false, false, 0, 0, ⟨0, false⟩, ⟨0, false⟩,
   ⟨0, false⟩, ⟨0, false⟩, false⟩

def defOp : SAU_ParseOpData := .mk defCore []

abbrev OpStore := List SAU_ParseOpData

/-- Parse-time event data: `wait_ms`, the `ADD_WAIT_DURATION` event flag,
the op-list references (store id, whether the reference is a new one —
`oplist_fornew` visits only new ones), the store id of the operator a
composite chain hangs off (`e->composite->op_list.refs->data->prev` in
the source), the group start (index of the event the parser's
`groupfrom` pointer designates), and the composite chain itself. -/
inductive SAU_ParseEvData where
  | mk (wait_ms : Nat) (addWaitDur : Bool) (refs : List (Nat × Bool))
       (mainRef : Option Nat) (groupfrom : Option Nat)
       (composite : List SAU_ParseEvData)

def SAU_ParseEvData.wait_ms : SAU_ParseEvData → Nat
  | .mk w _ _ _ _ _ => w

def SAU_ParseEvData.addWaitDur : SAU_ParseEvData → Bool
  | .mk _ a _ _ _ _ => a

def SAU_ParseEvData.refs : SAU_ParseEvData → List (Nat × Bool)
  | .mk _ _ r _ _ _ => r

def SAU_ParseEvData.mainRef : SAU_ParseEvData → Option Nat
  | .mk _ _ _ m _ _ => m

def SAU_ParseEvData.groupfrom : SAU_ParseEvData → Option Nat
  | .mk _ _ _ _ g _ => g

def SAU_ParseEvData.composite : SAU_ParseEvData → List SAU_ParseEvData
  | .mk _ _ _ _ _ c => c

/-- Embedding of `time_ramp`: a ramp without an explicitly set time takes
the given default duration (the `TIME` flag is left unset). -/
def time_ramp (ramp : SAU_Ramp_t) (default_time_ms : Nat) : SAU_Ramp_t :=
  if ¬ramp.flag_time then { ramp with time_ms := default_time_ms } else ramp

/-- State of the `ADD_WAIT_DURATION` handling while an event's operators
are visited: the not-yet-consumed event flag, and the total amount the
next event's wait will receive. -/
structure WaitSt where
  addWait : Bool
  added : Nat
  deriving Repr, DecidableEq

/- Embedding of `time_operator`.  The two flag blocks and the ramp
defaulting follow the source line for line; the `ADD_WAIT_DURATION`
handling communicates through `WaitSt` (the flag lives on the
operator's event, the addition goes to the next event's wait), and the
`nest_lists` recursion visits the operator's own nested operators. -/
/-- The operator-local part of `time_operator` (the three statement
blocks acting on the operator's own fields, before the event-flag
handling and the nested-list recursion). -/
def time_operator_core (c : POpCore) : POpCore :=
  let c := if c.nested ∧ ¬c.time_set then
      { c with time_linked := c.time_linked ∨ ¬c.hasComposite,
               time_set := true }
    else c
  if ¬c.time_linked then
    let c := { c with freq := time_ramp c.freq c.time_v_ms,
                      freq2 := time_ramp c.freq2 c.time_v_ms,
                      amp := time_ramp c.amp c.time_v_ms,
                      amp2 := time_ramp c.amp2 c.time_v_ms }
    if ¬c.silenceAdded then
      { c with time_v_ms := uadd32 c.time_v_ms c.silence_ms,
               silenceAdded := true }
    else c
  else c

mutual

def time_operator (s : WaitSt) : SAU_ParseOpData → WaitSt × SAU_ParseOpData
  | .mk c nests =>
    let c := time_operator_core c
    let s := if s.addWait then
        ⟨false, uadd32 s.added c.time_v_ms⟩
      else s
    let r := time_operator_list s nests
    (r.1, .mk c r.2)

/-- The `oplist_fornew` traversal inside `time_operator`, over the
operator's nested lists. -/
def time_operator_list (s : WaitSt) :
    List SAU_ParseOpData → WaitSt × List SAU_ParseOpData
  | [] => (s, [])
  | op :: ops =>
    let r := time_operator s op
    let r2 := time_operator_list r.1 ops
    (r2.1, r.2 :: r2.2)

end

def mapCore (f : POpCore → POpCore) : SAU_ParseOpData → SAU_ParseOpData
  | .mk c n => .mk (f c) n

def setEvWait : SAU_ParseEvData → Nat → SAU_ParseEvData
  | .mk _ a r m g c, w => .mk w a r m g c

/- Embedding of `time_event`.  The first half runs `time_operator` over
the event's new op references (`oplist_fornew`), yielding the spent
`ADD_WAIT_DURATION` flag and the amount for the next event's wait.  The
second half is the composite-chain loop.  The loop's `ce->wait_ms`
update commutes with the recursive `time_event (ce)` call (which never
reads or writes its own event's wait), so the model applies the updated
wait to the returned event.  The wait contribution a composite's own
`ADD_WAIT_DURATION` operators make to the next composite's wait is
threaded as `pend` (for the last composite, `ce->next` is null and the
amount is dropped, as in the source). -/
mutual

def time_event (st : OpStore) : SAU_ParseEvData → OpStore × SAU_ParseEvData × Nat
  | .mk wait addW refs mainRef gf comp =>
    let p := time_event_refs st ⟨addW, 0⟩ refs
    match comp, mainRef with
    | ce :: ces, some mid =>
      -- e_op->time.flags |= SAU_TIMEP_SET; always used from now on
      let st1 := (p.1).set mid (mapCore (fun c => { c with time_set := true })
        ((p.1).getD mid defOp))
      let q := time_event_comp st1 mid mid 0 (ce :: ces)
      (q.1, .mk wait (p.2).addWait refs mainRef gf q.2, (p.2).added)
    | comp', _ => (p.1, .mk wait (p.2).addWait refs mainRef gf comp',
        (p.2).added)

def time_event_refs (st : OpStore) (s : WaitSt) :
    List (Nat × Bool) → OpStore × WaitSt
  | [] => (st, s)
  | (id, isNew) :: rest =>
    if isNew then
      let r := time_operator s (st.getD id defOp)
      time_event_refs (st.set id r.2) r.1 rest
    else time_event_refs st s rest

def time_event_comp (st : OpStore) (eopId prevId : Nat) (pend : Nat) :
    List SAU_ParseEvData → OpStore × List SAU_ParseEvData
  | [] => (st, [])
  | ce :: ces =>
    match ce.refs.head? with
    | none => (st, ce :: ces)
    | some cref =>
      let cid := cref.1
      let cwait := uadd32 (uadd32 ce.wait_ms pend)
        ((st.getD prevId defOp).core.time_v_ms)
      let st :=
        if ¬((st.getD cid defOp).core.time_set) then
          st.set cid (mapCore (fun c =>
            if c.nested ∧ ¬c.hasComposite then
              { c with time_set := true, time_linked := true }
            else
              { c with
                time_set := true,
                time_v_ms := usub32 ((st.getD prevId defOp).core.time_v_ms)
                  ((st.getD prevId defOp).core.silence_ms) })
            (st.getD cid defOp))
        else st
      let r := time_event st ce
      let st := r.1
      let ce2 := setEvWait r.2.1 cwait
      let st :=
        if (st.getD cid defOp).core.time_linked then
          st.set eopId (mapCore (fun c => { c with time_linked := true })
            (st.getD eopId defOp))
        else if ¬((st.getD eopId defOp).core.time_linked) then
          let addv := uadd32 ((st.getD cid defOp).core.time_v_ms)
            (usub32 cwait ((st.getD prevId defOp).core.time_v_ms))
          st.set eopId (mapCore (fun c =>
            { c with time_v_ms := uadd32 c.time_v_ms addv })
            (st.getD eopId defOp))
        else st
      let st := st.set cid (mapCore (fun c => { c with params_time := false })
        (st.getD cid defOp))
      let rest := time_event_comp st eopId cid r.2.2 ces
      (rest.1, ce2 :: rest.2)

end

/-- First loop of `group_events`, op scan: running maximum of the
operators' `time.v_ms` over one event's op-list (all references). -/
def group_scan_ops (st : OpStore) (wait : Nat) : List (Nat × Bool) → Nat
  | [] => wait
  | (id, _) :: rest =>
    let v := (st.getD id defOp).core.time_v_ms
    group_scan_ops st (if wait < v then v else wait) rest

/-- The `default for last node in group` special case of the first loop
of `group_events`: the op-list's last reference, when its time is
unset, is flagged `SET` (keeping its current time). -/
def group_default_last (st : OpStore) (refs : List (Nat × Bool)) : OpStore :=
  match refs.getLast? with
  | some lref =>
    if ¬((st.getD lref.1 defOp).core.time_set) then
      st.set lref.1 (mapCore (fun c => { c with time_set := true })
        (st.getD lref.1 defOp))
    else st
  | none => st

/-- First loop of `group_events`: computes `wait` and `waitcount`, and
gives the last node in the group its default (flags it `SET`).  The
accumulation `waitcount += e->wait_ms` runs on each advance of `e`,
including the final advance onto the event after the group. -/
def group_pass1 (st : OpStore) (eAfterWait : Option Nat) :
    List SAU_ParseEvData → Nat → Nat → OpStore × Nat × Nat
  | [], wait, waitcount => (st, wait, waitcount)
  | [e], wait, waitcount =>
    let st := group_default_last st e.refs
    let wait := group_scan_ops st wait e.refs
    let waitcount := match eAfterWait with
      | some w => uadd32 waitcount w
      | none => waitcount
    (st, wait, waitcount)
  | e :: e2 :: rest, wait, waitcount =>
    let wait := group_scan_ops st wait e.refs
    let waitcount := uadd32 waitcount e2.wait_ms
    group_pass1 st eAfterWait (e2 :: rest) wait waitcount

/-- Second loop of `group_events`, op pass: operators with unset times
take `wait + waitcount` and are flagged `SET`. -/
def group_set_ops (st : OpStore) (v : Nat) : List (Nat × Bool) → OpStore
  | [] => st
  | (id, _) :: rest =>
    let st :=
      if ¬((st.getD id defOp).core.time_set) then
        st.set id (mapCore (fun c =>
          { c with time_v_ms := v, time_set := true }) (st.getD id defOp))
      else st
    group_set_ops st v rest

/-- Second loop of `group_events`: `waitcount` decreases by each next
event's wait as the loop advances. -/
def group_pass2 (st : OpStore) (wait : Nat) :
    List SAU_ParseEvData → Nat → OpStore
  | [], _ => st
  | [e], waitcount => group_set_ops st (uadd32 wait waitcount) e.refs
  | e :: e2 :: rest, waitcount =>
    let st := group_set_ops st (uadd32 wait waitcount) e.refs
    group_pass2 st wait (e2 :: rest) (usub32 waitcount e2.wait_ms)

/-- The terminator's `groupfrom` is cleared (`to->groupfrom = NULL`). -/
def clearGroupLast : List SAU_ParseEvData → List SAU_ParseEvData
  | [] => []
  | [SAU_ParseEvData.mk w a r m _ c] => [.mk w a r m none c]
  | e :: e2 :: rest => e :: clearGroupLast (e2 :: rest)

/-- Embedding of `group_events` on the event slice from the stored group
start through the terminator; `eAfterWait` is the wait of the event
following the group (`to->next`), absent when the terminator ends the
script.  Returns the store, the group slice, and the updated following
wait, which absorbs the computed `wait`. -/
def group_events (st : OpStore) (group : List SAU_ParseEvData)
    (eAfterWait : Option Nat) :
    OpStore × List SAU_ParseEvData × Option Nat :=
  let p := group_pass1 st eAfterWait group 0 0
  let st2 := group_pass2 p.1 p.2.1 group p.2.2
  (st2, clearGroupLast group, eAfterWait.map (fun w => uadd32 w p.2.1))

/-- Wait addition to the immediately following event (the in-place
`e->next->wait_ms +=` of the source). -/
def applyAddHead (add : Nat) : List SAU_ParseEvData → List SAU_ParseEvData
  | [] => []
  | e :: rest => setEvWait e (uadd32 e.wait_ms add) :: rest

def setHeadWaitTo (w : Nat) : List SAU_ParseEvData → List SAU_ParseEvData
  | [] => []
  | e :: rest => setEvWait e w :: rest

theorem applyAddHead_length (add : Nat) (l : List SAU_ParseEvData) :
    (applyAddHead add l).length = l.length := by
  cases l <;> simp [applyAddHead]

theorem setHeadWaitTo_length (w : Nat) (l : List SAU_ParseEvData) :
    (setHeadWaitTo w l).length = l.length := by
  cases l <;> simp [setHeadWaitTo]

/-- The conversion driver's timing pass (`ParseConv_convert`, first
loop): `time_event` on each event in order, then `group_events`
whenever the event carries a group start.  `done` accumulates the
processed prefix, which a group slice reaches back into. -/
def timePassGo (st : OpStore) (done : List SAU_ParseEvData) :
    List SAU_ParseEvData → OpStore × List SAU_ParseEvData
  | [] => (st, done)
  | e :: rest =>
    let r := time_event st e
    let e2 := r.2.1
    let rest2 := applyAddHead r.2.2 rest
    match e2.groupfrom with
    | none => timePassGo r.1 (done ++ [e2]) rest2
    | some g =>
      let q := group_events r.1 (done.drop g ++ [e2])
        ((rest2.head?).map SAU_ParseEvData.wait_ms)
      let rest3 := match q.2.2 with
        | some w => setHeadWaitTo w rest2
        | none => rest2
      timePassGo q.1 (done.take g ++ q.2.1) rest3
  termination_by l => l.length
  decreasing_by
    · simp [applyAddHead_length]
    · simp [setHeadWaitTo_length, applyAddHead_length]
      split <;> simp [setHeadWaitTo_length, applyAddHead_length]

/-- The full timing pass over the parse graph's event list. -/
def timePassG (st : OpStore) (evs : List SAU_ParseEvData) :
    OpStore × List SAU_ParseEvData :=
  timePassGo st [] evs

/-- The operator-local effect of `time_operator` (its `WaitSt` thread and
nested-list recursion do not feed back into the operator's own core). -/
theorem time_operator_core_eq (s : WaitSt) (c : POpCore)
    (nests : List SAU_ParseOpData) :
    (time_operator s (.mk c nests)).2.core = time_operator_core c := by
  conv_lhs => rw [time_operator]
  simp only [SAU_ParseOpData.core]

/-- C2 (confirmed): `time_operator` marks a nested operator with unset
time as `LINKED` unless it has composite children, and flags it `SET`;
an operator that (after that step) is not `LINKED` has its `time.v_ms`
installed as the default duration of its `freq`, `freq2`, `amp` and
`amp2` ramps whenever their `TIME` flag is unset, and, when
`SILENCE_ADDED` is unset, receives `silence_ms` onto `time.v_ms` with
`SILENCE_ADDED` then set. -/
theorem time_operator_spec (s : WaitSt) (op : SAU_ParseOpData) :
    ((op.core.nested ∧ ¬op.core.time_set) →
      ((time_operator s op).2.core.time_set = true ∧
       (time_operator s op).2.core.time_linked =
         (op.core.time_linked ∨ ¬op.core.hasComposite : Bool))) ∧
    (¬(op.core.time_linked ∨
        (op.core.nested ∧ ¬op.core.time_set ∧ ¬op.core.hasComposite) : Bool) →
      ((¬op.core.freq.flag_time →
          (time_operator s op).2.core.freq.time_ms = op.core.time_v_ms) ∧
       (¬op.core.freq2.flag_time →
          (time_operator s op).2.core.freq2.time_ms = op.core.time_v_ms) ∧
       (¬op.core.amp.flag_time →
          (time_operator s op).2.core.amp.time_ms = op.core.time_v_ms) ∧
       (¬op.core.amp2.flag_time →
          (time_operator s op).2.core.amp2.time_ms = op.core.time_v_ms) ∧
       (¬op.core.silenceAdded →
          (time_operator s op).2.core.time_v_ms =
            uadd32 op.core.time_v_ms op.core.silence_ms ∧
          (time_operator s op).2.core.silenceAdded = true) ∧
       (op.core.silenceAdded →
          (time_operator s op).2.core.time_v_ms = op.core.time_v_ms))) := by
  obtain ⟨c, nests⟩ := op
  rw [time_operator_core_eq]
  obtain ⟨n, hcm, sa, ts, tl, v, sil, ⟨ft1, ff1⟩, ⟨ft2, ff2⟩, ⟨ft3, ff3⟩,
    ⟨ft4, ff4⟩, pt⟩ := c
  unfold time_operator_core
  cases n <;> cases hcm <;> cases sa <;> cases ts <;> cases tl <;>
    simp [time_ramp, SAU_ParseOpData.core] <;>
    cases ff1 <;> cases ff2 <;> cases ff3 <;> cases ff4 <;>
    try simp [SAU_ParseOpData.core]

/-- Witness for C2: a nested operator with unset time, composite
children, 100 ms time, 500 ms silence and an unset freq-ramp time. -/
theorem time_operator_spec_witness :
    (time_operator ⟨false, 0⟩ (.mk ⟨true, true, false, false, false, 100, 500,
        ⟨0, false⟩, ⟨0, false⟩, ⟨0, false⟩, ⟨7, true⟩, false⟩
        [])).2.core.time_set = true ∧
    (time_operator ⟨false, 0⟩ (.mk ⟨true, true, false, false, false, 100, 500,
        ⟨0, false⟩, ⟨0, false⟩, ⟨0, false⟩, ⟨7, true⟩, false⟩
        [])).2.core.freq.time_ms = 100 ∧
    (time_operator ⟨false, 0⟩ (.mk ⟨true, true, false, false, false, 100, 500,
        ⟨0, false⟩, ⟨0, false⟩, ⟨0, false⟩, ⟨7, true⟩, false⟩
        [])).2.core.time_v_ms = uadd32 100 500 ∧
    (time_operator ⟨false, 0⟩ (.mk ⟨true, true, false, false, false, 100, 500,
        ⟨0, false⟩, ⟨0, false⟩, ⟨0, false⟩, ⟨7, true⟩, false⟩
        [])).2.core.silenceAdded = true := by
  have h := time_operator_spec ⟨false, 0⟩ (.mk ⟨true, true, false, false,
    false, 100, 500, ⟨0, false⟩, ⟨0, false⟩, ⟨0, false⟩, ⟨7, true⟩, false⟩ [])
  refine ⟨(h.1 (by exact ⟨rfl, by simp [SAU_ParseOpData.core]⟩)).1, ?_, ?_, ?_⟩
  · exact (h.2 (by simp [SAU_ParseOpData.core])).1
      (by simp [SAU_ParseOpData.core])
  · exact ((h.2 (by simp [SAU_ParseOpData.core])).2.2.2.2.1
      (by simp [SAU_ParseOpData.core])).1
  · exact ((h.2 (by simp [SAU_ParseOpData.core])).2.2.2.2.1
      (by simp [SAU_ParseOpData.core])).2

/-! ## C1: `group_events` -/

/-- C1 counterexample: in a two-event group whose terminator's operator
has an unset time, that operator (the last node in the group) only has
its `SET` flag raised by the first loop and keeps its own time as the
group default — it is never assigned `wait + waitcount` (the claim, as
stated, asserts every unset operator receives that assignment).  Store:
op 0 (event 1) has `SET` time 100 ms; op 1 (event 2, wait 10 ms) has
unset time 0 ms.  The group maximum is 100, yet op 1 ends with time 0,
not `uadd32 100 10 = 110` nor `uadd32 100 0 = 100`. -/
theorem group_events_last_default_cex :
    let st0 : OpStore :=
      [.mk { defCore with time_set := true, time_v_ms := 100 } [],
       .mk { defCore with time_set := false, time_v_ms := 0 } []]
    let e1 : SAU_ParseEvData := .mk 0 false [(0, true)] none none []
    let e2 : SAU_ParseEvData := .mk 10 false [(1, true)] none (some 0) []
    let r := group_events st0 [e1, e2] none
    ((st0.getD 1 defOp).core.time_set = false) ∧
    ((r.1.getD 1 defOp).core.time_set = true) ∧
    ((r.1.getD 1 defOp).core.time_v_ms = 0) ∧
    (0 ≠ uadd32 100 10) ∧ (0 ≠ uadd32 100 0) := by
  decide

theorem if_lt_eq_max (w v : Nat) : (if w < v then v else w) = max w v := by
  rcases Nat.lt_or_ge w v with h | h
  · simp [h, Nat.max_eq_right (le_of_lt h)]
  · simp [Nat.not_lt.mpr h, Nat.max_eq_left h]

/-- The first-loop op scan is a running maximum of the time values. -/
theorem group_scan_ops_eq_max (st : OpStore) :
    ∀ (refs : List (Nat × Bool)) (w : Nat),
    group_scan_ops st w refs =
      (refs.map (fun r => (st.getD r.1 defOp).core.time_v_ms)).foldl max w := by
  intro refs
  induction refs with
  | nil => intro w; rfl
  | cons r rest ih =>
    intro w
    simp only [group_scan_ops, List.map_cons, List.foldl_cons]
    rw [ih, if_lt_eq_max]

/-- The op scan only reads `time.v_ms`. -/
theorem group_scan_ops_congr (st st' : OpStore)
    (hv : ∀ id, (st'.getD id defOp).core.time_v_ms =
      (st.getD id defOp).core.time_v_ms) :
    ∀ (refs : List (Nat × Bool)) (w : Nat),
    group_scan_ops st' w refs = group_scan_ops st w refs := by
  intro refs
  induction refs with
  | nil => intro w; rfl
  | cons r rest ih =>
    intro w
    simp only [group_scan_ops, hv]
    exact ih _

theorem usub32_cancel (w s : Nat) : usub32 ((w + s) % U32) w = s % U32 := by
  unfold usub32 U32
  omega

theorem uadd32_lt (a b : Nat) : uadd32 a b < U32 := by
  unfold uadd32 U32
  omega

theorem list_getD_set_ne {α : Type} (l : List α) (i j : Nat) (a d : α)
    (h : j ≠ i) : (l.set i a).getD j d = l.getD j d := by
  unfold List.getD
  simp only [List.get?_eq_getElem?]
  rw [List.getElem?_set_ne (fun hh => h hh.symm)]

theorem list_getD_set_self {α : Type} (l : List α) (i : Nat) (a d : α)
    (h : i < l.length) : (l.set i a).getD i d = a := by
  unfold List.getD
  simp only [List.get?_eq_getElem?]
  rw [List.getElem?_set_self h]
  rfl

theorem mapCore_core (f : POpCore → POpCore) (op : SAU_ParseOpData) :
    (mapCore f op).core = f op.core := by
  obtain ⟨c, n⟩ := op
  rfl

/-- Sum of the waits of a list of events. -/
def sumWaits (l : List SAU_ParseEvData) : Nat :=
  (l.map SAU_ParseEvData.wait_ms).sum

/-- All operator ids referenced from a group's op-lists, in order. -/
def groupIds (group : List SAU_ParseEvData) : List Nat :=
  (group.map (fun e => e.refs.map Prod.fst)).flatten

/-- The time values of all operators referenced from a group. -/
def groupOpTimes (st : OpStore) (group : List SAU_ParseEvData) : List Nat :=
  (group.map (fun e =>
    e.refs.map (fun r => (st.getD r.1 defOp).core.time_v_ms))).flatten

/-- The group's last node reference: the last reference of the
terminator's op-list. -/
def groupLastRef (group : List SAU_ParseEvData) : Option (Nat × Bool) :=
  (group.getLast?).bind (fun e => e.refs.getLast?)

/-- Id of the group's last node. -/
def lastRefId (group : List SAU_ParseEvData) : Option Nat :=
  (groupLastRef group).map Prod.fst

/-- Effect of the first loop on the store: the last node of the group,
when unset, gets its `SET` flag raised. -/
def flagLastStore (st : OpStore) (group : List SAU_ParseEvData) : OpStore :=
  match group.getLast? with
  | none => st
  | some e => group_default_last st e.refs

theorem group_default_last_length (st : OpStore) (refs : List (Nat × Bool)) :
    (group_default_last st refs).length = st.length := by
  unfold group_default_last
  rcases hg : refs.getLast? with _ | lref
  · rfl
  · dsimp only
    split
    · exact List.length_set st _ _
    · rfl

theorem group_default_last_v (st : OpStore) (refs : List (Nat × Bool))
    (id : Nat) : ((group_default_last st refs).getD id defOp).core.time_v_ms =
      ((st.getD id defOp).core.time_v_ms) := by
  unfold group_default_last
  rcases hg : refs.getLast? with _ | lref
  · rfl
  · dsimp only
    rcases hset : (st.getD lref.1 defOp).core.time_set
    · rw [if_pos (by simp [hset])]
      by_cases hid : id = lref.1
      · rw [hid]
        by_cases hlt : lref.1 < st.length
        · rw [list_getD_set_self st _ _ defOp hlt, mapCore_core]
        · rw [List.set_eq_of_length_le (by omega)]
      · rw [list_getD_set_ne st _ id _ defOp hid]
    · rw [if_neg (by simp [hset])]

theorem group_default_last_getD_ne (st : OpStore) (refs : List (Nat × Bool))
    (id : Nat) (h : (refs.getLast?).map Prod.fst ≠ some id) :
    (group_default_last st refs).getD id defOp = st.getD id defOp := by
  unfold group_default_last
  rcases hg : refs.getLast? with _ | lref
  · rfl
  · dsimp only
    rw [hg] at h
    have h' : lref.1 ≠ id := fun hh => h (by simp [hh])
    rcases hset : (st.getD lref.1 defOp).core.time_set
    · rw [if_pos (by simp [hset])]
      exact list_getD_set_ne st _ id _ defOp (fun hh => h' hh.symm)
    · rw [if_neg (by simp [hset])]

theorem group_default_last_getD_self (st : OpStore) (refs : List (Nat × Bool))
    (lref : Nat × Bool) (h : refs.getLast? = some lref)
    (hb : lref.1 < st.length) :
    (group_default_last st refs).getD lref.1 defOp =
      (if (st.getD lref.1 defOp).core.time_set then st.getD lref.1 defOp
       else mapCore (fun c => { c with time_set := true })
         (st.getD lref.1 defOp)) := by
  unfold group_default_last
  rw [h]
  dsimp only
  rcases hset : (st.getD lref.1 defOp).core.time_set
  · rw [if_pos (by simp [hset]), if_neg (by simp [hset]),
      list_getD_set_self st _ _ defOp hb]
  · rw [if_neg (by simp [hset]), if_pos (by simp [hset])]

theorem flagLastStore_length (st : OpStore) (group : List SAU_ParseEvData) :
    (flagLastStore st group).length = st.length := by
  unfold flagLastStore
  rcases hg : group.getLast? with _ | e
  · rfl
  · exact group_default_last_length st e.refs

theorem flagLastStore_v (st : OpStore) (group : List SAU_ParseEvData)
    (id : Nat) : ((flagLastStore st group).getD id defOp).core.time_v_ms =
      ((st.getD id defOp).core.time_v_ms) := by
  unfold flagLastStore
  rcases hg : group.getLast? with _ | e
  · rfl
  · exact group_default_last_v st e.refs id

theorem flagLastStore_getD_ne (st : OpStore) (group : List SAU_ParseEvData)
    (id : Nat) (h : lastRefId group ≠ some id) :
    (flagLastStore st group).getD id defOp = st.getD id defOp := by
  unfold flagLastStore
  unfold lastRefId groupLastRef at h
  rcases hg : group.getLast? with _ | e
  · rfl
  · refine group_default_last_getD_ne st e.refs id ?_
    rw [hg] at h
    simpa using h

/-- The first loop of `group_events` computes the maximum operator time
over the whole group, the waitcount (waits of the following events in
the group plus the following event's wait), and flags the group's last
node `SET` (its time value is never changed, so the maximum is over the
input store). -/
theorem group_pass1_spec (st : OpStore) (eAfterWait : Option Nat) :
    ∀ (group : List SAU_ParseEvData) (w0 wc0 : Nat), group ≠ [] →
      wc0 < U32 →
    group_pass1 st eAfterWait group w0 wc0 =
      (flagLastStore st group,
       (groupOpTimes st group).foldl max w0,
       (wc0 + sumWaits (group.drop 1) +
         (match eAfterWait with | some w => w | none => 0)) % U32) := by
  intro group
  induction group with
  | nil => intro _ _ h _; exact absurd rfl h
  | cons e rest ih =>
    intro w0 wc0 _ hwc
    cases rest with
    | nil =>
      show (group_default_last st e.refs,
        group_scan_ops (group_default_last st e.refs) w0 e.refs,
        match eAfterWait with
        | some w => uadd32 wc0 w
        | none => wc0) = _
      have h1 : flagLastStore st [e] = group_default_last st e.refs := by
        unfold flagLastStore
        rfl
      have h2 : group_scan_ops (group_default_last st e.refs) w0 e.refs =
          (groupOpTimes st [e]).foldl max w0 := by
        rw [group_scan_ops_congr st _ (group_default_last_v st e.refs),
          group_scan_ops_eq_max]
        unfold groupOpTimes
        simp
      rw [h1, h2]
      rcases eAfterWait with _ | w
      · simp [sumWaits, Nat.mod_eq_of_lt hwc]
      · simp only [uadd32, sumWaits, List.drop_succ_cons, List.drop_nil,
          List.map_nil, List.sum_nil]
        norm_num
    | cons e2 rest2 =>
      show group_pass1 st eAfterWait (e2 :: rest2)
        (group_scan_ops st w0 e.refs) (uadd32 wc0 e2.wait_ms) = _
      rw [ih (group_scan_ops st w0 e.refs) (uadd32 wc0 e2.wait_ms)
        (by simp) (uadd32_lt _ _)]
      refine congrArg₂ Prod.mk ?_ (congrArg₂ Prod.mk ?_ ?_)
      · unfold flagLastStore
        rw [List.getLast?_cons_cons]
      · rw [group_scan_ops_eq_max]
        unfold groupOpTimes
        simp [List.foldl_append]
      · show ((uadd32 wc0 e2.wait_ms) + sumWaits rest2 + _) % U32 = _
        have hs : sumWaits (e2 :: rest2) = e2.wait_ms + sumWaits rest2 := by
          simp [sumWaits]
        unfold uadd32
        simp only [List.drop_succ_cons, List.drop_zero]
        rcases eAfterWait with _ | w <;> dsimp only <;> unfold U32 at * <;>
          omega

/-- The op pass of the second loop: unset operators take `v` and are
flagged `SET`; everything else is untouched. -/
theorem group_set_ops_spec (v : Nat) :
    ∀ (refs : List (Nat × Bool)) (st : OpStore),
      (∀ r ∈ refs, r.1 < st.length) →
    ((group_set_ops st v refs).length = st.length ∧
     ∀ id, (group_set_ops st v refs).getD id defOp =
        (if id ∈ refs.map Prod.fst then
          (if (st.getD id defOp).core.time_set then st.getD id defOp
           else mapCore (fun c => { c with time_v_ms := v, time_set := true })
             (st.getD id defOp))
         else st.getD id defOp)) := by
  intro refs
  induction refs with
  | nil =>
    intro st _
    exact ⟨rfl, fun id => by simp [group_set_ops]⟩
  | cons r rest ih =>
    intro st hb
    obtain ⟨ri, rb⟩ := r
    simp only [group_set_ops]
    set st1 := (if ¬((st.getD ri defOp).core.time_set) then
        st.set ri (mapCore (fun c =>
          { c with time_v_ms := v, time_set := true }) (st.getD ri defOp))
      else st) with hst1
    have hlen1 : st1.length = st.length := by
      rw [hst1]
      split
      · exact List.length_set st _ _
      · rfl
    have hne : ∀ id, id ≠ ri → st1.getD id defOp = st.getD id defOp := by
      intro id hid
      rw [hst1]
      split
      · exact list_getD_set_ne st _ id _ defOp hid
      · rfl
    have hself : st1.getD ri defOp =
        (if (st.getD ri defOp).core.time_set then st.getD ri defOp
         else mapCore (fun c => { c with time_v_ms := v, time_set := true })
           (st.getD ri defOp)) := by
      rw [hst1]
      rcases hset : (st.getD ri defOp).core.time_set
      · rw [if_pos (by simp [hset]), if_neg (by simp [hset]),
          list_getD_set_self st _ _ defOp (hb (ri, rb) (List.mem_cons_self _ _))]
      · rw [if_neg (by simp [hset]), if_pos (by simp [hset])]
    obtain ⟨ihlen, ihget⟩ := ih st1 (by
      intro q hq
      rw [hlen1]
      exact hb q (List.mem_cons_of_mem _ hq))
    refine ⟨by rw [ihlen, hlen1], ?_⟩
    intro id
    rw [ihget id]
    by_cases hid : id = ri
    · rw [hid]
      rcases hset : (st.getD ri defOp).core.time_set
      · have h2 : st1.getD ri defOp = mapCore (fun c =>
            { c with time_v_ms := v, time_set := true }) (st.getD ri defOp) := by
          rw [hself, if_neg (by rw [hset]; simp)]
        simp only [List.getD_eq_getElem?_getD] at h2 hset ⊢
        simp [h2, mapCore_core, hset]
      · have h2 : st1.getD ri defOp = st.getD ri defOp := by
          rw [hself, if_pos (by rw [hset])]
        simp only [List.getD_eq_getElem?_getD] at h2 hset ⊢
        simp [h2, hset]
    · have h1 : st1.getD id defOp = st.getD id defOp := hne id hid
      rw [h1]
      by_cases hmem : id ∈ rest.map Prod.fst
      · rw [if_pos hmem, if_pos
          (show id ∈ List.map Prod.fst ((ri, rb) :: rest) from by simp [hmem])]
      · rw [if_neg hmem, if_neg (show ¬(id ∈ List.map Prod.fst
            ((ri, rb) :: rest)) from by
          simp only [List.map_cons, List.mem_cons]
          rintro (hc1 | hc2)
          · exact hid hc1
          · exact hmem hc2)]

theorem groupIds_cons (e : SAU_ParseEvData) (rest : List SAU_ParseEvData) :
    groupIds (e :: rest) = e.refs.map Prod.fst ++ groupIds rest := by
  simp [groupIds]

/-- The second loop of `group_events` assigns `wait + waitcount` to every
unset operator, with `waitcount` the waits of the group events after the
operator's event plus the following event's wait (`A`). -/
theorem group_pass2_spec (wait A : Nat) :
    ∀ (group : List SAU_ParseEvData) (st : OpStore),
      (groupIds group).Nodup →
      (∀ id ∈ groupIds group, id < st.length) →
    ((group_pass2 st wait group ((sumWaits (group.drop 1) + A) % U32)).length
        = st.length ∧
     (∀ id, id ∉ groupIds group →
       (group_pass2 st wait group
         ((sumWaits (group.drop 1) + A) % U32)).getD id defOp =
           st.getD id defOp) ∧
     (∀ i, (hi : i < group.length) → ∀ r ∈ (group.get ⟨i, hi⟩).refs,
       (group_pass2 st wait group
         ((sumWaits (group.drop 1) + A) % U32)).getD r.1 defOp =
         (if (st.getD r.1 defOp).core.time_set then st.getD r.1 defOp
          else mapCore (fun c => { c with
              time_v_ms := uadd32 wait ((sumWaits (group.drop (i+1)) + A) % U32),
              time_set := true }) (st.getD r.1 defOp)))) := by
  intro group
  induction group with
  | nil =>
    intro st _ _
    refine ⟨rfl, fun id _ => rfl, fun i hi => absurd hi (by simp)⟩
  | cons e rest ih =>
    intro st hnd hb
    rw [groupIds_cons] at hnd hb
    have hbe : ∀ r ∈ e.refs, r.1 < st.length := by
      intro r hr
      exact hb r.1 (List.mem_append_left _ (List.mem_map_of_mem _ hr))
    cases rest with
    | nil =>
      simp only [group_pass2]
      obtain ⟨hlen, hget⟩ := group_set_ops_spec
        (uadd32 wait ((sumWaits (List.drop 1 [e]) + A) % U32)) e.refs st hbe
      refine ⟨hlen, ?_, ?_⟩
      · intro id hid
        rw [hget id, if_neg (by
          intro hc
          exact hid (List.mem_append_left _ hc))]
      · intro i hi r hr
        cases i with
        | zero =>
          have he : ([e].get ⟨0, hi⟩) = e := rfl
          rw [he] at hr
          show (group_set_ops st _ e.refs).getD r.1 defOp = _
          rw [hget r.1, if_pos (List.mem_map_of_mem _ hr)]
        | succ j => exact absurd hi (by simp)
    | cons e2 rest2 =>
      have harg : usub32 ((sumWaits (List.drop 1 (e :: e2 :: rest2)) + A)
          % U32) e2.wait_ms = (sumWaits (List.drop 1 (e2 :: rest2)) + A)
          % U32 := by
        have h1 : sumWaits (List.drop 1 (e :: e2 :: rest2)) + A =
            e2.wait_ms + (sumWaits (List.drop 1 (e2 :: rest2)) + A) := by
          simp [sumWaits]
          omega
        rw [h1, usub32_cancel]
      have hstep : group_pass2 st wait (e :: e2 :: rest2)
          ((sumWaits (List.drop 1 (e :: e2 :: rest2)) + A) % U32) =
          group_pass2 (group_set_ops st (uadd32 wait
            ((sumWaits (List.drop 1 (e :: e2 :: rest2)) + A) % U32)) e.refs)
            wait (e2 :: rest2)
            ((sumWaits (List.drop 1 (e2 :: rest2)) + A) % U32) := by
        simp only [group_pass2]
        rw [harg]
      set st1 := group_set_ops st (uadd32 wait
        ((sumWaits (List.drop 1 (e :: e2 :: rest2)) + A) % U32)) e.refs
        with hst1
      obtain ⟨hlen1, hget1⟩ := group_set_ops_spec (uadd32 wait
        ((sumWaits (List.drop 1 (e :: e2 :: rest2)) + A) % U32)) e.refs st hbe
      have hnd2 : (groupIds (e2 :: rest2)).Nodup :=
        (List.nodup_append.mp hnd).2.1
      have hdisj : ∀ id ∈ e.refs.map Prod.fst, id ∉ groupIds (e2 :: rest2) :=
        fun id hid hcd => (List.nodup_append.mp hnd).2.2 hid hcd
      have hb2 : ∀ id ∈ groupIds (e2 :: rest2), id < st1.length := by
        intro id hid
        rw [hlen1]
        exact hb id (List.mem_append_right _ hid)
      obtain ⟨ihlen, ihout, ihget⟩ := ih st1 hnd2 hb2
      rw [hstep]
      refine ⟨by rw [ihlen, hlen1], ?_, ?_⟩
      · intro id hid
        rw [ihout id (fun hc => hid (List.mem_append_right _ hc)),
          hget1 id, if_neg (fun hc => hid (List.mem_append_left _ hc))]
      · intro i hi r hr
        cases i with
        | zero =>
          have hmem : r.1 ∈ e.refs.map Prod.fst := List.mem_map_of_mem _ hr
          rw [ihout r.1 (hdisj r.1 hmem), hget1 r.1, if_pos hmem]
        | succ j =>
          have hj : j < (e2 :: rest2).length := by
            simpa using Nat.lt_of_succ_lt_succ hi
          have hr' : r ∈ ((e2 :: rest2).get ⟨j, hj⟩).refs := hr
          have hmem2 : r.1 ∈ groupIds (e2 :: rest2) := by
            rw [show (e2 :: rest2) = (e2 :: rest2) from rfl]
            have : ((e2 :: rest2).get ⟨j, hj⟩) ∈ (e2 :: rest2) :=
              List.get_mem _ j hj
            unfold groupIds
            refine List.mem_flatten.mpr ⟨((e2 :: rest2).get ⟨j, hj⟩).refs.map
              Prod.fst, ?_, List.mem_map_of_mem _ hr'⟩
            exact List.mem_map_of_mem _ this
          have hnotin : r.1 ∉ e.refs.map Prod.fst :=
            fun hc => hdisj r.1 hc hmem2
          have h1 : st1.getD r.1 defOp = st.getD r.1 defOp := by
            rw [hget1 r.1, if_neg hnotin]
          rw [ihget j hj r hr', h1]
          simp only [List.drop_succ_cons]

theorem mem_groupIds_of_ref (group : List SAU_ParseEvData) (i : Nat)
    (hi : i < group.length) (r : Nat × Bool)
    (hr : r ∈ (group.get ⟨i, hi⟩).refs) : r.1 ∈ groupIds group := by
  unfold groupIds
  refine List.mem_flatten.mpr ⟨(group.get ⟨i, hi⟩).refs.map Prod.fst,
    List.mem_map_of_mem _ (List.get_mem group i hi), List.mem_map_of_mem _ hr⟩

theorem lastRefId_mem (group : List SAU_ParseEvData) (id : Nat)
    (h : lastRefId group = some id) : id ∈ groupIds group := by
  unfold lastRefId groupLastRef at h
  rcases hg : group.getLast? with _ | e
  · rw [hg] at h
    exact absurd h (by simp)
  · rw [hg, Option.some_bind] at h
    rcases hl : e.refs.getLast? with _ | lref
    · rw [hl] at h
      exact absurd h (by simp)
    · rw [hl] at h
      have hid : lref.1 = id := by simpa using h
      unfold groupIds
      refine List.mem_flatten.mpr ⟨e.refs.map Prod.fst,
        List.mem_map_of_mem _ (List.mem_of_mem_getLast? hg), ?_⟩
      rw [← hid]
      exact List.mem_map_of_mem _ (List.mem_of_mem_getLast? hl)

theorem flagLastStore_getD_last (st : OpStore) (group : List SAU_ParseEvData)
    (id : Nat) (h : lastRefId group = some id) (hb : id < st.length) :
    (flagLastStore st group).getD id defOp =
      (if (st.getD id defOp).core.time_set then st.getD id defOp
       else mapCore (fun c => { c with time_set := true })
         (st.getD id defOp)) := by
  unfold lastRefId groupLastRef at h
  unfold flagLastStore
  rcases hg : group.getLast? with _ | e
  · rw [hg] at h
    exact absurd h (by simp)
  · rw [hg, Option.some_bind] at h
    dsimp only
    rcases hl : e.refs.getLast? with _ | lref
    · rw [hl] at h
      exact absurd h (by simp)
    · rw [hl] at h
      have hid : lref.1 = id := by simpa using h
      rw [← hid] at hb ⊢
      exact group_default_last_getD_self st e.refs lref hl hb

/-- C1 (amended): `group_events` adds the group's maximum operator time
(over the input store) to the following event's wait; every referenced
operator with time already `SET` is untouched; the group's last node, when
unset, is only flagged `SET` (it keeps its default time value); every
other unset referenced operator at event index `i` takes
`wait + waitcount` (the group waits after event `i` plus the following
event's wait, mod 2^32) and is flagged `SET`; operators not referenced
by the group are untouched. -/
theorem group_events_spec (st : OpStore) (group : List SAU_ParseEvData)
    (eAfterWait : Option Nat)
    (hne : group ≠ []) (hnd : (groupIds group).Nodup)
    (hb : ∀ id ∈ groupIds group, id < st.length) :
    (group_events st group eAfterWait).2.2 =
      eAfterWait.map (fun w =>
        uadd32 w ((groupOpTimes st group).foldl max 0)) ∧
    (group_events st group eAfterWait).1.length = st.length ∧
    (∀ id, id ∉ groupIds group →
      (group_events st group eAfterWait).1.getD id defOp =
        st.getD id defOp) ∧
    (∀ i, (hi : i < group.length) → ∀ r ∈ (group.get ⟨i, hi⟩).refs,
      (group_events st group eAfterWait).1.getD r.1 defOp =
        (if (st.getD r.1 defOp).core.time_set then st.getD r.1 defOp
         else if lastRefId group = some r.1 then
           mapCore (fun c => { c with time_set := true }) (st.getD r.1 defOp)
         else mapCore (fun c => { c with
             time_v_ms := uadd32 ((groupOpTimes st group).foldl max 0)
               ((sumWaits (group.drop (i+1)) + eAfterWait.getD 0) % U32),
             time_set := true }) (st.getD r.1 defOp))) := by
  have hp1 := group_pass1_spec st eAfterWait group 0 0 hne
    (by unfold U32; omega)
  have hp1' : group_pass1 st eAfterWait group 0 0 =
      (flagLastStore st group, (groupOpTimes st group).foldl max 0,
       (sumWaits (group.drop 1) + eAfterWait.getD 0) % U32) := by
    rw [hp1]
    cases eAfterWait <;> simp
  have hb1 : ∀ id ∈ groupIds group, id < (flagLastStore st group).length := by
    intro id hid
    rw [flagLastStore_length]
    exact hb id hid
  obtain ⟨plen, pout, pget⟩ := group_pass2_spec
    ((groupOpTimes st group).foldl max 0) (eAfterWait.getD 0)
    group (flagLastStore st group) hnd hb1
  simp only [group_events]
  rw [hp1']
  refine ⟨rfl, ?_, ?_, ?_⟩
  · rw [plen, flagLastStore_length]
  · intro id hid
    rw [pout id hid, flagLastStore_getD_ne st group id
      (fun hc => hid (lastRefId_mem group id hc))]
  · intro i hi r hr
    have hbr : r.1 < st.length := hb r.1 (mem_groupIds_of_ref group i hi r hr)
    rw [pget i hi r hr]
    by_cases hlast : lastRefId group = some r.1
    · rw [flagLastStore_getD_last st group r.1 hlast hbr]
      rcases hset : (st.getD r.1 defOp).core.time_set
      · simp only [List.getD_eq_getElem?_getD] at hset ⊢
        simp [hset, hlast, mapCore_core]
      · simp only [List.getD_eq_getElem?_getD] at hset ⊢
        simp [hset, hlast]
    · rw [flagLastStore_getD_ne st group r.1 hlast]
      rcases hset : (st.getD r.1 defOp).core.time_set
      · simp only [List.getD_eq_getElem?_getD] at hset ⊢
        simp [hset, hlast]
      · simp only [List.getD_eq_getElem?_getD] at hset ⊢
        simp [hset]

/-- Witness for the amended C1 theorem: a one-event group of one unset
operator followed by an event of wait 5. -/
theorem group_events_spec_witness :
    ([SAU_ParseEvData.mk 0 false [(0, false)] none none []] ≠
      ([] : List SAU_ParseEvData)) ∧
    (groupIds [SAU_ParseEvData.mk 0 false [(0, false)] none none []]).Nodup ∧
    (group_events [defOp]
      [SAU_ParseEvData.mk 0 false [(0, false)] none none []]
      (some 5)).2.2 = some 5 := by
  refine ⟨by simp, by decide, ?_⟩
  have h := group_events_spec [defOp]
    [SAU_ParseEvData.mk 0 false [(0, false)] none none []] (some 5)
    (by simp) (by decide) (by decide)
  rw [h.1]
  decide

/-! ## C7: re-running the timing pass -/

/-- The state a first visit of `time_operator` leaves an operator core
in: a nested operator's time is `SET`, and a non-`LINKED` operator has
had its silence added. -/
def retimedCoreB (c : POpCore) : Bool :=
  (!c.nested || c.time_set) && (c.time_linked || c.silenceAdded)

mutual

def retimedB : SAU_ParseOpData → Bool
  | .mk c nests => retimedCoreB c && retimedListB nests

def retimedListB : List SAU_ParseOpData → Bool
  | [] => true
  | op :: ops => retimedB op && retimedListB ops

end

/-- What a repeat visit of `time_operator` does to an already-timed
core: nothing when `LINKED`; otherwise the four ramps' default durations
are re-assigned from the (silence-inclusive) `time.v_ms`. -/
def refreshCore (c : POpCore) : POpCore :=
  if ¬c.time_linked then
    { c with freq := time_ramp c.freq c.time_v_ms,
             freq2 := time_ramp c.freq2 c.time_v_ms,
             amp := time_ramp c.amp c.time_v_ms,
             amp2 := time_ramp c.amp2 c.time_v_ms }
  else c

mutual

def refreshOp : SAU_ParseOpData → SAU_ParseOpData
  | .mk c nests => .mk (refreshCore c) (refreshList nests)

def refreshList : List SAU_ParseOpData → List SAU_ParseOpData
  | [] => []
  | op :: ops => refreshOp op :: refreshList ops

end

/-- The store ids of an op-list's new references (the ones
`oplist_fornew` visits). -/
def newRefIds (refs : List (Nat × Bool)) : List Nat :=
  (refs.filter (fun r => r.2)).map Prod.fst

/-- All new-reference ids over an event list. -/
def evsNewIds (evs : List SAU_ParseEvData) : List Nat :=
  (evs.map (fun e => newRefIds e.refs)).flatten

/-- C7 counterexample: one event, one operator with `SET` time 10 ms,
5 ms of silence and an unset-`TIME` freq ramp.  The first timing run
gives the freq ramp the pre-silence default 10 ms and then adds the
silence (time becomes 15 ms, `SILENCE_ADDED` set); a second run of the
pass (which, for this one-event graph with no group, is exactly
`time_event`) re-assigns the freq ramp's duration from the now
silence-inclusive time, changing it from 10 to 15 ms — so re-timing is
not a no-op. -/
theorem time_event_retime_cex :
    (let st0 : OpStore := [SAU_ParseOpData.mk ⟨false, false, false, true,
       false, 10, 5, ⟨0, false⟩, ⟨0, false⟩, ⟨0, false⟩, ⟨0, false⟩,
       false⟩ []]
     let e : SAU_ParseEvData := .mk 0 false [(0, true)] none none []
     let p1 := time_event st0 e
     let p2 := time_event p1.1 p1.2.1
     ((p1.1.getD 0 defOp).core.freq.time_ms = 10 ∧
      (p2.1.getD 0 defOp).core.freq.time_ms = 15 ∧
      (p1.1.getD 0 defOp).core.time_v_ms = 15 ∧
      (p2.1.getD 0 defOp).core.time_v_ms = 15)) := by
  decide

theorem time_operator_core_retimed (c : POpCore)
    (h : retimedCoreB c = true) :
    time_operator_core c = refreshCore c := by
  unfold retimedCoreB at h
  obtain ⟨n, hc, sa, ts, tl, v, sms, f, f2, a, a2, pt⟩ := c
  simp only [Bool.and_eq_true, Bool.or_eq_true, Bool.not_eq_true'] at h
  unfold time_operator_core refreshCore
  cases n <;> cases sa <;> cases ts <;> cases tl <;> simp_all

theorem refreshCore_retimed (c : POpCore) (h : retimedCoreB c = true) :
    retimedCoreB (refreshCore c) = true := by
  unfold retimedCoreB refreshCore at *
  obtain ⟨n, hc, sa, ts, tl, v, sms, f, f2, a, a2, pt⟩ := c
  cases tl <;> simp_all

theorem refreshCore_idem (c : POpCore) :
    refreshCore (refreshCore c) = refreshCore c := by
  unfold refreshCore time_ramp
  obtain ⟨n, hc, sa, ts, tl, v, sms, f, f2, a, a2, pt⟩ := c
  obtain ⟨fv, ff⟩ := f
  obtain ⟨f2v, f2f⟩ := f2
  obtain ⟨av, af⟩ := a
  obtain ⟨a2v, a2f⟩ := a2
  cases tl <;> cases ff <;> cases f2f <;> cases af <;> cases a2f <;> simp

mutual

theorem refreshOp_retimed :
    ∀ op : SAU_ParseOpData, retimedB op = true →
      retimedB (refreshOp op) = true
  | .mk c nests, h => by
    rw [retimedB, Bool.and_eq_true] at h
    rw [refreshOp, retimedB, Bool.and_eq_true]
    exact ⟨refreshCore_retimed c h.1, refreshList_retimed nests h.2⟩

theorem refreshList_retimed :
    ∀ ops : List SAU_ParseOpData, retimedListB ops = true →
      retimedListB (refreshList ops) = true
  | [], _ => rfl
  | op :: ops, h => by
    rw [retimedListB, Bool.and_eq_true] at h
    rw [refreshList, retimedListB, Bool.and_eq_true]
    exact ⟨refreshOp_retimed op h.1, refreshList_retimed ops h.2⟩

end

mutual

theorem refreshOp_idem :
    ∀ op : SAU_ParseOpData, refreshOp (refreshOp op) = refreshOp op
  | .mk c nests => by
    rw [refreshOp, refreshOp, refreshCore_idem, refreshList_idem nests]

theorem refreshList_idem :
    ∀ ops : List SAU_ParseOpData, refreshList (refreshList ops) = refreshList ops
  | [] => rfl
  | op :: ops => by
    rw [refreshList, refreshList, refreshOp_idem op, refreshList_idem ops]

end

mutual

theorem time_operator_retimed (s : WaitSt) (hs : s.addWait = false) :
    ∀ op : SAU_ParseOpData, retimedB op = true →
      time_operator s op = (s, refreshOp op)
  | .mk c nests, h => by
    rw [retimedB, Bool.and_eq_true] at h
    rw [time_operator, time_operator_core_retimed c h.1, hs]
    simp only [Bool.false_eq_true, if_false]
    rw [time_operator_list_retimed s hs nests h.2, refreshOp]

theorem time_operator_list_retimed (s : WaitSt) (hs : s.addWait = false) :
    ∀ ops : List SAU_ParseOpData, retimedListB ops = true →
      time_operator_list s ops = (s, refreshList ops)
  | [], _ => by rw [time_operator_list, refreshList]
  | op :: ops, h => by
    rw [retimedListB, Bool.and_eq_true] at h
    rw [time_operator_list, time_operator_retimed s hs op h.1,
      time_operator_list_retimed s hs ops h.2, refreshList]

end

theorem newRefIds_cons_new (pid : Nat) (rest : List (Nat × Bool)) :
    newRefIds ((pid, true) :: rest) = pid :: newRefIds rest := by
  unfold newRefIds
  rw [List.filter_cons]
  simp

theorem newRefIds_cons_old (pid : Nat) (rest : List (Nat × Bool)) :
    newRefIds ((pid, false) :: rest) = newRefIds rest := by
  unfold newRefIds
  rw [List.filter_cons]
  simp

/-- A visit of the op-list fold on an already-timed store, with the
`ADD_WAIT_DURATION` flag either spent or owning no new operators:
the `WaitSt` comes back unchanged and each new operator is refreshed. -/
theorem time_event_refs_retimed :
    ∀ (refs : List (Nat × Bool)) (st : OpStore) (s : WaitSt),
      (s.addWait = true → newRefIds refs = []) →
      (∀ op ∈ st, retimedB op = true) →
      (∀ id ∈ newRefIds refs, id < st.length) →
      ((time_event_refs st s refs).2 = s ∧
       (time_event_refs st s refs).1.length = st.length ∧
       ∀ id, (time_event_refs st s refs).1.getD id defOp =
         if id ∈ newRefIds refs then refreshOp (st.getD id defOp)
         else st.getD id defOp) := by
  intro refs
  induction refs with
  | nil =>
    intro st s _ _ _
    exact ⟨rfl, rfl, fun id => by simp [newRefIds, time_event_refs]⟩
  | cons p rest ih =>
    intro st s haw hre hb
    obtain ⟨pid, pnew⟩ := p
    cases pnew with
    | false =>
      have hrw : time_event_refs st s ((pid, false) :: rest) =
          time_event_refs st s rest := by
        rw [time_event_refs]
        simp
      obtain ⟨ihs, ihlen, ihget⟩ := ih st s
        (fun h' => by rw [← newRefIds_cons_old pid rest]; exact haw h')
        hre (fun id hid => hb id (by rw [newRefIds_cons_old]; exact hid))
      rw [hrw]
      refine ⟨ihs, ihlen, ?_⟩
      intro id
      rw [ihget id, newRefIds_cons_old]
    | true =>
      have hsf : s.addWait = false := by
        rcases hsa : s.addWait
        · rfl
        · have h' := haw hsa
          rw [newRefIds_cons_new] at h'
          exact absurd h' (by simp)
      have hbp : pid < st.length :=
        hb pid (by rw [newRefIds_cons_new]; simp)
      have hmem : st.getD pid defOp ∈ st := by
        rw [List.getD_eq_get st defOp hbp]
        exact List.get_mem _ _ _
      have hros := time_operator_retimed s hsf (st.getD pid defOp)
        (hre _ hmem)
      have hrw : time_event_refs st s ((pid, true) :: rest) =
          time_event_refs (st.set pid (refreshOp (st.getD pid defOp)))
            s rest := by
        rw [time_event_refs]
        simp only [reduceIte]
        rw [hros]
      set st1 := st.set pid (refreshOp (st.getD pid defOp)) with hst1
      have hlen1 : st1.length = st.length := List.length_set st _ _
      have hre1 : ∀ op ∈ st1, retimedB op = true := by
        intro op hop
        rcases List.mem_or_eq_of_mem_set hop with h | h
        · exact hre op h
        · rw [h]
          exact refreshOp_retimed _ (hre _ hmem)
      have hb1 : ∀ id ∈ newRefIds rest, id < st1.length := by
        intro id hid
        rw [hlen1]
        exact hb id (by rw [newRefIds_cons_new]; simp [hid])
      obtain ⟨ihs, ihlen, ihget⟩ := ih st1 s
        (fun h' => absurd h' (by rw [hsf]; simp)) hre1 hb1
      rw [hrw]
      refine ⟨ihs, by rw [ihlen, hlen1], ?_⟩
      intro id
      rw [ihget id, newRefIds_cons_new]
      by_cases hid : id = pid
      · subst hid
        have h1 : st1.getD id defOp = refreshOp (st.getD id defOp) :=
          list_getD_set_self st _ _ defOp hbp
        by_cases hm : id ∈ newRefIds rest
        · rw [if_pos hm, h1, refreshOp_idem, if_pos (by simp)]
        · rw [if_neg hm, h1, if_pos (by simp)]
      · have h1 : st1.getD id defOp = st.getD id defOp :=
          list_getD_set_ne st _ id _ defOp hid
        by_cases hm : id ∈ newRefIds rest
        · rw [if_pos hm, h1, if_pos (by simp [hm])]
        · rw [if_neg hm, h1, if_neg (by simp [hid, hm])]

/-- A visit of `time_event` to a composite-free, already-timed event:
the event comes back unchanged (its `ADD_WAIT_DURATION`, when still up,
owns no new operators, so nothing is added to the next event's wait)
and each new operator of its op-list is refreshed. -/
theorem time_event_retimed (st : OpStore) (e : SAU_ParseEvData)
    (hcomp : e.composite = [])
    (haw : e.addWaitDur = true → newRefIds e.refs = [])
    (hre : ∀ op ∈ st, retimedB op = true)
    (hb : ∀ id ∈ newRefIds e.refs, id < st.length) :
    (time_event st e).2.1 = e ∧ (time_event st e).2.2 = 0 ∧
    (time_event st e).1.length = st.length ∧
    ∀ id, (time_event st e).1.getD id defOp =
      if id ∈ newRefIds e.refs then refreshOp (st.getD id defOp)
      else st.getD id defOp := by
  obtain ⟨w, aw, refs, m, g, comp⟩ := e
  have hc : comp = [] := hcomp
  subst hc
  obtain ⟨hs, hlen, hget⟩ := time_event_refs_retimed refs st ⟨aw, 0⟩
    haw hre hb
  have hrw : time_event st (.mk w aw refs m g []) =
      ((time_event_refs st ⟨aw, 0⟩ refs).1,
       .mk w ((time_event_refs st ⟨aw, 0⟩ refs).2).addWait refs m g [],
       ((time_event_refs st ⟨aw, 0⟩ refs).2).added) := by
    rw [time_event]
    intro ce ces mid h hm
    exact List.noConfusion h
  rw [hrw, hs]
  exact ⟨rfl, rfl, hlen, hget⟩

theorem applyAddHead_zero (l : List SAU_ParseEvData)
    (h : ∀ e ∈ l, e.wait_ms < U32) : applyAddHead 0 l = l := by
  cases l with
  | nil => rfl
  | cons e rest =>
    simp only [applyAddHead]
    have hw : uadd32 e.wait_ms 0 = e.wait_ms := by
      unfold uadd32
      rw [Nat.add_zero, Nat.mod_eq_of_lt (h e (List.mem_cons_self _ _))]
    rw [hw]
    obtain ⟨w, a, r, m, g, c⟩ := e
    rfl

theorem evsNewIds_cons (e : SAU_ParseEvData) (rest : List SAU_ParseEvData) :
    evsNewIds (e :: rest) = newRefIds e.refs ++ evsNewIds rest := by
  simp [evsNewIds]

/-- The timing driver on a composite-free, already-timed event list:
every event survives unchanged and every operator a new reference names
is refreshed. -/
theorem timePassGo_retimed :
    ∀ (evs : List SAU_ParseEvData) (st : OpStore)
      (done : List SAU_ParseEvData),
      (∀ op ∈ st, retimedB op = true) →
      (∀ e ∈ evs, e.composite = [] ∧ e.groupfrom = none ∧
        e.wait_ms < U32 ∧ (e.addWaitDur = true → newRefIds e.refs = [])) →
      (∀ id ∈ evsNewIds evs, id < st.length) →
      ((timePassGo st done evs).2 = done ++ evs ∧
       (timePassGo st done evs).1.length = st.length ∧
       ∀ id, (timePassGo st done evs).1.getD id defOp =
         if id ∈ evsNewIds evs then refreshOp (st.getD id defOp)
         else st.getD id defOp) := by
  intro evs
  induction evs with
  | nil =>
    intro st done _ _ _
    refine ⟨by simp [timePassGo], by simp [timePassGo], fun id => by
      simp [evsNewIds, timePassGo]⟩
  | cons e rest ih =>
    intro st done hre hev hb
    obtain ⟨hcomp, hgf, hw, haw⟩ := hev e (List.mem_cons_self _ _)
    have hbe : ∀ id ∈ newRefIds e.refs, id < st.length := by
      intro id hid
      refine hb id ?_
      rw [evsNewIds_cons]
      exact List.mem_append_left _ hid
    obtain ⟨he1, he2, hlen1, hget1⟩ :=
      time_event_retimed st e hcomp haw hre hbe
    have hwrest : ∀ e' ∈ rest, e'.wait_ms < U32 := by
      intro e' he'
      exact (hev e' (List.mem_cons_of_mem _ he')).2.2.1
    have hre1 : ∀ op ∈ (time_event st e).1, retimedB op = true := by
      intro op hop
      obtain ⟨⟨i, hi⟩, hgeti⟩ := List.mem_iff_get.mp hop
      have hilen : i < st.length := by rw [← hlen1]; exact hi
      have hgd : (time_event st e).1.getD i defOp = op := by
        rw [List.getD_eq_get _ defOp hi, hgeti]
      rw [← hgd, hget1 i]
      have hmem : st.getD i defOp ∈ st := by
        rw [List.getD_eq_get st defOp hilen]
        exact List.get_mem _ _ _
      by_cases hm : i ∈ newRefIds e.refs
      · rw [if_pos hm]
        exact refreshOp_retimed _ (hre _ hmem)
      · rw [if_neg hm]
        exact hre _ hmem
    have hb1 : ∀ id ∈ evsNewIds rest, id < (time_event st e).1.length := by
      intro id hid
      rw [hlen1]
      exact hb id (by rw [evsNewIds_cons]; exact List.mem_append_right _ hid)
    obtain ⟨ihdone, ihlen, ihget⟩ := ih (time_event st e).1 (done ++ [e])
      hre1 (fun e' he' => hev e' (List.mem_cons_of_mem _ he')) hb1
    have hstep : timePassGo st done (e :: rest) =
        timePassGo (time_event st e).1 (done ++ [e]) rest := by
      rw [timePassGo]
      rw [he1, he2, applyAddHead_zero rest hwrest, hgf]
    rw [hstep]
    refine ⟨by rw [ihdone]; simp, by rw [ihlen, hlen1], ?_⟩
    intro id
    rw [ihget id, evsNewIds_cons]
    by_cases hm1 : id ∈ newRefIds e.refs
    · rw [hget1 id, if_pos hm1,
        if_pos (List.mem_append_left _ hm1)]
      by_cases hm2 : id ∈ evsNewIds rest
      · rw [if_pos hm2, refreshOp_idem]
      · rw [if_neg hm2]
    · rw [hget1 id, if_neg hm1]
      by_cases hm2 : id ∈ evsNewIds rest
      · rw [if_pos hm2, if_pos (List.mem_append_right _ hm2)]
      · rw [if_neg hm2, if_neg (by
          intro hc
          rcases List.mem_append.mp hc with h | h
          · exact hm1 h
          · exact hm2 h)]

/-- C7 (amended): the timing pass is not idempotent, but on an
already-timed, composite-free parse graph — every operator (nested ops
included) has `SET` raised if nested and `SILENCE_ADDED` raised if not
`LINKED`, every event's `groupfrom` is cleared and its
`ADD_WAIT_DURATION` flag, where still up, owns no new operators: the
state the first run leaves behind — a repeat run leaves every event
(wait_ms included) and every operator time value and flag unchanged,
and only re-assigns, for each visited non-`LINKED` operator, the
default durations of its unset-`TIME` ramps from the operator's
silence-inclusive time. -/
theorem timePassG_retime_spec (st : OpStore) (evs : List SAU_ParseEvData)
    (hre : ∀ op ∈ st, retimedB op = true)
    (hev : ∀ e ∈ evs, e.composite = [] ∧ e.groupfrom = none ∧
      e.wait_ms < U32 ∧ (e.addWaitDur = true → newRefIds e.refs = []))
    (hb : ∀ id ∈ evsNewIds evs, id < st.length) :
    (timePassG st evs).2 = evs ∧
    (timePassG st evs).1.length = st.length ∧
    ∀ id, (timePassG st evs).1.getD id defOp =
      if id ∈ evsNewIds evs then refreshOp (st.getD id defOp)
      else st.getD id defOp := by
  obtain ⟨h1, h2, h3⟩ := timePassGo_retimed evs st [] hre hev hb
  exact ⟨by rw [timePassG, h1]; rfl, by rw [timePassG, h2], fun id => by
    rw [timePassG, h3 id]⟩

/-- Witness for the amended C7 theorem: an already-timed store of one
operator (`SET`, silence added, freq ramp defaulted to 15 ms) under one
event; the repeat run returns the event list unchanged. -/
theorem timePassG_retime_spec_witness :
    (retimedB (SAU_ParseOpData.mk ⟨false, false, true, true, false, 15, 5,
       ⟨15, false⟩, ⟨15, false⟩, ⟨15, false⟩, ⟨15, false⟩, false⟩ []) =
      true) ∧
    (timePassG [SAU_ParseOpData.mk ⟨false, false, true, true, false, 15, 5,
       ⟨15, false⟩, ⟨15, false⟩, ⟨15, false⟩, ⟨15, false⟩, false⟩ []]
      [SAU_ParseEvData.mk 3 false [(0, true)] none none []]).2 =
      [SAU_ParseEvData.mk 3 false [(0, true)] none none []] := by
  refine ⟨by decide, ?_⟩
  have h := timePassG_retime_spec
    [SAU_ParseOpData.mk ⟨false, false, true, true, false, 15, 5,
      ⟨15, false⟩, ⟨15, false⟩, ⟨15, false⟩, ⟨15, false⟩, false⟩ []]
    [SAU_ParseEvData.mk 3 false [(0, true)] none none []]
    (by intro op hop; rw [List.mem_singleton] at hop; rw [hop]; decide)
    (by intro e he; rw [List.mem_singleton] at he; rw [he]
        refine ⟨rfl, rfl, by decide, by intro h'; exact absurd h' (by decide)⟩)
    (by intro id hid
        simp [evsNewIds, newRefIds, SAU_ParseEvData.refs] at hid
        subst hid
        decide)
  exact h.1

/-! ## The generator (`MGS_Generator_run` and friends, for C3, C4, C6)

The run-node array is modelled positionally (`nodes`), the sound nodes
by the fields the run logic reads (`time`, whether the node's type is
`MGS_TYPE_TOP`) in a store addressed by `sid`; an unprepared run node's
`node` pointer is its update node (`updn`: the `MGS_TIME` value if the
`MGS_TIME` param bit is set, and whether `MGS_FREQ` is set — the two
params feeding `adjtime`).  `MGS_Osc_cycle_offs` lives in `osc.h`,
which the repository snapshot does not carry; it is taken as a
parameter `co` giving the snap for a sound node at its preparation
(modelled from the spec: a time-snap offset computed from the
oscillator state).  `MGS_Generator_run` is instrumented with an event
log: `fire i b` when run node `i` is prepared with the processing block
standing at absolute sample `b`, `render i off l` when run node `i`
renders `l` samples starting at absolute sample `off`. -/

structure UpdN where
  setTime : Option Nat
  setFreq : Bool
  deriving Repr, DecidableEq

structure Snd where
  time : Nat
  isTop : Bool
  deriving Repr, DecidableEq

structure RunN where
  pos : Int
  prepared : Bool
  active : Bool
  refPrev : Option Nat
  sid : Nat
  updn : UpdN
  deriving Repr, DecidableEq

def defSnd : Snd := ⟨0, false⟩

def defRunN : RunN := ⟨0, false, false, none, 0, ⟨none, false⟩⟩

structure GenSt where
  runnI : Nat
  nodes : List RunN
  snds : List Snd
  delayOffs : Int
  timeFlags : Bool
  deriving Repr, DecidableEq

/-- Embedding of `adjust_time`: the sound node's time is reduced by the
snap (uint32 arithmetic), and `delay_offs` adopts the snap when no
offset is pending or the pending one is larger. -/
def adjust_time (co : Nat → Int) (st : GenSt) (sid : Nat) : GenSt :=
  let snd := st.snds.getD sid defSnd
  let offs := co sid
  let snds := st.snds.set sid
    { snd with time := u32ofInt ((snd.time : Int) - offs) }
  if ¬st.timeFlags ∨ st.delayOffs > offs then
    { st with snds := snds, delayOffs := offs, timeFlags := true }
  else { st with snds := snds }

/-- Embedding of `MGS_Generator_prepare_node` (the parts of the
`MGS_TYPE_TOP`/`MGS_TYPE_NESTED` case the run logic reads: the
`MGS_TIME` state set, `adjtime` — fed by a nonzero new time and by
`MGS_FREQ` — invoking `adjust_time` for top nodes, the `ref_prev`
deactivation, and the `PREPARED` flag; the remaining params only write
fields of the sound node this model does not carry). -/
def MGS_Generator_prepare_node (co : Nat → Int) (st : GenSt) (i : Nat) :
    GenSt :=
  let rn := st.nodes.getD i defRunN
  let snd := st.snds.getD rn.sid defSnd
  let p1 := match rn.updn.setTime with
    | some t =>
      let act := if t ≠ 0 then (if snd.isTop then true else rn.active)
        else false
      ({ st with snds := st.snds.set rn.sid { snd with time := t } },
       { rn with pos := 0, active := act },
       t != 0)
    | none => (st, rn, false)
  let st := p1.1
  let rn := p1.2.1
  let adjtime : Bool := p1.2.2 || rn.updn.setFreq
  let st := if snd.isTop && adjtime then adjust_time co st rn.sid else st
  let st := match rn.refPrev with
    | some k =>
      let ns := st.nodes.set k { st.nodes.getD k defRunN with active := false }
      { st with nodes := ns }
    | none => st
  { st with nodes := st.nodes.set i { rn with prepared := true } }

/-- Embedding of `run_node`'s return value (the sample count rendered:
the node's remaining time, capped to the block length). -/
def run_node (snd_time : Nat) (pos : Int) (len : Nat) : Nat :=
  let time := usub32 snd_time (u32ofInt pos)
  if time > len then len else time

/-- The events `MGS_Generator_run` is instrumented with. -/
inductive Ev where
  | fire (i : Nat) (b : Nat)
  | render (i : Nat) (off : Nat) (len : Nat)
  deriving Repr, DecidableEq

/-- First loop of `MGS_Generator_run`'s `PROCESS` block: prepare
non-delayed nodes up to the first pending delay; if that delay falls
within the block, clip the block to it and queue the rest (`skiplen`).
Returns (state, len, skiplen, log); `k` counts the remaining nodes
(`runn_end - i`). -/
def runLoop1 (co : Nat → Int) :
    Nat → GenSt → Nat → Nat → Nat → GenSt × Nat × Nat × List Ev
  | 0, st, _, len, _ => (st, len, 0, [])
  | k + 1, st, off, len, i =>
    if i < st.nodes.length then
      let rn := st.nodes.getD i defRunN
      if rn.pos < 0 then
        let delay := u32ofInt (-rn.pos -
          (if st.timeFlags then st.delayOffs else 0))
        if delay ≤ len then (st, delay, len - delay, [])
        else (st, len, 0, [])
      else if ¬rn.prepared then
        let st1 := MGS_Generator_prepare_node co st i
        let r := runLoop1 co k st1 off len (i + 1)
        (r.1, r.2.1, r.2.2.1, Ev.fire i off :: r.2.2.2)
      else runLoop1 co k st off len (i + 1)
    else (st, len, 0, [])

/-- Second loop of the `PROCESS` block: consume the first pending delay
(applying and clearing a pending `delay_offs`), prepare any node the
first loop did not reach, and let every `ACTIVE` node render into the
block, its `ACTIVE` status ending with its time. -/
def runLoop2 (co : Nat → Int) :
    Nat → GenSt → Nat → Nat → Nat → GenSt × List Ev
  | 0, st, _, _, _ => (st, [])
  | k + 1, st, off, len, i =>
    if i < st.nodes.length then
      let rn := st.nodes.getD i defRunN
      let p1 :=
        if rn.pos < 0 then
          let delay := u32ofInt (-rn.pos)
          let st :=
            if st.timeFlags then
              let ns := st.nodes.set i { rn with pos := rn.pos + st.delayOffs }
              { st with nodes := ns, delayOffs := 0, timeFlags := false }
            else st
          let rn := st.nodes.getD i defRunN
          if delay ≥ len then
            let ns := st.nodes.set i { rn with pos := rn.pos + (len : Int) }
            (({ st with nodes := ns } : GenSt),
             off, len, true, ([] : List Ev))
          else
            ({ st with nodes := st.nodes.set i { rn with pos := 0 } },
             off + delay, len - delay, false, [])
        else if ¬rn.prepared then
          (MGS_Generator_prepare_node co st i, off, len, false,
           [Ev.fire i off])
        else (st, off, len, false, [])
      let st := p1.1
      let off := p1.2.1
      let len := p1.2.2.1
      if p1.2.2.2.1 then (st, p1.2.2.2.2)
      else
        let rn := st.nodes.getD i defRunN
        let p2 :=
          if rn.active then
            let snd := st.snds.getD rn.sid defSnd
            let l := run_node snd.time rn.pos len
            let pos2 := rn.pos + (l : Int)
            let act2 := if u32ofInt pos2 = snd.time then false else rn.active
            let ns := st.nodes.set i { rn with pos := pos2, active := act2 }
            ({ st with nodes := ns }, [Ev.render i off l])
          else (st, [])
        let r := runLoop2 co k p2.1 off len (i + 1)
        (r.1, p1.2.2.2.2 ++ p2.2 ++ r.2)
    else (st, [])

/-- The `PROCESS` block of `MGS_Generator_run`, repeated while a clip
left a remainder (`skiplen`); `off` is the absolute sample position of
the block. -/
def runProcess (co : Nat → Int) :
    Nat → GenSt → Nat → Nat → GenSt × List Ev
  | 0, st, _, _ => (st, [])
  | f + 1, st, off, len =>
    let r1 := runLoop1 co st.nodes.length st off len st.runnI
    let st1 := r1.1
    let len1 := r1.2.1
    let skiplen := r1.2.2.1
    let r2 := runLoop2 co st1.nodes.length st1 off len1 st1.runnI
    if skiplen ≠ 0 then
      let r := runProcess co f r2.1 (off + len1) skiplen
      (r.1, r1.2.2.2 ++ r2.2 ++ r.2)
    else (r2.1, r1.2.2.2 ++ r2.2)

/-- The final loop of `MGS_Generator_run`: `runn_i` advances past
prepared inactive nodes; reaching `runn_end` means end of stream
(return false). -/
def finalSkip : Nat → GenSt → GenSt × Bool
  | 0, st => (st, true)
  | k + 1, st =>
    if st.runnI = st.nodes.length then (st, false)
    else
      let cur := st.nodes.getD st.runnI defRunN
      if ¬cur.prepared ∨ cur.active then (st, true)
      else finalSkip k { st with runnI := st.runnI + 1 }

/-- Embedding of `MGS_Generator_run`: the `PROCESS` blocks, then the
end-of-stream check.  Returns the state, the boolean the function
returns, and the event log. -/
def MGS_Generator_run (co : Nat → Int) (st : GenSt) (len : Nat) :
    GenSt × Bool × List Ev :=
  let p := runProcess co (len + 1) st 0 len
  let f := finalSkip (p.1.nodes.length - p.1.runnI + 1) p.1
  (f.1, f.2, p.2)

/-! ### Frame lemmas: the processing loops keep `runn_i` and the array
sizes -/

theorem adjust_time_nodes (co : Nat → Int) (st : GenSt) (sid : Nat) :
    (adjust_time co st sid).nodes = st.nodes := by
  simp only [adjust_time]
  split <;> rfl

theorem adjust_time_runnI (co : Nat → Int) (st : GenSt) (sid : Nat) :
    (adjust_time co st sid).runnI = st.runnI := by
  simp only [adjust_time]
  split <;> rfl

theorem adjust_time_snds_length (co : Nat → Int) (st : GenSt) (sid : Nat) :
    (adjust_time co st sid).snds.length = st.snds.length := by
  simp only [adjust_time]
  split <;> exact List.length_set _ _ _

theorem prepare_node_nodes_length (co : Nat → Int) (st : GenSt) (i : Nat) :
    (MGS_Generator_prepare_node co st i).nodes.length = st.nodes.length := by
  simp only [MGS_Generator_prepare_node]
  repeat' split
  all_goals
    simp [adjust_time_nodes, adjust_time_runnI, adjust_time_snds_length]

theorem prepare_node_runnI (co : Nat → Int) (st : GenSt) (i : Nat) :
    (MGS_Generator_prepare_node co st i).runnI = st.runnI := by
  simp only [MGS_Generator_prepare_node]
  repeat' split
  all_goals
    simp [adjust_time_nodes, adjust_time_runnI, adjust_time_snds_length]

theorem prepare_node_snds_length (co : Nat → Int) (st : GenSt) (i : Nat) :
    (MGS_Generator_prepare_node co st i).snds.length = st.snds.length := by
  simp only [MGS_Generator_prepare_node]
  repeat' split
  all_goals
    simp [adjust_time_nodes, adjust_time_runnI, adjust_time_snds_length]

theorem runLoop1_frame (co : Nat → Int) :
    ∀ (k : Nat) (st : GenSt) (off len i : Nat),
      ((runLoop1 co k st off len i).1.nodes.length = st.nodes.length ∧
       (runLoop1 co k st off len i).1.runnI = st.runnI ∧
       (runLoop1 co k st off len i).1.snds.length = st.snds.length) ∧
      (runLoop1 co k st off len i).2.1 ≤ len := by
  intro k
  induction k with
  | zero => intro st off len i; exact ⟨⟨rfl, rfl, rfl⟩, le_refl _⟩
  | succ k ih =>
    intro st off len i
    simp only [runLoop1]
    repeat' split
    all_goals first
      | exact ⟨⟨rfl, rfl, rfl⟩, le_refl _⟩
      | exact ⟨⟨rfl, rfl, rfl⟩, by simp_all⟩
      | (refine ⟨⟨?_, ?_, ?_⟩, ?_⟩
         · rw [(ih _ _ _ (i + 1)).1.1]
           try simp [prepare_node_nodes_length]
         · rw [(ih _ _ _ (i + 1)).1.2.1]
           try simp [prepare_node_runnI]
         · rw [(ih _ _ _ (i + 1)).1.2.2]
           try simp [prepare_node_snds_length]
         · exact (ih _ _ _ (i + 1)).2)

theorem runLoop2_frame (co : Nat → Int) :
    ∀ (k : Nat) (st : GenSt) (off len i : Nat),
      (runLoop2 co k st off len i).1.nodes.length = st.nodes.length ∧
      (runLoop2 co k st off len i).1.runnI = st.runnI ∧
      (runLoop2 co k st off len i).1.snds.length = st.snds.length := by
  intro k
  induction k with
  | zero => intro st off len i; exact ⟨rfl, rfl, rfl⟩
  | succ k ih =>
    intro st off len i
    simp only [runLoop2]
    repeat' split
    all_goals first
      | exact ⟨rfl, rfl, rfl⟩
      | exact ⟨by simp, rfl, rfl⟩
      | (refine ⟨?_, ?_, ?_⟩
         · rw [(ih _ _ _ (i + 1)).1]
           try simp [prepare_node_nodes_length]
         · rw [(ih _ _ _ (i + 1)).2.1]
           try simp [prepare_node_runnI]
         · rw [(ih _ _ _ (i + 1)).2.2]
           try simp [prepare_node_snds_length])
      | simp_all

theorem runProcess_frame (co : Nat → Int) :
    ∀ (f : Nat) (st : GenSt) (off len : Nat),
      (runProcess co f st off len).1.nodes.length = st.nodes.length ∧
      (runProcess co f st off len).1.runnI = st.runnI ∧
      (runProcess co f st off len).1.snds.length = st.snds.length := by
  intro f
  induction f with
  | zero => intro st off len; exact ⟨rfl, rfl, rfl⟩
  | succ f ih =>
    intro st off len
    rw [runProcess]
    have h1 := runLoop1_frame co st.nodes.length st off len st.runnI
    set r1 := runLoop1 co st.nodes.length st off len st.runnI with hr1
    have h2 := runLoop2_frame co r1.1.nodes.length r1.1 off r1.2.1 r1.1.runnI
    set r2 := runLoop2 co r1.1.nodes.length r1.1 off r1.2.1 r1.1.runnI
      with hr2
    dsimp only
    split
    · obtain ⟨il, ir, is⟩ := ih r2.1 (off + r1.2.1) r1.2.2.1
      refine ⟨?_, ?_, ?_⟩
      · rw [il, h2.1, h1.1.1]
      · rw [ir, h2.2.1, h1.1.2.1]
      · rw [is, h2.2.2, h1.1.2.2]
    · exact ⟨by rw [h2.1, h1.1.1], by rw [h2.2.1, h1.1.2.1],
        by rw [h2.2.2, h1.1.2.2]⟩

/-! ### C3: when `MGS_Generator_run` returns false -/

theorem finalSkip_nodes :
    ∀ (k : Nat) (st : GenSt), (finalSkip k st).1.nodes = st.nodes := by
  intro k
  induction k with
  | zero => intro st; rfl
  | succ k ih =>
    intro st
    simp only [finalSkip]
    split
    · rfl
    · split
      · rfl
      · exact ih _

theorem finalSkip_false_iff :
    ∀ (k : Nat) (st : GenSt), st.nodes.length - st.runnI < k →
      st.runnI ≤ st.nodes.length →
      ((finalSkip k st).2 = false ↔
        ∀ i, st.runnI ≤ i → i < st.nodes.length →
          (st.nodes.getD i defRunN).prepared = true ∧
          (st.nodes.getD i defRunN).active = false) := by
  intro k
  induction k with
  | zero => intro st hk _; omega
  | succ k ih =>
    intro st hk hle
    simp only [finalSkip]
    split
    · rename_i heq
      constructor
      · intro _ i h1 h2
        omega
      · intro _
        rfl
    · rename_i hne
      split
      · rename_i hcur
        constructor
        · intro hfalse
          exact absurd hfalse (by simp)
        · intro hall
          have h := hall st.runnI (le_refl _) (by omega)
          rcases hcur with hc | hc
          · exact absurd h.1 hc
          · rw [h.2] at hc
            exact absurd hc (by simp)
      · rename_i hcur
        push_neg at hcur
        rw [ih { st with runnI := st.runnI + 1 }
          (show st.nodes.length - (st.runnI + 1) < k from by omega)
          (show st.runnI + 1 ≤ st.nodes.length from by omega)]
        constructor
        · intro hall i h1 h2
          rcases Nat.eq_or_lt_of_le h1 with he | hlt
          · rw [← he]
            exact ⟨hcur.1, by
              rcases hact : (st.nodes.getD st.runnI defRunN).active
              · rfl
              · exact absurd hact hcur.2⟩
          · exact hall i (show st.runnI + 1 ≤ i from hlt) h2
        · intro hall i h1 h2
          have h1' : st.runnI + 1 ≤ i := h1
          exact hall i (by omega) h2

/-- C3 counterexample: a single unprepared run node whose delay has just
elapsed (its `pos` reaches 0 within the call) over a zero-time sound
node — "unprepared with zero remaining time" — yet `MGS_Generator_run`
returns true: the end-of-stream check stops at any unprepared node. -/
theorem MGS_Generator_run_false_cex :
    (let st : GenSt := ⟨0, [⟨-5, false, false, none, 0, ⟨none, false⟩⟩],
       [⟨0, true⟩], 0, false⟩
     let r := MGS_Generator_run (fun _ => 0) st 5
     r.2.1 = true ∧
     (r.1.nodes.getD 0 defRunN).prepared = false ∧
     (r.1.nodes.getD 0 defRunN).pos = 0 ∧
     (r.1.snds.getD 0 defSnd).time = 0 ∧
     (r.1.nodes.getD 0 defRunN).active = false) := by
  decide

/-- C3 (amended): `MGS_Generator_run` returns false exactly when every
run node from `runn_i` on ends the call `PREPARED` and no longer
`ACTIVE`; any other state — in particular an unprepared node, even one
whose delay is spent over a zero-time sound node — makes it return
true. -/
theorem MGS_Generator_run_false_iff (co : Nat → Int) (st : GenSt)
    (len : Nat) (h : st.runnI ≤ st.nodes.length) :
    ((MGS_Generator_run co st len).2.1 = false ↔
      ∀ i, st.runnI ≤ i →
        i < (MGS_Generator_run co st len).1.nodes.length →
        ((MGS_Generator_run co st len).1.nodes.getD i defRunN).prepared
            = true ∧
        ((MGS_Generator_run co st len).1.nodes.getD i defRunN).active
            = false) := by
  obtain ⟨hl, hr, _⟩ := runProcess_frame co (len + 1) st 0 len
  simp only [MGS_Generator_run]
  rw [finalSkip_nodes]
  rw [finalSkip_false_iff (((runProcess co (len + 1) st 0 len).1.nodes.length
      - (runProcess co (len + 1) st 0 len).1.runnI) + 1)
    (runProcess co (len + 1) st 0 len).1 (by omega)
    (by rw [hl, hr]; exact h)]
  rw [hr]

/-- Witness for the amended C3 theorem: one prepared, inactive run
node; the run reports end of stream. -/
theorem MGS_Generator_run_false_iff_witness :
    ((⟨0, [⟨0, true, false, none, 0, ⟨none, false⟩⟩], [⟨0, true⟩], 0,
        false⟩ : GenSt).runnI ≤
      (⟨0, [⟨0, true, false, none, 0, ⟨none, false⟩⟩], [⟨0, true⟩], 0,
        false⟩ : GenSt).nodes.length) ∧
    (MGS_Generator_run (fun _ => 0)
      ⟨0, [⟨0, true, false, none, 0, ⟨none, false⟩⟩], [⟨0, true⟩], 0,
        false⟩ 1).2.1 = false := by
  refine ⟨by decide, ?_⟩
  have h := MGS_Generator_run_false_iff (fun _ => 0)
    ⟨0, [⟨0, true, false, none, 0, ⟨none, false⟩⟩], [⟨0, true⟩], 0, false⟩
    1 (by decide)
  refine h.mpr ?_
  intro i h1 h2
  have hlen : (MGS_Generator_run (fun _ => 0)
      ⟨0, [⟨0, true, false, none, 0, ⟨none, false⟩⟩], [⟨0, true⟩], 0,
        false⟩ 1).1.nodes.length = 1 := by decide
  rw [hlen] at h2
  have h3 : i = 0 := by omega
  subst h3
  decide

/-! ### C6: the time snap -/

theorem int_foldl_min_le_init :
    ∀ (l : List Int) (a : Int), l.foldl min a ≤ a := by
  intro l
  induction l with
  | nil => intro a; exact le_refl a
  | cons x rest ih =>
    intro a
    rw [List.foldl_cons]
    exact le_trans (ih (min a x)) (min_le_left a x)

theorem int_foldl_min_le_mem :
    ∀ (l : List Int) (a x : Int), x ∈ l → l.foldl min a ≤ x := by
  intro l
  induction l with
  | nil => intro a x hx; exact absurd hx (by simp)
  | cons y rest ih =>
    intro a x hx
    rw [List.foldl_cons]
    rcases List.mem_cons.mp hx with h | h
    · rw [h]
      exact le_trans (int_foldl_min_le_init rest (min a y))
        (min_le_right a y)
    · exact ih (min a y) x h

theorem int_foldl_min_mem :
    ∀ (l : List Int) (a : Int), l.foldl min a = a ∨ l.foldl min a ∈ l := by
  intro l
  induction l with
  | nil => intro a; exact Or.inl rfl
  | cons y rest ih =>
    intro a
    rw [List.foldl_cons]
    rcases ih (min a y) with h | h
    · rcases le_total a y with hay | hay
      · rw [h, min_eq_left hay]
        exact Or.inl rfl
      · rw [h, min_eq_right hay]
        exact Or.inr (List.mem_cons_self _ _)
    · exact Or.inr (List.mem_cons_of_mem _ h)

/-- One `adjust_time` with a snap already pending: the node's time is
reduced and `delay_offs` keeps the smaller snap. -/
theorem adjust_time_step (co : Nat → Int) (st : GenSt) (sid : Nat)
    (h : st.timeFlags = true) :
    adjust_time co st sid =
      { st with
        snds := (st.snds.set sid
          { st.snds.getD sid defSnd with
            time := u32ofInt (((st.snds.getD sid defSnd).time : Int)
              - co sid) }),
        delayOffs := min st.delayOffs (co sid),
        timeFlags := true } := by
  simp only [adjust_time]
  split
  · rename_i hc
    rcases hc with hc | hc
    · rw [h] at hc
      exact absurd rfl hc
    · rw [min_eq_right (le_of_lt hc)]
  · rename_i hc
    push_neg at hc
    rw [min_eq_left hc.2, ← h]

/-- One `adjust_time` with no snap pending: the node's time is reduced
and `delay_offs` adopts the snap. -/
theorem adjust_time_first (co : Nat → Int) (st : GenSt) (sid : Nat)
    (h : st.timeFlags = false) :
    adjust_time co st sid =
      { st with
        snds := (st.snds.set sid
          { st.snds.getD sid defSnd with
            time := u32ofInt (((st.snds.getD sid defSnd).time : Int)
              - co sid) }),
        delayOffs := co sid,
        timeFlags := true } := by
  simp only [adjust_time]
  rw [if_pos (Or.inl (by rw [h]; simp))]

theorem adjust_time_foldl_go (co : Nat → Int) :
    ∀ (sids : List Nat) (st : GenSt), st.timeFlags = true →
      sids.Nodup → (∀ sid ∈ sids, sid < st.snds.length) →
      ((sids.foldl (adjust_time co) st).timeFlags = true ∧
       (sids.foldl (adjust_time co) st).delayOffs =
         (sids.map co).foldl min st.delayOffs ∧
       (∀ sid ∈ sids,
         ((sids.foldl (adjust_time co) st).snds.getD sid defSnd).time =
           u32ofInt (((st.snds.getD sid defSnd).time : Int) - co sid)) ∧
       (∀ j, j ∉ sids →
         (sids.foldl (adjust_time co) st).snds.getD j defSnd =
           st.snds.getD j defSnd) ∧
       (sids.foldl (adjust_time co) st).snds.length = st.snds.length) := by
  intro sids
  induction sids with
  | nil =>
    intro st h _ _
    exact ⟨h, rfl, fun sid hs => absurd hs (by simp),
      fun j _ => rfl, rfl⟩
  | cons s rest ih =>
    intro st h hnd hb
    rw [List.foldl_cons, adjust_time_step co st s h]
    set st1 : GenSt := { st with
      snds := (st.snds.set s
        { st.snds.getD s defSnd with
          time := u32ofInt (((st.snds.getD s defSnd).time : Int) - co s) }),
      delayOffs := min st.delayOffs (co s),
      timeFlags := true } with hst1
    have hbs : s < st.snds.length := hb s (List.mem_cons_self _ _)
    have hnd2 : rest.Nodup := (List.nodup_cons.mp hnd).2
    have hsn : s ∉ rest := (List.nodup_cons.mp hnd).1
    have hb2 : ∀ sid ∈ rest, sid < st1.snds.length := by
      intro sid hs
      show sid < (st.snds.set s _).length
      rw [List.length_set]
      exact hb sid (List.mem_cons_of_mem _ hs)
    obtain ⟨i1, i2, i3, i4, i5⟩ := ih st1 rfl hnd2 hb2
    refine ⟨i1, ?_, ?_, ?_, ?_⟩
    · rw [i2, List.map_cons, List.foldl_cons]
    · intro sid hs
      rcases List.mem_cons.mp hs with hcase | hcase
      · rw [hcase, i4 s hsn]
        show ((st.snds.set s _).getD s defSnd).time = _
        rw [list_getD_set_self st.snds _ _ defSnd hbs]
      · rw [i3 sid hcase]
        have hne : st1.snds.getD sid defSnd = st.snds.getD sid defSnd := by
          show (st.snds.set s _).getD sid defSnd = _
          exact list_getD_set_ne st.snds _ sid _ defSnd
            (fun hh => hsn (hh ▸ hcase))
        rw [hne]
    · intro j hj
      rw [i4 j (fun hc => hj (List.mem_cons_of_mem _ hc))]
      show (st.snds.set s _).getD j defSnd = _
      exact list_getD_set_ne st.snds _ j _ defSnd
        (fun hh => hj (by rw [hh]; exact List.mem_cons_self _ _))
    · rw [i5]
      show (st.snds.set s _).length = _
      exact List.length_set _ _ _

/-- Output of a single `adjust_time`, with no assumption on the flag
state. -/
theorem adjust_time_out (co : Nat → Int) (st : GenSt) (sid : Nat) :
    (adjust_time co st sid).timeFlags = true ∧
    (adjust_time co st sid).delayOffs =
      (if ¬st.timeFlags ∨ st.delayOffs > co sid then co sid
       else st.delayOffs) ∧
    (adjust_time co st sid).snds = (st.snds.set sid
      { st.snds.getD sid defSnd with
        time := u32ofInt (((st.snds.getD sid defSnd).time : Int)
          - co sid) }) := by
  simp only [adjust_time]
  split
  · rename_i hc
    exact ⟨rfl, rfl, rfl⟩
  · rename_i hc
    refine ⟨?_, rfl, rfl⟩
    push_neg at hc
    exact hc.1

/-- The fold of `adjust_time` over the nodes snapped between two
consumptions of `delay_offs`: starting with no offset pending, the
final `delay_offs` is the smallest snap, and every node's time has its
own snap subtracted. -/
theorem adjust_time_foldl_spec (co : Nat → Int) (sids : List Nat)
    (st : GenSt) (h : st.timeFlags = false) (hne : sids ≠ [])
    (hnd : sids.Nodup) (hb : ∀ sid ∈ sids, sid < st.snds.length) :
    ((sids.foldl (adjust_time co) st).timeFlags = true ∧
     (sids.foldl (adjust_time co) st).delayOffs ∈ sids.map co ∧
     (∀ x ∈ sids.map co, (sids.foldl (adjust_time co) st).delayOffs ≤ x) ∧
     ∀ sid ∈ sids,
       ((sids.foldl (adjust_time co) st).snds.getD sid defSnd).time =
         u32ofInt (((st.snds.getD sid defSnd).time : Int) - co sid)) := by
  cases sids with
  | nil => exact absurd rfl hne
  | cons s rest =>
    rw [List.foldl_cons, adjust_time_first co st s h]
    set st1 : GenSt := { st with
      snds := (st.snds.set s
        { st.snds.getD s defSnd with
          time := u32ofInt (((st.snds.getD s defSnd).time : Int) - co s) }),
      delayOffs := co s,
      timeFlags := true } with hst1
    have hbs : s < st.snds.length := hb s (List.mem_cons_self _ _)
    have hnd2 : rest.Nodup := (List.nodup_cons.mp hnd).2
    have hsn : s ∉ rest := (List.nodup_cons.mp hnd).1
    have hb2 : ∀ sid ∈ rest, sid < st1.snds.length := by
      intro sid hs
      show sid < (st.snds.set s _).length
      rw [List.length_set]
      exact hb sid (List.mem_cons_of_mem _ hs)
    obtain ⟨i1, i2, i3, i4, _⟩ := adjust_time_foldl_go co rest st1 rfl
      hnd2 hb2
    refine ⟨i1, ?_, ?_, ?_⟩
    · rw [i2]
      rcases int_foldl_min_mem (rest.map co) (co s) with hm | hm
      · rw [hm, List.map_cons]
        exact List.mem_cons_self _ _
      · rw [List.map_cons]
        exact List.mem_cons_of_mem _ hm
    · intro x hx
      rw [i2]
      rw [List.map_cons] at hx
      rcases List.mem_cons.mp hx with hc | hc
      · rw [hc]
        exact int_foldl_min_le_init _ _
      · exact int_foldl_min_le_mem _ _ _ hc
    · intro sid hs
      rcases List.mem_cons.mp hs with hcase | hcase
      · rw [hcase, i4 s hsn]
        show ((st.snds.set s _).getD s defSnd).time = _
        rw [list_getD_set_self st.snds _ _ defSnd hbs]
      · rw [i3 sid hcase]
        have hne2 : st1.snds.getD sid defSnd = st.snds.getD sid defSnd := by
          show (st.snds.set s _).getD sid defSnd = _
          exact list_getD_set_ne st.snds _ sid _ defSnd
            (fun hh => hsn (hh ▸ hcase))
        rw [hne2]

/-- Preparing a top node whose update carries a nonzero new time: the
time is written, then snapped by `adjust_time`. -/
theorem prepare_node_snap_time (co : Nat → Int) (st : GenSt) (i t : Nat)
    (hi : i < st.nodes.length)
    (hT : (st.nodes.getD i defRunN).updn.setTime = some t) (ht : t ≠ 0)
    (htop : (st.snds.getD (st.nodes.getD i defRunN).sid defSnd).isTop
      = true)
    (hbs : (st.nodes.getD i defRunN).sid < st.snds.length) :
    (MGS_Generator_prepare_node co st i).timeFlags = true ∧
    (MGS_Generator_prepare_node co st i).delayOffs =
      (if ¬st.timeFlags ∨ st.delayOffs > co (st.nodes.getD i defRunN).sid
       then co (st.nodes.getD i defRunN).sid else st.delayOffs) ∧
    ((MGS_Generator_prepare_node co st i).snds.getD
        (st.nodes.getD i defRunN).sid defSnd).time =
      u32ofInt ((t : Int) - co (st.nodes.getD i defRunN).sid) := by
  simp only [MGS_Generator_prepare_node]
  rw [hT]
  dsimp only
  rw [htop]
  have hbt : (t != 0) = true := by simpa using ht
  rw [hbt]
  simp only [Bool.true_or, Bool.true_and, if_true]
  set sid := (st.nodes.getD i defRunN).sid with hsid
  set stA : GenSt := { st with
    snds := st.snds.set sid ⟨t, true⟩ } with hstA
  obtain ⟨a1, a2, a3⟩ := adjust_time_out co stA sid
  have hgA : stA.snds.getD sid defSnd = ⟨t, true⟩ := by
    show (st.snds.set sid _).getD sid defSnd = _
    exact list_getD_set_self st.snds _ _ defSnd hbs
  have hlt : sid < stA.snds.length := by
    show sid < (st.snds.set sid _).length
    rw [List.length_set]
    exact hbs
  have a2' : (adjust_time co stA sid).delayOffs =
      (if ¬st.timeFlags = true ∨ st.delayOffs > co sid then co sid
       else st.delayOffs) := a2
  rcases hrp : (st.nodes.getD i defRunN).refPrev with _ | k <;>
    dsimp only <;>
    refine ⟨a1, a2', ?_⟩ <;>
    · show ((adjust_time co stA sid).snds.getD sid defSnd).time = _
      rw [a3, list_getD_set_self stA.snds _ _ defSnd hlt, hgA]
      try rfl

/-- Preparing a top node whose update carries a new frequency but no new
time: the node's current time is snapped by `adjust_time`. -/
theorem prepare_node_snap_freq (co : Nat → Int) (st : GenSt) (i : Nat)
    (hi : i < st.nodes.length)
    (hT : (st.nodes.getD i defRunN).updn.setTime = none)
    (hF : (st.nodes.getD i defRunN).updn.setFreq = true)
    (htop : (st.snds.getD (st.nodes.getD i defRunN).sid defSnd).isTop
      = true)
    (hbs : (st.nodes.getD i defRunN).sid < st.snds.length) :
    (MGS_Generator_prepare_node co st i).timeFlags = true ∧
    (MGS_Generator_prepare_node co st i).delayOffs =
      (if ¬st.timeFlags ∨ st.delayOffs > co (st.nodes.getD i defRunN).sid
       then co (st.nodes.getD i defRunN).sid else st.delayOffs) ∧
    ((MGS_Generator_prepare_node co st i).snds.getD
        (st.nodes.getD i defRunN).sid defSnd).time =
      u32ofInt (((st.snds.getD (st.nodes.getD i defRunN).sid defSnd).time
        : Int) - co (st.nodes.getD i defRunN).sid) := by
  simp only [MGS_Generator_prepare_node]
  rw [hT]
  dsimp only
  rw [htop, hF]
  simp only [Bool.false_or, Bool.or_true, Bool.true_and, if_true]
  set sid := (st.nodes.getD i defRunN).sid with hsid
  obtain ⟨a1, a2, a3⟩ := adjust_time_out co st sid
  rcases hrp : (st.nodes.getD i defRunN).refPrev with _ | k <;>
    dsimp only <;>
    refine ⟨a1, a2, ?_⟩ <;>
    · show ((adjust_time co st sid).snds.getD sid defSnd).time = _
      rw [a3, list_getD_set_self st.snds _ _ defSnd hbs]

/-- The second run loop at the first pending delay reaching past the
block: the pending `delay_offs` is applied to that node's `pos` and
cleared, the block's length is absorbed, and the loop breaks. -/
theorem runLoop2_consume (co : Nat → Int) (k : Nat) (st : GenSt)
    (off len i : Nat) (hi : i < st.nodes.length)
    (hp : (st.nodes.getD i defRunN).pos < 0) (htf : st.timeFlags = true)
    (hd : u32ofInt (-(st.nodes.getD i defRunN).pos) ≥ len) :
    runLoop2 co (k + 1) st off len i =
      ({ st with
         nodes := (st.nodes.set i
           { st.nodes.getD i defRunN with
             pos := (st.nodes.getD i defRunN).pos + st.delayOffs
               + (len : Int) }),
         delayOffs := 0,
         timeFlags := false }, []) := by
  simp only [runLoop2]
  rw [if_pos hi]
  rw [if_pos hp, if_pos htf]
  try dsimp only
  rw [list_getD_set_self st.nodes _ _ defRunN hi, if_pos hd]
  try dsimp only
  try rw [List.set_set]
  try rfl

/-- C6 (confirmed): the time snap.  (1) `adjust_time` reduces a node's
time by its snap `pos_offs = cycle_offs(osc, freq, time)` and, folded
over the nodes snapped while no pending delay consumes the offset
(flag initially clear), `delay_offs` ends as the smallest snap among
them, each node keeping its own snap subtracted from its time.  (2)
`MGS_Generator_prepare_node` performs exactly that snap for a top-level
node whose update sets a nonzero new time (snapping the new time), and
likewise — snapping the current time — when the update sets a frequency
without a time.  (3) The run loop's first pending delay consumes the
offset: the node's `pos` absorbs `delay_offs` and the flag and offset
are cleared, so simultaneously scheduled nodes shift together. -/
theorem time_snap_spec (co : Nat → Int) :
    (∀ (sids : List Nat) (st : GenSt), st.timeFlags = false → sids ≠ [] →
      sids.Nodup → (∀ sid ∈ sids, sid < st.snds.length) →
      ((sids.foldl (adjust_time co) st).timeFlags = true ∧
       (sids.foldl (adjust_time co) st).delayOffs ∈ sids.map co ∧
       (∀ x ∈ sids.map co,
         (sids.foldl (adjust_time co) st).delayOffs ≤ x) ∧
       ∀ sid ∈ sids,
         ((sids.foldl (adjust_time co) st).snds.getD sid defSnd).time =
           u32ofInt (((st.snds.getD sid defSnd).time : Int) - co sid))) ∧
    (∀ (st : GenSt) (i t : Nat), i < st.nodes.length →
      (st.nodes.getD i defRunN).updn.setTime = some t → t ≠ 0 →
      (st.snds.getD (st.nodes.getD i defRunN).sid defSnd).isTop = true →
      (st.nodes.getD i defRunN).sid < st.snds.length →
      ((MGS_Generator_prepare_node co st i).timeFlags = true ∧
       (MGS_Generator_prepare_node co st i).delayOffs =
         (if ¬st.timeFlags ∨
             st.delayOffs > co (st.nodes.getD i defRunN).sid
          then co (st.nodes.getD i defRunN).sid else st.delayOffs) ∧
       ((MGS_Generator_prepare_node co st i).snds.getD
           (st.nodes.getD i defRunN).sid defSnd).time =
         u32ofInt ((t : Int) - co (st.nodes.getD i defRunN).sid))) ∧
    (∀ (st : GenSt) (i : Nat), i < st.nodes.length →
      (st.nodes.getD i defRunN).updn.setTime = none →
      (st.nodes.getD i defRunN).updn.setFreq = true →
      (st.snds.getD (st.nodes.getD i defRunN).sid defSnd).isTop = true →
      (st.nodes.getD i defRunN).sid < st.snds.length →
      ((MGS_Generator_prepare_node co st i).timeFlags = true ∧
       (MGS_Generator_prepare_node co st i).delayOffs =
         (if ¬st.timeFlags ∨
             st.delayOffs > co (st.nodes.getD i defRunN).sid
          then co (st.nodes.getD i defRunN).sid else st.delayOffs) ∧
       ((MGS_Generator_prepare_node co st i).snds.getD
           (st.nodes.getD i defRunN).sid defSnd).time =
         u32ofInt (((st.snds.getD (st.nodes.getD i defRunN).sid
             defSnd).time : Int) - co (st.nodes.getD i defRunN).sid))) ∧
    (∀ (k : Nat) (st : GenSt) (off len i : Nat), i < st.nodes.length →
      (st.nodes.getD i defRunN).pos < 0 → st.timeFlags = true →
      u32ofInt (-(st.nodes.getD i defRunN).pos) ≥ len →
      runLoop2 co (k + 1) st off len i =
        ({ st with
           nodes := (st.nodes.set i
             { st.nodes.getD i defRunN with
               pos := (st.nodes.getD i defRunN).pos + st.delayOffs
                 + (len : Int) }),
           delayOffs := 0,
           timeFlags := false }, [])) :=
  ⟨fun sids st h hne hnd hb =>
      adjust_time_foldl_spec co sids st h hne hnd hb,
   fun st i t hi hT ht htop hbs =>
      prepare_node_snap_time co st i t hi hT ht htop hbs,
   fun st i hi hT hF htop hbs =>
      prepare_node_snap_freq co st i hi hT hF htop hbs,
   fun k st off len i hi hp htf hd =>
      runLoop2_consume co k st off len i hi hp htf hd⟩

/-- Witness for the C6 theorem: two nodes with snap 2 — the snap is
adopted into `delay_offs` and the first node's time shrinks from 100
to 98. -/
theorem time_snap_spec_witness :
    ((⟨0, [], [⟨100, true⟩, ⟨50, true⟩], 7, false⟩ : GenSt).timeFlags
      = false) ∧
    (([0, 1].foldl (adjust_time (fun _ => (2 : Int)))
        ⟨0, [], [⟨100, true⟩, ⟨50, true⟩], 7, false⟩).delayOffs = 2 ∧
     (([0, 1].foldl (adjust_time (fun _ => (2 : Int)))
        ⟨0, [], [⟨100, true⟩, ⟨50, true⟩], 7, false⟩).snds.getD 0
          defSnd).time = 98) := by
  refine ⟨rfl, ?_, ?_⟩
  · have h := ((time_snap_spec (fun _ => (2 : Int))).1
      [0, 1] ⟨0, [], [⟨100, true⟩, ⟨50, true⟩], 7, false⟩ rfl (by simp)
      (by decide) (by decide))
    simpa using h.2.1
  · have h := ((time_snap_spec (fun _ => (2 : Int))).1
      [0, 1] ⟨0, [], [⟨100, true⟩, ⟨50, true⟩], 7, false⟩ rfl (by simp)
      (by decide) (by decide))
    have h3 := h.2.2.2 0 (by simp)
    rw [h3]
    decide

/-! ### C4: predecessor deactivation and block clipping -/

/-- What `MGS_Generator_prepare_node` does to the run-node array:
the `ref_prev` node (if any) loses `ACTIVE`, and the prepared node gets
`PREPARED` (with `pos` and `ACTIVE` reset when a new time is set). -/
theorem prepare_node_nodes_eq (co : Nat → Int) (st : GenSt) (i : Nat) :
    (MGS_Generator_prepare_node co st i).nodes =
      (match (st.nodes.getD i defRunN).refPrev with
       | some k => st.nodes.set k
           { st.nodes.getD k defRunN with active := false }
       | none => st.nodes).set i
        { (match (st.nodes.getD i defRunN).updn.setTime with
           | some t => { st.nodes.getD i defRunN with
               pos := 0,
               active := (if t ≠ 0 then
                   (if (st.snds.getD (st.nodes.getD i defRunN).sid
                       defSnd).isTop then true
                    else (st.nodes.getD i defRunN).active)
                 else false) }
           | none => st.nodes.getD i defRunN) with prepared := true } := by
  simp only [MGS_Generator_prepare_node]
  rcases hT : (st.nodes.getD i defRunN).updn.setTime with _ | t <;>
    dsimp only <;>
    rcases hrp : (st.nodes.getD i defRunN).refPrev with _ | q <;>
    dsimp only <;>
    split <;>
    simp [adjust_time_nodes]

theorem adjust_time_delayOffs (co : Nat → Int) (st : GenSt) (sid : Nat) :
    (adjust_time co st sid).delayOffs =
      (if ¬st.timeFlags = true ∨ st.delayOffs > co sid then co sid
       else st.delayOffs) :=
  (adjust_time_out co st sid).2.1

/-- `MGS_Generator_prepare_node` keeps the zero-offset regime when the
snap function is identically zero. -/
theorem prepare_node_Z (co : Nat → Int) (hco : ∀ n, co n = 0)
    (st : GenSt) (i : Nat) (hz : st.timeFlags = true → st.delayOffs = 0) :
    (MGS_Generator_prepare_node co st i).timeFlags = true →
      (MGS_Generator_prepare_node co st i).delayOffs = 0 := by
  simp only [MGS_Generator_prepare_node]
  rcases hT : (st.nodes.getD i defRunN).updn.setTime with _ | t <;>
    dsimp only <;>
    rcases hrp : (st.nodes.getD i defRunN).refPrev with _ | q <;>
    dsimp only <;>
    split <;>
    first
      | exact fun h => hz h
      | (intro htf
         rw [adjust_time_delayOffs, hco]
         split
         · rfl
         · rename_i hc
           push_neg at hc
           exact hz hc.1)

/-- Field-level reading of `prepare_node_nodes_eq`: the prepared node
gains `PREPARED` (its identity fields unchanged, `pos` reset or kept);
the `ref_prev` node loses only `ACTIVE`; everything else is
untouched. -/
theorem prepare_node_getD (co : Nat → Int) (st : GenSt) (i : Nat)
    (hi : i < st.nodes.length) :
    (((MGS_Generator_prepare_node co st i).nodes.getD i defRunN).prepared
        = true ∧
     ((MGS_Generator_prepare_node co st i).nodes.getD i defRunN).refPrev
        = (st.nodes.getD i defRunN).refPrev ∧
     ((MGS_Generator_prepare_node co st i).nodes.getD i defRunN).sid
        = (st.nodes.getD i defRunN).sid ∧
     ((MGS_Generator_prepare_node co st i).nodes.getD i defRunN).updn
        = (st.nodes.getD i defRunN).updn ∧
     (((MGS_Generator_prepare_node co st i).nodes.getD i defRunN).pos = 0 ∨
      ((MGS_Generator_prepare_node co st i).nodes.getD i defRunN).pos =
        (st.nodes.getD i defRunN).pos)) ∧
    (∀ m, m ≠ i → (st.nodes.getD i defRunN).refPrev ≠ some m →
      (MGS_Generator_prepare_node co st i).nodes.getD m defRunN =
        st.nodes.getD m defRunN) ∧
    (∀ q, q ≠ i → (st.nodes.getD i defRunN).refPrev = some q →
      ((MGS_Generator_prepare_node co st i).nodes.getD q defRunN).active
          = false ∧
      ((MGS_Generator_prepare_node co st i).nodes.getD q defRunN).prepared
          = (st.nodes.getD q defRunN).prepared ∧
      ((MGS_Generator_prepare_node co st i).nodes.getD q defRunN).refPrev
          = (st.nodes.getD q defRunN).refPrev ∧
      ((MGS_Generator_prepare_node co st i).nodes.getD q defRunN).sid
          = (st.nodes.getD q defRunN).sid ∧
      ((MGS_Generator_prepare_node co st i).nodes.getD q defRunN).updn
          = (st.nodes.getD q defRunN).updn ∧
      ((MGS_Generator_prepare_node co st i).nodes.getD q defRunN).pos
          = (st.nodes.getD q defRunN).pos) := by
  have hlenbase : (match (st.nodes.getD i defRunN).refPrev with
      | some k => st.nodes.set k
          { st.nodes.getD k defRunN with active := false }
      | none => st.nodes).length = st.nodes.length := by
    rcases (st.nodes.getD i defRunN).refPrev with _ | k
    · rfl
    · exact List.length_set _ _ _
  refine ⟨?_, ?_, ?_⟩
  · rw [prepare_node_nodes_eq,
      list_getD_set_self _ i _ defRunN (by rw [hlenbase]; exact hi)]
    refine ⟨rfl, ?_, ?_, ?_, ?_⟩ <;>
      rcases hT : (st.nodes.getD i defRunN).updn.setTime with _ | t <;>
      simp [hT]
  · intro m hm hrpm
    rw [prepare_node_nodes_eq, list_getD_set_ne _ i m _ defRunN hm]
    rcases hrp : (st.nodes.getD i defRunN).refPrev with _ | q
    · rfl
    · have hqm : m ≠ q := fun hh => hrpm (by rw [hh, hrp])
      exact list_getD_set_ne _ q m _ defRunN hqm
  · intro q hq hrp
    rw [prepare_node_nodes_eq, list_getD_set_ne _ i q _ defRunN hq, hrp]
    dsimp only
    by_cases hql : q < st.nodes.length
    · rw [list_getD_set_self _ q _ defRunN hql]
      exact ⟨rfl, rfl, rfl, rfl, rfl, rfl⟩
    · rw [List.set_eq_of_length_le (by omega),
        List.getD_eq_default _ _ (by omega)]
      exact ⟨rfl, rfl, rfl, rfl, rfl, rfl⟩

/-- Preservation facts about preparing an unprepared, non-delayed run
node, packaged for the run-loop inductions. -/
theorem prepare_node_pres (co : Nat → Int) (hco : ∀ n, co n = 0)
    (st : GenSt) (i : Nat) (hi : i < st.nodes.length)
    (hz : st.timeFlags = true → st.delayOffs = 0)
    (hunp : (st.nodes.getD i defRunN).prepared = false)
    (hpos : 0 ≤ (st.nodes.getD i defRunN).pos) :
    (∀ m,
      ((MGS_Generator_prepare_node co st i).nodes.getD m defRunN).refPrev
          = (st.nodes.getD m defRunN).refPrev ∧
      ((MGS_Generator_prepare_node co st i).nodes.getD m defRunN).sid
          = (st.nodes.getD m defRunN).sid ∧
      ((MGS_Generator_prepare_node co st i).nodes.getD m defRunN).updn
          = (st.nodes.getD m defRunN).updn) ∧
    (∀ m, (st.nodes.getD m defRunN).prepared = true →
      ((MGS_Generator_prepare_node co st i).nodes.getD m defRunN).prepared
        = true) ∧
    (∀ m, (st.nodes.getD m defRunN).prepared = true →
      (st.nodes.getD m defRunN).active = false →
      ((MGS_Generator_prepare_node co st i).nodes.getD m defRunN).prepared
          = true ∧
      ((MGS_Generator_prepare_node co st i).nodes.getD m defRunN).active
          = false) ∧
    (∀ m, (st.nodes.getD m defRunN).pos < 0 →
      ((MGS_Generator_prepare_node co st i).nodes.getD m defRunN).pos
        = (st.nodes.getD m defRunN).pos) ∧
    (∀ m, 0 ≤ (st.nodes.getD m defRunN).pos →
      0 ≤ ((MGS_Generator_prepare_node co st i).nodes.getD m defRunN).pos) ∧
    ((MGS_Generator_prepare_node co st i).timeFlags = true →
      (MGS_Generator_prepare_node co st i).delayOffs = 0) ∧
    ((MGS_Generator_prepare_node co st i).nodes.getD i defRunN).prepared
      = true ∧
    (∀ q, (st.nodes.getD i defRunN).refPrev = some q → q ≠ i →
      ((MGS_Generator_prepare_node co st i).nodes.getD q defRunN).prepared
          = (st.nodes.getD q defRunN).prepared ∧
      ((MGS_Generator_prepare_node co st i).nodes.getD q defRunN).active
          = false) := by
  obtain ⟨hself, hother, hqcase⟩ := prepare_node_getD co st i hi
  have hfield : ∀ m,
      ((MGS_Generator_prepare_node co st i).nodes.getD m defRunN).refPrev
          = (st.nodes.getD m defRunN).refPrev ∧
      ((MGS_Generator_prepare_node co st i).nodes.getD m defRunN).sid
          = (st.nodes.getD m defRunN).sid ∧
      ((MGS_Generator_prepare_node co st i).nodes.getD m defRunN).updn
          = (st.nodes.getD m defRunN).updn := by
    intro m
    by_cases hm : m = i
    · rw [hm]
      exact ⟨hself.2.1, hself.2.2.1, hself.2.2.2.1⟩
    · by_cases hq : (st.nodes.getD i defRunN).refPrev = some m
      · obtain ⟨_, _, h3, h4, h5, _⟩ := hqcase m (fun hh => hm hh) hq
        exact ⟨h3, h4, h5⟩
      · rw [hother m hm hq]
        exact ⟨rfl, rfl, rfl⟩
  refine ⟨hfield, ?_, ?_, ?_, ?_,
    prepare_node_Z co hco st i hz, hself.1, ?_⟩
  · intro m hp
    by_cases hm : m = i
    · rw [hm]
      exact hself.1
    · by_cases hq : (st.nodes.getD i defRunN).refPrev = some m
      · rw [(hqcase m (fun hh => hm hh) hq).2.1]
        exact hp
      · rw [hother m hm hq]
        exact hp
  · intro m hp ha
    by_cases hm : m = i
    · rw [hm] at hp
      rw [hp] at hunp
      exact absurd hunp (by simp)
    · by_cases hq : (st.nodes.getD i defRunN).refPrev = some m
      · obtain ⟨h1, h2, _⟩ := hqcase m (fun hh => hm hh) hq
        rw [h1, h2]
        exact ⟨hp, rfl⟩
      · rw [hother m hm hq]
        exact ⟨hp, ha⟩
  · intro m hmp
    by_cases hm : m = i
    · rw [hm] at hmp
      omega
    · by_cases hq : (st.nodes.getD i defRunN).refPrev = some m
      · exact (hqcase m (fun hh => hm hh) hq).2.2.2.2.2
      · rw [hother m hm hq]
  · intro m hmp
    by_cases hm : m = i
    · rw [hm]
      rcases hself.2.2.2.2 with h | h
      · rw [h]
      · rw [h]
        rw [hm] at hmp
        exact hmp
    · by_cases hq : (st.nodes.getD i defRunN).refPrev = some m
      · rw [(hqcase m (fun hh => hm hh) hq).2.2.2.2.2]
        exact hmp
      · rw [hother m hm hq]
        exact hmp
  · intro q hq hqi
    obtain ⟨h1, h2, _⟩ := hqcase q hqi hq
    exact ⟨h2, h1⟩

/-- The first run loop, under a zero snap function: it only fires
(prepares) unprepared non-delayed nodes in index order up to the first
pending delay, to which it clips the block; a fired node's `ref_prev`
predecessor ends the loop prepared and inactive, and prepared-inactive
nodes stay so. -/
theorem runLoop1_spec (co : Nat → Int) (hco : ∀ n, co n = 0) :
    ∀ (k : Nat) (st : GenSt) (off len i : Nat),
      st.nodes.length ≤ i + k →
      (st.timeFlags = true → st.delayOffs = 0) →
      (∀ m, m < i → m < st.nodes.length →
        (st.nodes.getD m defRunN).prepared = true) →
      (∀ j q, j < st.nodes.length →
        (st.nodes.getD j defRunN).refPrev = some q → q < j) →
      ((∀ ev ∈ (runLoop1 co k st off len i).2.2.2, ∃ j,
          ev = Ev.fire j off ∧ i ≤ j ∧ j < st.nodes.length ∧
          (st.nodes.getD j defRunN).prepared = false) ∧
       ((runLoop1 co k st off len i).1.timeFlags = true →
         (runLoop1 co k st off len i).1.delayOffs = 0) ∧
       (∀ m,
         (((runLoop1 co k st off len i).1.nodes.getD m defRunN).refPrev
             = (st.nodes.getD m defRunN).refPrev ∧
          ((runLoop1 co k st off len i).1.nodes.getD m defRunN).sid
             = (st.nodes.getD m defRunN).sid ∧
          ((runLoop1 co k st off len i).1.nodes.getD m defRunN).updn
             = (st.nodes.getD m defRunN).updn)) ∧
       (∀ m, (st.nodes.getD m defRunN).prepared = true →
         ((runLoop1 co k st off len i).1.nodes.getD m defRunN).prepared
           = true) ∧
       (∀ m, (st.nodes.getD m defRunN).prepared = true →
         (st.nodes.getD m defRunN).active = false →
         ((runLoop1 co k st off len i).1.nodes.getD m defRunN).prepared
             = true ∧
         ((runLoop1 co k st off len i).1.nodes.getD m defRunN).active
             = false) ∧
       (∀ j q, Ev.fire j off ∈ (runLoop1 co k st off len i).2.2.2 →
         (st.nodes.getD j defRunN).refPrev = some q →
         ((runLoop1 co k st off len i).1.nodes.getD q defRunN).prepared
             = true ∧
         ((runLoop1 co k st off len i).1.nodes.getD q defRunN).active
             = false) ∧
       (∀ m, i ≤ m → m < st.nodes.length →
         (∀ m', i ≤ m' → m' ≤ m →
           0 ≤ (st.nodes.getD m' defRunN).pos) →
         ((runLoop1 co k st off len i).1.nodes.getD m defRunN).prepared
           = true) ∧
       (∀ p, i ≤ p → p < st.nodes.length →
         (st.nodes.getD p defRunN).pos < 0 →
         (∀ m', i ≤ m' → m' < p →
           0 ≤ (st.nodes.getD m' defRunN).pos) →
         (runLoop1 co k st off len i).2.1 ≤
           u32ofInt (-(st.nodes.getD p defRunN).pos)) ∧
       (∀ m, (st.nodes.getD m defRunN).pos < 0 →
         ((runLoop1 co k st off len i).1.nodes.getD m defRunN).pos
           = (st.nodes.getD m defRunN).pos) ∧
       (∀ m, 0 ≤ (st.nodes.getD m defRunN).pos →
         0 ≤ ((runLoop1 co k st off len i).1.nodes.getD m defRunN).pos) ∧
       (runLoop1 co k st off len i).2.1 +
         (runLoop1 co k st off len i).2.2.1 ≤ len) := by
  intro k
  induction k with
  | zero =>
    intro st off len i hfuel hz hbelow hrp
    exact ⟨fun ev hev => absurd hev (by simp [runLoop1]),
      fun h => hz h, fun m => ⟨rfl, rfl, rfl⟩, fun m hp => hp,
      fun m hp ha => ⟨hp, ha⟩,
      fun j q hf _ => absurd hf (by simp [runLoop1]),
      fun m h1 h2 _ => absurd h2 (by omega),
      fun p h1 h2 _ _ => absurd h2 (by omega),
      fun m _ => rfl, fun m hm => hm, by simp [runLoop1]⟩
  | succ k ih =>
    intro st off len i hfuel hz hbelow hrp
    by_cases hil : i < st.nodes.length
    · by_cases hpos : (st.nodes.getD i defRunN).pos < 0
      · have hD : u32ofInt (-(st.nodes.getD i defRunN).pos -
            (if st.timeFlags then st.delayOffs else 0)) =
            u32ofInt (-(st.nodes.getD i defRunN).pos) := by
          rcases htf : st.timeFlags
          · simp
          · rw [hz htf]
            simp
        by_cases hdl : u32ofInt (-(st.nodes.getD i defRunN).pos) ≤ len
        · have hstep : runLoop1 co (k + 1) st off len i =
              (st, u32ofInt (-(st.nodes.getD i defRunN).pos),
               len - u32ofInt (-(st.nodes.getD i defRunN).pos), []) := by
            simp only [runLoop1]
            rw [if_pos hil, if_pos hpos, hD, if_pos hdl]
          rw [hstep]
          refine ⟨fun ev hev => absurd hev (by simp),
            fun h => hz h, fun m => ⟨rfl, rfl, rfl⟩, fun m hp => hp,
            fun m hp ha => ⟨hp, ha⟩,
            fun j q hf _ => absurd hf (by simp),
            ?_, ?_, fun m _ => rfl, fun m hm => hm,
            by dsimp only; omega⟩
          · intro m h1 h2 hall
            exact absurd (hall i (le_refl i) h1) (by omega)
          · intro p h1 h2 h3 h4
            have hpi : p = i := by
              by_contra hne
              have := h4 i (le_refl i) (by omega)
              omega
            rw [hpi]
        · have hstep : runLoop1 co (k + 1) st off len i =
              (st, len, 0, []) := by
            simp only [runLoop1]
            rw [if_pos hil, if_pos hpos, hD, if_neg hdl]
          rw [hstep]
          refine ⟨fun ev hev => absurd hev (by simp),
            fun h => hz h, fun m => ⟨rfl, rfl, rfl⟩, fun m hp => hp,
            fun m hp ha => ⟨hp, ha⟩,
            fun j q hf _ => absurd hf (by simp),
            ?_, ?_, fun m _ => rfl, fun m hm => hm,
            by dsimp only; omega⟩
          · intro m h1 h2 hall
            exact absurd (hall i (le_refl i) h1) (by omega)
          · intro p h1 h2 h3 h4
            have hpi : p = i := by
              by_contra hne
              have := h4 i (le_refl i) (by omega)
              omega
            rw [hpi]
            dsimp only
            omega
      · by_cases hprep : (st.nodes.getD i defRunN).prepared = true
        · have hstep : runLoop1 co (k + 1) st off len i =
              runLoop1 co k st off len (i + 1) := by
            simp only [runLoop1]
            rw [if_pos hil, if_neg hpos, if_neg (by rw [hprep]; simp)]
          rw [hstep]
          obtain ⟨c1, c2, c3, c4, c5, c6, c7, c8, c9, c10, c11⟩ :=
            ih st off len (i + 1) (by omega) hz
            (by
              intro m hm hml
              rcases Nat.lt_or_ge m i with hmi | hmi
              · exact hbelow m hmi hml
              · have : m = i := by omega
                rw [this]
                exact hprep)
            hrp
          refine ⟨?_, c2, c3, c4, c5, c6, ?_, ?_, c9, c10, c11⟩
          · intro ev hev
            obtain ⟨j, he1, he2, he3, he4⟩ := c1 ev hev
            exact ⟨j, he1, by omega, he3, he4⟩
          · intro m h1 h2 hall
            rcases Nat.lt_or_ge m (i + 1) with hmi | hmi
            · have : m = i := by omega
              rw [this]
              exact c4 i hprep
            · exact c7 m hmi h2 (fun m' hm1 hm2 => hall m' (by omega) hm2)
          · intro p h1 h2 h3 h4
            have hpi : i < p := by
              rcases Nat.eq_or_lt_of_le h1 with he | hl
              · rw [← he] at h3
                omega
              · exact hl
            exact c8 p hpi h2 h3 (fun m' hm1 hm2 => h4 m' (by omega) hm2)
        · have hunp : (st.nodes.getD i defRunN).prepared = false := by
            rcases hx : (st.nodes.getD i defRunN).prepared
            · rfl
            · exact absurd hx hprep
          have hstep : runLoop1 co (k + 1) st off len i =
              ((runLoop1 co k (MGS_Generator_prepare_node co st i) off len
                  (i + 1)).1,
               (runLoop1 co k (MGS_Generator_prepare_node co st i) off len
                  (i + 1)).2.1,
               (runLoop1 co k (MGS_Generator_prepare_node co st i) off len
                  (i + 1)).2.2.1,
               Ev.fire i off ::
                 (runLoop1 co k (MGS_Generator_prepare_node co st i) off
                   len (i + 1)).2.2.2) := by
            simp only [runLoop1]
            rw [if_pos hil, if_neg hpos, if_pos (by rw [hunp]; simp)]
          rw [hstep]
          obtain ⟨p1, p2, p3, p4, p5, p6, p7, p8⟩ :=
            prepare_node_pres co hco st i hil hz hunp (by omega)
          have hplen : (MGS_Generator_prepare_node co st i).nodes.length
              = st.nodes.length := prepare_node_nodes_length co st i
          obtain ⟨c1, c2, c3, c4, c5, c6, c7, c8, c9, c10, c11⟩ :=
            ih (MGS_Generator_prepare_node co st i) off len (i + 1)
            (by omega) p6
            (by
              intro m hm hml
              rcases Nat.lt_or_ge m i with hmi | hmi
              · exact p2 m (hbelow m hmi (by omega))
              · have : m = i := by omega
                rw [this]
                exact p7)
            (by
              intro j q hjl hjq
              rw [(p1 j).1] at hjq
              exact hrp j q (by omega) hjq)
          refine ⟨?_, c2, ?_, ?_, ?_, ?_, ?_, ?_, ?_, ?_, c11⟩
          · intro ev hev
            rcases List.mem_cons.mp hev with he | he
            · exact ⟨i, he, le_refl i, hil, hunp⟩
            · obtain ⟨j, he1, he2, he3, he4⟩ := c1 ev he
              refine ⟨j, he1, by omega, by omega, ?_⟩
              rcases hx : (st.nodes.getD j defRunN).prepared
              · rfl
              · rw [p2 j hx] at he4
                exact absurd he4 (by simp)
          · intro m
            obtain ⟨f1, f2, f3⟩ := c3 m
            obtain ⟨g1, g2, g3⟩ := p1 m
            exact ⟨by rw [f1, g1], by rw [f2, g2], by rw [f3, g3]⟩
          · intro m hp
            exact c4 m (p2 m hp)
          · intro m hp ha
            obtain ⟨d1, d2⟩ := p3 m hp ha
            exact c5 m d1 d2
          · intro j q hf hjq
            rcases List.mem_cons.mp hf with he | he
            · have hji : j = i := by
                injection he with h1 h2
              rw [hji] at hjq
              have hqi : q < i := hrp i q hil hjq
              obtain ⟨e1, e2⟩ := p8 q hjq (by omega)
              rw [hbelow q hqi (by omega)] at e1
              exact c5 q e1 e2
            · refine c6 j q he ?_
              rw [(p1 j).1]
              exact hjq
          · intro m h1 h2 hall
            rcases Nat.lt_or_ge m (i + 1) with hmi | hmi
            · have : m = i := by omega
              rw [this]
              exact c4 i p7
            · refine c7 m hmi (by omega) ?_
              intro m' hm1 hm2
              exact p5 m' (hall m' (by omega) hm2)
          · intro p h1 h2 h3 h4
            have hpi : i < p := by
              rcases Nat.eq_or_lt_of_le h1 with he | hl
              · rw [← he] at h3
                omega
              · exact hl
            have hpp : ((MGS_Generator_prepare_node co st i).nodes.getD p
                defRunN).pos = (st.nodes.getD p defRunN).pos := p4 p h3
            have := c8 p hpi (by omega) (by rw [hpp]; exact h3)
              (fun m' hm1 hm2 => p5 m' (h4 m' (by omega) hm2))
            rw [hpp] at this
            exact this
          · intro m hm
            have hmp : ((MGS_Generator_prepare_node co st i).nodes.getD m
                defRunN).pos = (st.nodes.getD m defRunN).pos := p4 m hm
            rw [c9 m (by rw [hmp]; exact hm), hmp]
          · intro m hm
            exact c10 m (p5 m hm)
    · have hstep : runLoop1 co (k + 1) st off len i =
          (st, len, 0, []) := by
        simp only [runLoop1]
        rw [if_neg hil]
      rw [hstep]
      exact ⟨fun ev hev => absurd hev (by simp),
        fun h => hz h, fun m => ⟨rfl, rfl, rfl⟩, fun m hp => hp,
        fun m hp ha => ⟨hp, ha⟩,
        fun j q hf _ => absurd hf (by simp),
        fun m h1 h2 _ => absurd h2 (by omega),
        fun p h1 h2 _ _ => absurd h2 (by omega),
        fun m _ => rfl, fun m hm => hm, by dsimp only; omega⟩

/-- The second run loop, after a first loop that prepared everything up
to the first pending delay and clipped the block to it: it renders only
nodes already `ACTIVE`, entirely within the block, never prepares or
activates anything, and preserves every node's `PREPARED` flag and
identity fields. -/
theorem runLoop2_spec (co : Nat → Int) :
    ∀ (k : Nat) (st : GenSt) (off len i : Nat),
      st.nodes.length ≤ i + k →
      (st.timeFlags = true → st.delayOffs = 0) →
      (∀ m, i ≤ m → m < st.nodes.length →
        (∀ m', i ≤ m' → m' ≤ m →
          0 ≤ (st.nodes.getD m' defRunN).pos) →
        (st.nodes.getD m defRunN).prepared = true) →
      (∀ p, i ≤ p → p < st.nodes.length →
        (st.nodes.getD p defRunN).pos < 0 →
        (∀ m', i ≤ m' → m' < p →
          0 ≤ (st.nodes.getD m' defRunN).pos) →
        len ≤ u32ofInt (-(st.nodes.getD p defRunN).pos)) →
      ((∀ ev ∈ (runLoop2 co k st off len i).2, ∃ m l,
          ev = Ev.render m off l ∧ l ≤ len ∧
          (st.nodes.getD m defRunN).active = true) ∧
       (∀ m,
         ((runLoop2 co k st off len i).1.nodes.getD m defRunN).prepared
           = (st.nodes.getD m defRunN).prepared) ∧
       (∀ m,
         ((runLoop2 co k st off len i).1.nodes.getD m defRunN).active
           = true → (st.nodes.getD m defRunN).active = true) ∧
       (∀ m,
         ((runLoop2 co k st off len i).1.nodes.getD m defRunN).refPrev
             = (st.nodes.getD m defRunN).refPrev ∧
         ((runLoop2 co k st off len i).1.nodes.getD m defRunN).sid
             = (st.nodes.getD m defRunN).sid ∧
         ((runLoop2 co k st off len i).1.nodes.getD m defRunN).updn
             = (st.nodes.getD m defRunN).updn) ∧
       ((runLoop2 co k st off len i).1.timeFlags = true →
         (runLoop2 co k st off len i).1.delayOffs = 0)) := by
  intro k
  induction k with
  | zero =>
    intro st off len i hfuel hz hprep hfd
    exact ⟨fun ev hev => absurd hev (by simp [runLoop2]),
      fun m => rfl, fun m h => h, fun m => ⟨rfl, rfl, rfl⟩,
      fun h => hz h⟩
  | succ k ih =>
    intro st off len i hfuel hz hprep hfd
    have hsetf : ∀ (p : Int) (a : Bool) (m : Nat),
        (((st.nodes.set i { st.nodes.getD i defRunN with
            pos := p, active := a }).getD m defRunN).prepared
          = (st.nodes.getD m defRunN).prepared ∧
         ((st.nodes.set i { st.nodes.getD i defRunN with
            pos := p, active := a }).getD m defRunN).refPrev
          = (st.nodes.getD m defRunN).refPrev ∧
         ((st.nodes.set i { st.nodes.getD i defRunN with
            pos := p, active := a }).getD m defRunN).sid
          = (st.nodes.getD m defRunN).sid ∧
         ((st.nodes.set i { st.nodes.getD i defRunN with
            pos := p, active := a }).getD m defRunN).updn
          = (st.nodes.getD m defRunN).updn) := by
      intro p a m
      by_cases hm : m = i
      · by_cases hil : i < st.nodes.length
        · rw [hm, list_getD_set_self st.nodes i _ defRunN hil]
          exact ⟨rfl, rfl, rfl, rfl⟩
        · rw [List.set_eq_of_length_le (by omega)]
          exact ⟨rfl, rfl, rfl, rfl⟩
      · rw [list_getD_set_ne st.nodes i m _ defRunN hm]
        exact ⟨rfl, rfl, rfl, rfl⟩
    by_cases hil : i < st.nodes.length
    · by_cases hpos : (st.nodes.getD i defRunN).pos < 0
      · have hd : u32ofInt (-(st.nodes.getD i defRunN).pos) ≥ len :=
          hfd i (le_refl i) hil hpos (fun m' h1 h2 => absurd h2 (by omega))
        have hsetp : ∀ (p : Int) (m : Nat),
            (((st.nodes.set i { st.nodes.getD i defRunN with pos := p
              }).getD m defRunN).prepared
              = (st.nodes.getD m defRunN).prepared ∧
             ((st.nodes.set i { st.nodes.getD i defRunN with pos := p
              }).getD m defRunN).active
              = (st.nodes.getD m defRunN).active ∧
             ((st.nodes.set i { st.nodes.getD i defRunN with pos := p
              }).getD m defRunN).refPrev
              = (st.nodes.getD m defRunN).refPrev ∧
             ((st.nodes.set i { st.nodes.getD i defRunN with pos := p
              }).getD m defRunN).sid
              = (st.nodes.getD m defRunN).sid ∧
             ((st.nodes.set i { st.nodes.getD i defRunN with pos := p
              }).getD m defRunN).updn
              = (st.nodes.getD m defRunN).updn) := by
          intro p m
          by_cases hm : m = i
          · rw [hm, list_getD_set_self st.nodes i _ defRunN hil]
            exact ⟨rfl, rfl, rfl, rfl, rfl⟩
          · rw [list_getD_set_ne st.nodes i m _ defRunN hm]
            exact ⟨rfl, rfl, rfl, rfl, rfl⟩
        rcases htf : st.timeFlags
        · have hstep : runLoop2 co (k + 1) st off len i =
              ({ st with nodes := (st.nodes.set i
                 { st.nodes.getD i defRunN with
                   pos := (st.nodes.getD i defRunN).pos + (len : Int) }) },
               []) := by
            simp only [runLoop2]
            rw [if_pos hil, if_pos hpos, htf]
            simp only [Bool.false_eq_true, if_false]
            rw [if_pos hd]
            try dsimp only
            simp only [reduceIte]
            try rw [htf]
            try rfl
          rw [hstep]
          refine ⟨fun ev hev => absurd hev (by simp), ?_, ?_, ?_,
            fun h => hz h⟩
          · intro m
            exact (hsetp _ m).1
          · intro m h
            rw [(hsetp _ m).2.1] at h
            exact h
          · intro m
            exact ⟨(hsetp _ m).2.2.1, (hsetp _ m).2.2.2.1,
              (hsetp _ m).2.2.2.2⟩
        · rw [runLoop2_consume co k st off len i hil hpos htf hd]
          refine ⟨fun ev hev => absurd hev (by simp), ?_, ?_, ?_,
            fun h => absurd h (by simp)⟩
          · intro m
            exact (hsetp _ m).1
          · intro m h
            rw [(hsetp _ m).2.1] at h
            exact h
          · intro m
            exact ⟨(hsetp _ m).2.2.1, (hsetp _ m).2.2.2.1,
              (hsetp _ m).2.2.2.2⟩
      · have h0pos : 0 ≤ (st.nodes.getD i defRunN).pos := by omega
        have hprepi : (st.nodes.getD i defRunN).prepared = true :=
          hprep i (le_refl i) hil (fun m' h1 h2 => by
            have hm : m' = i := by omega
            rw [hm]
            exact h0pos)
        have hprep2 : ∀ (nd : List RunN), (∀ m, m ≠ i →
            nd.getD m defRunN = st.nodes.getD m defRunN) →
            nd.length = st.nodes.length →
            (∀ m, i + 1 ≤ m → m < nd.length →
              (∀ m', i + 1 ≤ m' → m' ≤ m →
                0 ≤ (nd.getD m' defRunN).pos) →
              (nd.getD m defRunN).prepared = true) := by
          intro nd hnd hndl m h1 h2 hall
          rw [hnd m (by omega)]
          refine hprep m (by omega) (by omega) ?_
          intro m' hm1 hm2
          rcases Nat.eq_or_lt_of_le hm1 with he | hlt
          · rw [← he]
            exact h0pos
          · rw [← hnd m' (by omega)]
            exact hall m' (by omega) hm2
        have hfd2 : ∀ (nd : List RunN), (∀ m, m ≠ i →
            nd.getD m defRunN = st.nodes.getD m defRunN) →
            nd.length = st.nodes.length →
            (∀ p, i + 1 ≤ p → p < nd.length →
              (nd.getD p defRunN).pos < 0 →
              (∀ m', i + 1 ≤ m' → m' < p →
                0 ≤ (nd.getD m' defRunN).pos) →
              len ≤ u32ofInt (-(nd.getD p defRunN).pos)) := by
          intro nd hnd hndl p h1 h2 h3 h4
          rw [hnd p (by omega)] at h3 ⊢
          refine hfd p (by omega) (by omega) h3 ?_
          intro m' hm1 hm2
          rcases Nat.eq_or_lt_of_le hm1 with he | hlt
          · rw [← he]
            exact h0pos
          · rw [← hnd m' (by omega)]
            exact h4 m' (by omega) hm2
        by_cases hact : (st.nodes.getD i defRunN).active = true
        · set l := run_node (st.snds.getD (st.nodes.getD i defRunN).sid
            defSnd).time (st.nodes.getD i defRunN).pos len with hldef
          set a2 := (if u32ofInt ((st.nodes.getD i defRunN).pos + (l : Int))
              = (st.snds.getD (st.nodes.getD i defRunN).sid defSnd).time
            then false else (st.nodes.getD i defRunN).active) with ha2def
          set st2 : GenSt := { st with nodes := (st.nodes.set i
            { st.nodes.getD i defRunN with
              pos := (st.nodes.getD i defRunN).pos + (l : Int),
              active := a2 }) } with hst2def
          have hstep : runLoop2 co (k + 1) st off len i =
              ((runLoop2 co k st2 off len (i + 1)).1,
               Ev.render i off l ::
                 (runLoop2 co k st2 off len (i + 1)).2) := by
            have hnp : ¬¬((st.nodes.getD i defRunN).prepared = true) := by
              rw [hprepi]
              simp
            simp only [runLoop2]
            rw [if_pos hil, if_neg hpos, if_neg hnp]
            try dsimp only
            try simp only [Bool.false_eq_true, if_false]
            rw [if_pos hact]
            try dsimp only
            simp only [List.nil_append, List.singleton_append]
            try rfl
          rw [hstep]
          have hlb : l ≤ len := by
            rw [hldef]
            unfold run_node
            dsimp only
            split <;> omega
          have hnd : ∀ m, m ≠ i → st2.nodes.getD m defRunN =
              st.nodes.getD m defRunN := by
            intro m hm
            show (st.nodes.set i _).getD m defRunN = _
            exact list_getD_set_ne st.nodes i m _ defRunN hm
          have hndl : st2.nodes.length = st.nodes.length := by
            show (st.nodes.set i _).length = _
            exact List.length_set _ _ _
          have hgi : st2.nodes.getD i defRunN =
              { st.nodes.getD i defRunN with
                pos := (st.nodes.getD i defRunN).pos + (l : Int),
                active := a2 } := by
            show (st.nodes.set i _).getD i defRunN = _
            exact list_getD_set_self st.nodes i _ defRunN hil
          obtain ⟨c1, c2, c3, c4, c5⟩ := ih st2 off len (i + 1)
            (by rw [hndl] at *; omega)
            (fun h => hz h)
            (hprep2 st2.nodes hnd hndl)
            (hfd2 st2.nodes hnd hndl)
          refine ⟨?_, ?_, ?_, ?_, c5⟩
          · intro ev hev
            rcases List.mem_cons.mp hev with he | he
            · exact ⟨i, l, he, hlb, hact⟩
            · obtain ⟨m, l2, he1, he2, he3⟩ := c1 ev he
              refine ⟨m, l2, he1, he2, ?_⟩
              by_cases hm : m = i
              · rw [hm]
                exact hact
              · rw [hnd m hm] at he3
                exact he3
          · intro m
            rw [c2 m]
            by_cases hm : m = i
            · rw [hm, hgi]
            · rw [hnd m hm]
          · intro m h
            by_cases hm : m = i
            · rw [hm]
              exact hact
            · have h2 := c3 m h
              rw [hnd m hm] at h2
              exact h2
          · intro m
            obtain ⟨f1, f2, f3⟩ := c4 m
            by_cases hm : m = i
            · subst hm
              rw [f1, f2, f3, hgi]
              exact ⟨rfl, rfl, rfl⟩
            · rw [f1, f2, f3, hnd m hm]
              exact ⟨rfl, rfl, rfl⟩
        · have hstep : runLoop2 co (k + 1) st off len i =
              runLoop2 co k st off len (i + 1) := by
            have hnp : ¬¬((st.nodes.getD i defRunN).prepared = true) := by
              rw [hprepi]
              simp
            simp only [runLoop2]
            rw [if_pos hil, if_neg hpos, if_neg hnp]
            try dsimp only
            try simp only [Bool.false_eq_true, if_false]
            rw [if_neg hact]
            try dsimp only
            try simp only [List.nil_append]
            try rfl
          rw [hstep]
          exact ih st off len (i + 1) (by omega) hz
            (hprep2 st.nodes (fun m _ => rfl) rfl)
            (hfd2 st.nodes (fun m _ => rfl) rfl)
    · have hstep : runLoop2 co (k + 1) st off len i = (st, []) := by
        simp only [runLoop2]
        rw [if_neg hil]
      rw [hstep]
      exact ⟨fun ev hev => absurd hev (by simp),
        fun m => rfl, fun m h => h, fun m => ⟨rfl, rfl, rfl⟩,
        fun h => hz h⟩

/-! ### C4: predecessor deactivation -/

/-- One `PROCESS` block after another: fires happen at or after the
current block offset; a prepared inactive node stays so and never
renders; and a fired node's predecessor (its `ref_prev`) renders
nothing at or after the fire's boundary sample. -/
theorem runProcess_spec (co : Nat → Int) (hco : ∀ n, co n = 0) :
    ∀ (f : Nat) (st : GenSt) (off len : Nat),
      (st.timeFlags = true → st.delayOffs = 0) →
      (∀ m, m < st.runnI → m < st.nodes.length →
        (st.nodes.getD m defRunN).prepared = true) →
      (∀ j q, j < st.nodes.length →
        (st.nodes.getD j defRunN).refPrev = some q → q < j) →
      ((∀ j b, Ev.fire j b ∈ (runProcess co f st off len).2 → off ≤ b) ∧
       (∀ m, (st.nodes.getD m defRunN).prepared = true →
         (st.nodes.getD m defRunN).active = false →
         ((∀ o l, ¬ (Ev.render m o l ∈ (runProcess co f st off len).2)) ∧
          ((runProcess co f st off len).1.nodes.getD m defRunN).prepared
            = true ∧
          ((runProcess co f st off len).1.nodes.getD m defRunN).active
            = false)) ∧
       (∀ j b q o l,
         Ev.fire j b ∈ (runProcess co f st off len).2 →
         (st.nodes.getD j defRunN).refPrev = some q →
         Ev.render q o l ∈ (runProcess co f st off len).2 →
         o + l ≤ b)) := by
  intro f
  induction f with
  | zero =>
    intro st off len hz hW hR
    exact ⟨fun j b h => absurd h (by simp [runProcess]),
      fun m h1 h2 => ⟨fun o l h => absurd h (by simp [runProcess]),
        h1, h2⟩,
      fun j b q o l hf _ _ => absurd hf (by simp [runProcess])⟩
  | succ f ih =>
    intro st off len hz hW hR
    rw [runProcess]
    obtain ⟨a1, a2, a3, a4, a5, a6, a7, a8, a9, a10, a11⟩ :=
      runLoop1_spec co hco st.nodes.length st off len st.runnI
        (Nat.le_add_left _ _) hz hW hR
    have hf1 := runLoop1_frame co st.nodes.length st off len st.runnI
    set r1 := runLoop1 co st.nodes.length st off len st.runnI with hr1
    have hlen1 : r1.1.nodes.length = st.nodes.length := hf1.1.1
    have hrn1 : r1.1.runnI = st.runnI := hf1.1.2.1
    have hprep2 : ∀ m, r1.1.runnI ≤ m → m < r1.1.nodes.length →
        (∀ m', r1.1.runnI ≤ m' → m' ≤ m →
          0 ≤ (r1.1.nodes.getD m' defRunN).pos) →
        (r1.1.nodes.getD m defRunN).prepared = true := by
      intro m h1 h2 hall
      refine a7 m (by omega) (by omega) ?_
      intro m' hm1 hm2
      by_contra hneg
      push_neg at hneg
      have he := a9 m' hneg
      have hge := hall m' (by omega) hm2
      omega
    have hfd2 : ∀ p, r1.1.runnI ≤ p → p < r1.1.nodes.length →
        (r1.1.nodes.getD p defRunN).pos < 0 →
        (∀ m', r1.1.runnI ≤ m' → m' < p →
          0 ≤ (r1.1.nodes.getD m' defRunN).pos) →
        r1.2.1 ≤ u32ofInt (-(r1.1.nodes.getD p defRunN).pos) := by
      intro p h1 h2 h3 h4
      have hsp : (st.nodes.getD p defRunN).pos < 0 := by
        by_contra hneg
        push_neg at hneg
        have hge := a10 p hneg
        omega
      have hpp := a9 p hsp
      rw [hpp]
      refine a8 p (by omega) (by omega) hsp ?_
      intro m' hm1 hm2
      by_contra hneg
      push_neg at hneg
      have he := a9 m' hneg
      have hge := h4 m' (by omega) hm2
      omega
    obtain ⟨c1, c2, c3, c4, c5⟩ :=
      runLoop2_spec co r1.1.nodes.length r1.1 off r1.2.1 r1.1.runnI
        (Nat.le_add_left _ _) a2 hprep2 hfd2
    have hf2 := runLoop2_frame co r1.1.nodes.length r1.1 off r1.2.1
      r1.1.runnI
    set r2 := runLoop2 co r1.1.nodes.length r1.1 off r1.2.1 r1.1.runnI
      with hr2
    have hrn2 : r2.1.runnI = r1.1.runnI := hf2.2.1
    have hlen2 : r2.1.nodes.length = r1.1.nodes.length := hf2.1
    dsimp only
    split
    · -- a pending delay clipped the block: recurse on the remainder
      have hW3 : ∀ m, m < r2.1.runnI → m < r2.1.nodes.length →
          (r2.1.nodes.getD m defRunN).prepared = true := by
        intro m h1 h2
        rw [c2 m]
        exact a4 m (hW m (by omega) (by omega))
      have hR3 : ∀ j q, j < r2.1.nodes.length →
          (r2.1.nodes.getD j defRunN).refPrev = some q → q < j := by
        intro j q h1 h2
        rw [(c4 j).1, (a3 j).1] at h2
        exact hR j q (by omega) h2
      obtain ⟨ihF, ihD, ihR⟩ := ih r2.1 (off + r1.2.1) r1.2.2.1 c5 hW3 hR3
      refine ⟨?_, ?_, ?_⟩
      · intro j b hf
        rcases List.mem_append.mp hf with hf12 | hfr
        · rcases List.mem_append.mp hf12 with hfA | hfB
          · obtain ⟨j', he, _, _, _⟩ := a1 _ hfA
            simp only [Ev.fire.injEq] at he
            obtain ⟨hj, hb⟩ := he
            omega
          · obtain ⟨m2, l2, he2, _, _⟩ := c1 _ hfB
            exact absurd he2 (by simp)
        · have hge := ihF j b hfr
          omega
      · intro m h1 h2
        obtain ⟨hp1, ha1⟩ := a5 m h1 h2
        have hp2 : (r2.1.nodes.getD m defRunN).prepared = true := by
          rw [c2 m]
          exact hp1
        have ha2 : (r2.1.nodes.getD m defRunN).active = false := by
          rcases hacteq : (r2.1.nodes.getD m defRunN).active
          · rfl
          · have hc := c3 m hacteq
            rw [ha1] at hc
            exact Bool.noConfusion hc
        obtain ⟨ihDn, ihDp, ihDa⟩ := ihD m hp2 ha2
        refine ⟨?_, ihDp, ihDa⟩
        intro o l hmem
        rcases List.mem_append.mp hmem with h12 | hrr
        · rcases List.mem_append.mp h12 with hA | hB
          · obtain ⟨j', he, _, _, _⟩ := a1 _ hA
            exact absurd he (by simp)
          · obtain ⟨m2, l2, he, _, hact2⟩ := c1 _ hB
            simp only [Ev.render.injEq] at he
            obtain ⟨hm2, _, _⟩ := he
            rw [← hm2] at hact2
            rw [ha1] at hact2
            exact Bool.noConfusion hact2
        · exact ihDn o l hrr
      · intro j b q o l hf hq hrend
        rcases List.mem_append.mp hf with hf12 | hfr
        · rcases List.mem_append.mp hf12 with hfA | hfB
          · obtain ⟨j', he, _, _, _⟩ := a1 _ hfA
            simp only [Ev.fire.injEq] at he
            obtain ⟨hj, hb⟩ := he
            rw [hb] at hfA ⊢
            obtain ⟨hqp, hqa⟩ := a6 j q hfA hq
            rcases List.mem_append.mp hrend with hr12 | hrr
            · rcases List.mem_append.mp hr12 with hrA | hrB
              · obtain ⟨j2, he2, _, _, _⟩ := a1 _ hrA
                exact absurd he2 (by simp)
              · obtain ⟨m2, l2, he2, _, hact2⟩ := c1 _ hrB
                simp only [Ev.render.injEq] at he2
                obtain ⟨hm2, _, _⟩ := he2
                rw [← hm2] at hact2
                rw [hqa] at hact2
                exact Bool.noConfusion hact2
            · have hqp2 : (r2.1.nodes.getD q defRunN).prepared = true := by
                rw [c2 q]
                exact hqp
              have hqa2 : (r2.1.nodes.getD q defRunN).active = false := by
                rcases hacteq : (r2.1.nodes.getD q defRunN).active
                · rfl
                · have hc := c3 q hacteq
                  rw [hqa] at hc
                  exact Bool.noConfusion hc
              exact absurd hrr ((ihD q hqp2 hqa2).1 o l)
          · obtain ⟨m2, l2, he2, _, _⟩ := c1 _ hfB
            exact absurd he2 (by simp)
        · have hbge := ihF j b hfr
          rcases List.mem_append.mp hrend with hr12 | hrr
          · rcases List.mem_append.mp hr12 with hrA | hrB
            · obtain ⟨j2, he2, _, _, _⟩ := a1 _ hrA
              exact absurd he2 (by simp)
            · obtain ⟨m2, l2, he2, hl2, _⟩ := c1 _ hrB
              simp only [Ev.render.injEq] at he2
              obtain ⟨hm2, ho, hl⟩ := he2
              omega
          · have hq2 : (r2.1.nodes.getD j defRunN).refPrev = some q := by
              rw [(c4 j).1, (a3 j).1]
              exact hq
            exact ihR j b q o l hfr hq2 hrr
    · -- no remainder: the call ends with this block
      refine ⟨?_, ?_, ?_⟩
      · intro j b hf
        rcases List.mem_append.mp hf with hfA | hfB
        · obtain ⟨j', he, _, _, _⟩ := a1 _ hfA
          simp only [Ev.fire.injEq] at he
          obtain ⟨hj, hb⟩ := he
          omega
        · obtain ⟨m2, l2, he2, _, _⟩ := c1 _ hfB
          exact absurd he2 (by simp)
      · intro m h1 h2
        obtain ⟨hp1, ha1⟩ := a5 m h1 h2
        refine ⟨?_, ?_, ?_⟩
        · intro o l hmem
          rcases List.mem_append.mp hmem with hA | hB
          · obtain ⟨j', he, _, _, _⟩ := a1 _ hA
            exact absurd he (by simp)
          · obtain ⟨m2, l2, he, _, hact2⟩ := c1 _ hB
            simp only [Ev.render.injEq] at he
            obtain ⟨hm2, _, _⟩ := he
            rw [← hm2] at hact2
            rw [ha1] at hact2
            exact Bool.noConfusion hact2
        · rw [c2 m]
          exact hp1
        · rcases hacteq : (r2.1.nodes.getD m defRunN).active
          · rfl
          · have hc := c3 m hacteq
            rw [ha1] at hc
            exact Bool.noConfusion hc
      · intro j b q o l hf hq hrend
        rcases List.mem_append.mp hf with hfA | hfB
        · obtain ⟨j', he, _, _, _⟩ := a1 _ hfA
          simp only [Ev.fire.injEq] at he
          obtain ⟨hj, hb⟩ := he
          rw [hb] at hfA ⊢
          obtain ⟨hqp, hqa⟩ := a6 j q hfA hq
          rcases List.mem_append.mp hrend with hrA | hrB
          · obtain ⟨j2, he2, _, _, _⟩ := a1 _ hrA
            exact absurd he2 (by simp)
          · obtain ⟨m2, l2, he2, _, hact2⟩ := c1 _ hrB
            simp only [Ev.render.injEq] at he2
            obtain ⟨hm2, _, _⟩ := he2
            rw [← hm2] at hact2
            rw [hqa] at hact2
            exact Bool.noConfusion hact2
        · obtain ⟨m2, l2, he2, _, _⟩ := c1 _ hfB
          exact absurd he2 (by simp)

/-- C4: a run node with a non-null `ref_prev` clears the referenced
predecessor's `ACTIVE` status when it is prepared
(`MGS_Generator_prepare_node`), and over a whole `MGS_Generator_run`
call — whose processing blocks are clipped so none extends past a
pending node's wait boundary — a node fired at boundary sample `b` has
its predecessor contribute no samples at or after `b`: every render of
the predecessor covers `[o, o + l)` with `o + l ≤ b`.  Hypotheses: the
per-node time snaps are zero (`co`), a pending `delay_offs` only exists
while flagged, nodes below `runn_i` are prepared, and `ref_prev` points
strictly backwards (as the allocation pass lays nodes out). -/
theorem predecessor_deactivation_spec (co : Nat → Int)
    (hco : ∀ n, co n = 0) (st : GenSt) (len : Nat)
    (hz : st.timeFlags = true → st.delayOffs = 0)
    (hW : ∀ m, m < st.runnI → m < st.nodes.length →
      (st.nodes.getD m defRunN).prepared = true)
    (hR : ∀ j q, j < st.nodes.length →
      (st.nodes.getD j defRunN).refPrev = some q → q < j) :
    (∀ i q, i < st.nodes.length →
      (st.nodes.getD i defRunN).refPrev = some q →
      ((MGS_Generator_prepare_node co st i).nodes.getD q defRunN).active
        = false) ∧
    (∀ j b q o l,
      Ev.fire j b ∈ (MGS_Generator_run co st len).2.2 →
      (st.nodes.getD j defRunN).refPrev = some q →
      Ev.render q o l ∈ (MGS_Generator_run co st len).2.2 →
      o + l ≤ b) := by
  constructor
  · intro i q hi hrp
    have hqi : q < i := hR i q hi hrp
    exact ((prepare_node_getD co st i hi).2.2 q (by omega) hrp).1
  · have hlog : (MGS_Generator_run co st len).2.2 =
        (runProcess co (len + 1) st 0 len).2 := rfl
    rw [hlog]
    exact (runProcess_spec co hco (len + 1) st 0 len hz hW hR).2.2

/-- Witness for C4: two run nodes, the second referring back to the
first; preparing the second deactivates the first, and the run-level
boundary property holds on this input. -/
theorem predecessor_deactivation_spec_witness :
    ((∀ (n : Nat), (fun (_ : Nat) => (0 : Int)) n = 0) ∧
     ((⟨0, [⟨0, false, true, none, 0, ⟨none, false⟩⟩,
         ⟨0, false, false, some 0, 1, ⟨none, false⟩⟩],
        [⟨4, true⟩, ⟨4, true⟩], 0, false⟩ : GenSt).timeFlags = true →
       (⟨0, [⟨0, false, true, none, 0, ⟨none, false⟩⟩,
          ⟨0, false, false, some 0, 1, ⟨none, false⟩⟩],
         [⟨4, true⟩, ⟨4, true⟩], 0, false⟩ : GenSt).delayOffs = 0)) ∧
    (∀ (i q : Nat),
      i < (⟨0, [⟨0, false, true, none, 0, ⟨none, false⟩⟩,
          ⟨0, false, false, some 0, 1, ⟨none, false⟩⟩],
         [⟨4, true⟩, ⟨4, true⟩], 0, false⟩ : GenSt).nodes.length →
      ((⟨0, [⟨0, false, true, none, 0, ⟨none, false⟩⟩,
          ⟨0, false, false, some 0, 1, ⟨none, false⟩⟩],
         [⟨4, true⟩, ⟨4, true⟩], 0, false⟩ : GenSt).nodes.getD i
          defRunN).refPrev = some q →
      ((MGS_Generator_prepare_node (fun _ => 0)
          ⟨0, [⟨0, false, true, none, 0, ⟨none, false⟩⟩,
            ⟨0, false, false, some 0, 1, ⟨none, false⟩⟩],
           [⟨4, true⟩, ⟨4, true⟩], 0, false⟩ i).nodes.getD q
          defRunN).active = false) := by
  refine ⟨⟨fun n => rfl, by decide⟩, ?_⟩
  refine (predecessor_deactivation_spec (fun _ => 0) (fun n => rfl)
    ⟨0, [⟨0, false, true, none, 0, ⟨none, false⟩⟩,
      ⟨0, false, false, some 0, 1, ⟨none, false⟩⟩],
     [⟨4, true⟩, ⟨4, true⟩], 0, false⟩ 4 (by decide) ?_ ?_).1
  · intro m hm _
    exact absurd (show m < 0 from hm) (by omega)
  · intro j q hj hq
    have hj2 : j < 2 := hj
    interval_cases j
    · have h0 : ((⟨0, [⟨0, false, true, none, 0, ⟨none, false⟩⟩,
          ⟨0, false, false, some 0, 1, ⟨none, false⟩⟩],
         [⟨4, true⟩, ⟨4, true⟩], 0, false⟩ : GenSt).nodes.getD 0
          defRunN).refPrev = none := by decide
      rw [h0] at hq
      exact Option.noConfusion hq
    · have h1 : ((⟨0, [⟨0, false, true, none, 0, ⟨none, false⟩⟩,
          ⟨0, false, false, some 0, 1, ⟨none, false⟩⟩],
         [⟨4, true⟩, ⟨4, true⟩], 0, false⟩ : GenSt).nodes.getD 1
          defRunN).refPrev = some 0 := by decide
      rw [h1] at hq
      injection hq with hq0
      omega


end Saugns
